import Mathlib

/-! # Wavelet-Transform-2D: in-place 2D Haar DWT and inverse DWT

Shallow embedding of `src/main.cpp`.

* The sample buffer `unsigned char* arr` is a map from flat index to the stored
  byte; `*(arr + n) = v` is `Function.update arr n v`.
* Every `do { ... } while (...)` loop is run with an explicit iteration budget
  (`fuel`) and answers `none` when the budget is used up, so a function that
  contains such a loop returns an `Option`.
* The index variables of the program (`int`, `unsigned int`) are natural
  numbers here.  Where the program relies on a signed value (`L/2 - 1` and
  `L - 2` for `L < 2`) the loop bound is written so that the same iterations
  run; this is recorded at each such place.  The index arithmetic
  `i*colLen + j` is exact as long as `rowLen * colLen ≤ 2^31`.
* The access traces record the `int` offsets of the lifting loops
  (`int n = i*colLen + j`) with their 32-bit value `toInt32`, so the traces
  also tell where that limit is passed.
-/

namespace Wavelet2D

/-! ## Data model -/

/-- Flat sample buffer: `arr n` is the byte stored at `*(arr + n)`. -/
abbrev Buf := Nat → Nat

/-! ## Lifting arithmetic (lines 140-141, 156-157, 189-190, 205-206) -/

/-- Numerator of `SQRT_2 = 1.414214f`: the binary32 value is
`11863287 / 2^23`. -/
def SQRT_2_num : Int := 11863287

/-- Denominator `2^23` of the binary32 value of `SQRT_2`. -/
def SQRT_2_den : Int := 8388608

/-- The conversion `(int)((x / SQRT_2) + 0.5)` for an integer `x`: the value
`x / SQRT_2 + 1/2 = (2 x d + n) / (2 n)` truncated toward zero. -/
def roundDiv (x : Int) : Int :=
  Int.tdiv (2 * x * SQRT_2_den + SQRT_2_num) (2 * SQRT_2_num)

/-- Storing an `int` into an `unsigned char`: reduction modulo 256. -/
def toUChar (z : Int) : Nat := (z % 256).toNat

/-- Stored trend of the pair `(a, b)`: `(int)(((a + b)/SQRT_2) + 0.5)` as a byte. -/
def trend (a b : Nat) : Nat := toUChar (roundDiv ((a : Int) + (b : Int)))

/-- Stored fluctuation of the pair `(a, b)`: `(int)(((a - b)/SQRT_2) + 0.5)` as a byte. -/
def fluct (a b : Nat) : Nat := toUChar (roundDiv ((a : Int) - (b : Int)))

/-- One lifting step on the cells `n` and `n + v`:
`iTemp01 = arr[n]; iTemp02 = arr[n+v]; arr[n] = trend; arr[n+v] = fluctuation`. -/
def liftStep (arr : Buf) (n v : Nat) : Buf :=
  let iTemp01 := arr n
  let iTemp02 := arr (n + v)
  let arr1 := Function.update arr n (trend iTemp01 iTemp02)
  Function.update arr1 (n + v) (fluct iTemp01 iTemp02)

/-! ### The same conversion with the binary32 quotient

In the program `x / SQRT_2` is a `float` division: the quotient is rounded to
24 significant bits (to nearest, ties to even) before `0.5` is added in
`double`, which is exact.  `roundDivF32` computes the conversion with that
rounding; `roundDivF32_eq_roundDiv` shows that for every sum or difference
of two bytes it gives the value of `roundDiv`. -/

/-- Number of halvings that bring `n` below 2 (the position of its leading
bit), at most `fuel` of them. -/
def ilog2 : Nat → Nat → Nat
  | 0, _ => 0
  | fuel + 1, n => if n < 2 then 0 else 1 + ilog2 fuel (n / 2)

/-- The quotient `p / q` rounded to the nearest integer, ties to even. -/
def roundNearestEven (p q : Nat) : Nat :=
  if 2 * (p % q) < q then p / q
  else if q < 2 * (p % q) then p / q + 1
  else if (p / q) % 2 = 0 then p / q
  else p / q + 1

/-- The binary32 quotient `n / SQRT_2` for `n ≥ 1`, as a pair `(mant, shift)`
with value `mant / 2 ^ shift`: `shift` is chosen so that the exact quotient
scaled by `2 ^ shift` lies in `[2^23, 2^24)`. -/
def f32Quot (n : Nat) : Nat × Nat :=
  let shift := 24 - ilog2 64 (2 * n * 8388608 / 11863287)
  (roundNearestEven (n * 8388608 * 2 ^ shift) 11863287, shift)

/-- The conversion `(int)((x / SQRT_2) + 0.5)` with the quotient rounded to
binary32. -/
def roundDivF32 (x : Int) : Int :=
  if x = 0 then 0
  else
    let q := f32Quot x.natAbs
    if 0 < x then Int.tdiv (2 * (q.1 : Int) + 2 ^ q.2) (2 ^ (q.2 + 1))
    else Int.tdiv (-(2 * (q.1 : Int)) + 2 ^ q.2) (2 ^ (q.2 + 1))

/-! ## Loops -/

/-- The loop `do { body } while (cond)`: `body` answers the new state and
whether it left through `break`.  At most `fuel` iterations are run. -/
def doWhile {σ : Type} (body : σ → σ × Bool) (cond : σ → Bool) : Nat → σ → Option σ
  | 0, _ => none
  | fuel + 1, s =>
    let r := body s
    if r.2 then some r.1
    else if cond r.1 then doWhile body cond fuel r.1
    else some r.1

/-- Local state of one cycle walk inside the four rearrange functions:
the buffer, the `indexMask` table, `valueTemp` and `indexTemp02`. -/
structure Walk where
  arr : Buf
  indexMask : Nat → Nat
  valueTemp : Nat
  indexTemp02 : Nat

/-! ## rearrange2DFromLR (lines 215-299) -/

/-- Body of the `do`-`while` of `rearrange2DFromLR` (lines 246-296). -/
def rearrange2DFromLR_body (colLen quartLen lastMidOddIndex i j : Nat) (s : Walk) :
    Walk × Bool :=
  if s.indexTemp02 % 2 = 0 then
    let indexTemp01 := s.indexTemp02 / 2
    if indexTemp01 = j then
      ({ s with arr := Function.update s.arr (i * colLen + j) s.valueTemp }, true)
    else
      let arr1 := Function.update s.arr (i * colLen + j) (s.arr (i * colLen + indexTemp01))
      let arr2 := Function.update arr1 (i * colLen + indexTemp01) s.valueTemp
      ({ s with arr := arr2, valueTemp := arr2 (i * colLen + j),
                indexTemp02 := indexTemp01 }, false)
  else
    let indexTemp01 := s.indexTemp02 + lastMidOddIndex - (s.indexTemp02 - 1) / 2
    if s.indexTemp02 = j then
      let valueTemp := s.arr (i * colLen + indexTemp01)
      let arr1 := Function.update s.arr (i * colLen + indexTemp01)
        (s.arr (i * colLen + s.indexTemp02))
      ({ s with arr := arr1, valueTemp := valueTemp, indexTemp02 := indexTemp01 }, false)
    else
      let arr1 := Function.update s.arr (i * colLen + j) (s.arr (i * colLen + indexTemp01))
      let arr2 := Function.update arr1 (i * colLen + indexTemp01) s.valueTemp
      let indexMask :=
        if s.indexTemp02 ≤ lastMidOddIndex ∧ quartLen > 0 then
          Function.update s.indexMask (s.indexTemp02 / 2) 1
        else s.indexMask
      ({ arr := arr2, indexMask := indexMask, valueTemp := arr2 (i * colLen + j),
         indexTemp02 := indexTemp01 }, false)

/-- Row packer `rearrange2DFromLR(arr, rowLen, colLen, decimatingColLen,
decimatingRowIndex)`.  `lastMidOddIndex` is `decimatingColLen/2 - 1`; the
seeds `j = 1, 3, ...` with `j <= lastMidOddIndex` are the first
`(lastMidOddIndex + 1) / 2` odd numbers (none when `decimatingColLen < 4`, also
where the signed value is `-1`).  `valueTemp` is not initialised in the
program; the first iteration of every walk assigns it. -/
def rearrange2DFromLR (fuel : Nat) (arr : Buf) (rowLen colLen decimatingColLen
    decimatingRowIndex : Nat) : Option Buf :=
  let _ := rowLen
  let i := decimatingRowIndex
  let quartLen := decimatingColLen / 4
  let lastMidOddIndex := decimatingColLen / 2 - 1
  ((List.range' 1 ((lastMidOddIndex + 1) / 2) 2).foldlM
    (fun (st : Buf × (Nat → Nat)) j =>
      if quartLen > 0 ∧ st.2 (j / 2) ≠ 0 then some st
      else
        (doWhile (rearrange2DFromLR_body colLen quartLen lastMidOddIndex i j)
          (fun s => decide (s.indexTemp02 ≠ j)) fuel
          { arr := st.1, indexMask := st.2, valueTemp := 0, indexTemp02 := j }).map
          (fun s => (s.arr, s.indexMask)))
    (arr, fun _ => 0)).map Prod.fst

/-! ## revertRearrange2DFromLR (lines 302-402) -/

/-- Body of the `do`-`while` of `revertRearrange2DFromLR` (lines 334-399).
`indexTemp01 = 2*indexTemp02 - lastEvenIndex - 1` with
`lastEvenIndex = runningColLen - 2` is `2*indexTemp02 + 1 - runningColLen`. -/
def revertRearrange2DFromLR_body (colLen quartLen runningColLen halfLen i j : Nat)
    (s : Walk) : Walk × Bool :=
  if s.indexTemp02 < halfLen then
    let indexTemp01 := 2 * s.indexTemp02
    if indexTemp01 = j then
      ({ s with arr := Function.update s.arr (i * colLen + j) s.valueTemp }, true)
    else
      let arr1 := Function.update s.arr (i * colLen + j) (s.arr (i * colLen + indexTemp01))
      let arr2 := Function.update arr1 (i * colLen + indexTemp01) s.valueTemp
      ({ s with arr := arr2, valueTemp := arr2 (i * colLen + j),
                indexTemp02 := indexTemp01 }, false)
  else
    let indexTemp01 := 2 * s.indexTemp02 + 1 - runningColLen
    if s.indexTemp02 = j then
      let valueTemp := s.arr (i * colLen + indexTemp01)
      let arr1 := Function.update s.arr (i * colLen + indexTemp01)
        (s.arr (i * colLen + s.indexTemp02))
      ({ s with arr := arr1, valueTemp := valueTemp, indexTemp02 := indexTemp01 }, false)
    else
      let arr1 := Function.update s.arr (i * colLen + j) (s.arr (i * colLen + indexTemp01))
      let arr2 := Function.update arr1 (i * colLen + indexTemp01) s.valueTemp
      let indexMask :=
        if s.indexTemp02 % 2 = 0 ∧ quartLen > 0 then
          Function.update s.indexMask ((s.indexTemp02 - halfLen) / 2) 1
        else s.indexMask
      ({ arr := arr2, indexMask := indexMask, valueTemp := arr2 (i * colLen + j),
         indexTemp02 := indexTemp01 }, false)

/-- Row unpacker `revertRearrange2DFromLR(arr, rowLen, colLen, runningColLen,
runningRowIndex)`.  The seeds are `j = halfLen, halfLen + 2, ...` with
`j <= lastEvenIndex = runningColLen - 2` (a signed comparison), that is the
first `(runningColLen - halfLen) / 2` of them. -/
def revertRearrange2DFromLR (fuel : Nat) (arr : Buf) (rowLen colLen runningColLen
    runningRowIndex : Nat) : Option Buf :=
  let _ := rowLen
  let i := runningRowIndex
  let quartLen := runningColLen / 4
  let halfLen := runningColLen / 2
  ((List.range' halfLen ((runningColLen - halfLen) / 2) 2).foldlM
    (fun (st : Buf × (Nat → Nat)) j =>
      if quartLen > 0 ∧ st.2 ((j - halfLen) / 2) ≠ 0 then some st
      else
        (doWhile (revertRearrange2DFromLR_body colLen quartLen runningColLen halfLen i j)
          (fun s => decide (s.indexTemp02 ≠ j)) fuel
          { arr := st.1, indexMask := st.2, valueTemp := 0, indexTemp02 := j }).map
          (fun s => (s.arr, s.indexMask)))
    (arr, fun _ => 0)).map Prod.fst

/-! ## rearrange2DFromTC (lines 406-493) -/

/-- Body of the `do`-`while` of `rearrange2DFromTC` (lines 437-490). -/
def rearrange2DFromTC_body (colLen quartLen lastMidOddIndex j i : Nat) (s : Walk) :
    Walk × Bool :=
  if s.indexTemp02 % 2 = 0 then
    let indexTemp01 := s.indexTemp02 / 2
    if indexTemp01 = i then
      ({ s with arr := Function.update s.arr (j + i * colLen) s.valueTemp }, true)
    else
      let arr1 := Function.update s.arr (j + i * colLen) (s.arr (j + indexTemp01 * colLen))
      let arr2 := Function.update arr1 (j + indexTemp01 * colLen) s.valueTemp
      ({ s with arr := arr2, valueTemp := arr2 (j + i * colLen),
                indexTemp02 := indexTemp01 }, false)
  else
    let indexTemp01 := s.indexTemp02 + lastMidOddIndex - (s.indexTemp02 - 1) / 2
    if s.indexTemp02 = i then
      let valueTemp := s.arr (j + indexTemp01 * colLen)
      let arr1 := Function.update s.arr (j + indexTemp01 * colLen)
        (s.arr (j + s.indexTemp02 * colLen))
      ({ s with arr := arr1, valueTemp := valueTemp, indexTemp02 := indexTemp01 }, false)
    else
      let arr1 := Function.update s.arr (j + i * colLen) (s.arr (j + indexTemp01 * colLen))
      let arr2 := Function.update arr1 (j + indexTemp01 * colLen) s.valueTemp
      let indexMask :=
        if s.indexTemp02 ≤ lastMidOddIndex ∧ quartLen > 0 then
          Function.update s.indexMask (s.indexTemp02 / 2) 1
        else s.indexMask
      ({ arr := arr2, indexMask := indexMask, valueTemp := arr2 (j + i * colLen),
         indexTemp02 := indexTemp01 }, false)

/-- Column packer `rearrange2DFromTC(arr, rowLen, colLen, decimatingRowLen,
decimatingColumnIndex)`; the seeds are the odd row indices
`i = 1, 3, ... <= decimatingRowLen/2 - 1`. -/
def rearrange2DFromTC (fuel : Nat) (arr : Buf) (rowLen colLen decimatingRowLen
    decimatingColumnIndex : Nat) : Option Buf :=
  let _ := rowLen
  let j := decimatingColumnIndex
  let quartLen := decimatingRowLen / 4
  let lastMidOddIndex := decimatingRowLen / 2 - 1
  ((List.range' 1 ((lastMidOddIndex + 1) / 2) 2).foldlM
    (fun (st : Buf × (Nat → Nat)) i =>
      if quartLen > 0 ∧ st.2 (i / 2) ≠ 0 then some st
      else
        (doWhile (rearrange2DFromTC_body colLen quartLen lastMidOddIndex j i)
          (fun s => decide (s.indexTemp02 ≠ i)) fuel
          { arr := st.1, indexMask := st.2, valueTemp := 0, indexTemp02 := i }).map
          (fun s => (s.arr, s.indexMask)))
    (arr, fun _ => 0)).map Prod.fst

/-! ## revertRearrange2DFromTC (lines 496-584) -/

/-- Body of the `do`-`while` of `revertRearrange2DFromTC` (lines 528-581). -/
def revertRearrange2DFromTC_body (colLen quartLen runningRowLen halfLen j i : Nat)
    (s : Walk) : Walk × Bool :=
  if s.indexTemp02 < halfLen then
    let indexTemp01 := 2 * s.indexTemp02
    if indexTemp01 = i then
      ({ s with arr := Function.update s.arr (j + i * colLen) s.valueTemp }, true)
    else
      let arr1 := Function.update s.arr (j + i * colLen) (s.arr (j + indexTemp01 * colLen))
      let arr2 := Function.update arr1 (j + indexTemp01 * colLen) s.valueTemp
      ({ s with arr := arr2, valueTemp := arr2 (j + i * colLen),
                indexTemp02 := indexTemp01 }, false)
  else
    let indexTemp01 := 2 * s.indexTemp02 + 1 - runningRowLen
    if s.indexTemp02 = i then
      let valueTemp := s.arr (j + indexTemp01 * colLen)
      let arr1 := Function.update s.arr (j + indexTemp01 * colLen)
        (s.arr (j + s.indexTemp02 * colLen))
      ({ s with arr := arr1, valueTemp := valueTemp, indexTemp02 := indexTemp01 }, false)
    else
      let arr1 := Function.update s.arr (j + i * colLen) (s.arr (j + indexTemp01 * colLen))
      let arr2 := Function.update arr1 (j + indexTemp01 * colLen) s.valueTemp
      let indexMask :=
        if s.indexTemp02 % 2 = 0 ∧ quartLen > 0 then
          Function.update s.indexMask ((s.indexTemp02 - halfLen) / 2) 1
        else s.indexMask
      ({ arr := arr2, indexMask := indexMask, valueTemp := arr2 (j + i * colLen),
         indexTemp02 := indexTemp01 }, false)

/-- Column unpacker `revertRearrange2DFromTC(arr, rowLen, colLen, runningRowLen,
runningColumnIndex)`; the seeds are `i = halfLen, halfLen + 2, ... <=
runningRowLen - 2`. -/
def revertRearrange2DFromTC (fuel : Nat) (arr : Buf) (rowLen colLen runningRowLen
    runningColumnIndex : Nat) : Option Buf :=
  let _ := rowLen
  let j := runningColumnIndex
  let quartLen := runningRowLen / 4
  let halfLen := runningRowLen / 2
  ((List.range' halfLen ((runningRowLen - halfLen) / 2) 2).foldlM
    (fun (st : Buf × (Nat → Nat)) i =>
      if quartLen > 0 ∧ st.2 ((i - halfLen) / 2) ≠ 0 then some st
      else
        (doWhile (revertRearrange2DFromTC_body colLen quartLen runningRowLen halfLen j i)
          (fun s => decide (s.indexTemp02 ≠ i)) fuel
          { arr := st.1, indexMask := st.2, valueTemp := 0, indexTemp02 := i }).map
          (fun s => (s.arr, s.indexMask)))
    (arr, fun _ => 0)).map Prod.fst

/-! ## waveletTransform2D (lines 120-164) -/

/-- The inner `for (j = 0; j < decimatingColLen; j += 2)` of the row pass on
row `i` (lines 135-142). -/
def rowLift (arr : Buf) (colLen decimatingColLen i : Nat) : Buf :=
  (List.range' 0 ((decimatingColLen + 1) / 2) 2).foldl
    (fun a j => liftStep a (i * colLen + j) 1) arr

/-- The inner `for (i = 0; i < decimatingRowLen; i += 2)` of the column pass on
column `j` (lines 151-158). -/
def colLift (arr : Buf) (colLen decimatingRowLen j : Nat) : Buf :=
  (List.range' 0 ((decimatingRowLen + 1) / 2) 2).foldl
    (fun a i => liftStep a (j + i * colLen) colLen) arr

/-- The `while (level--)` loop of `waveletTransform2D` with its two local
lengths. -/
def waveletTransform2D_loop (fuel rowLen colLen : Nat) :
    Nat → Buf → Nat → Nat → Option Buf
  | 0, arr, _, _ => some arr
  | level + 1, arr, decimatingRowLen, decimatingColLen => do
    let arr1 ← (List.range decimatingRowLen).foldlM
      (fun a i => rearrange2DFromLR fuel (rowLift a colLen decimatingColLen i)
        rowLen colLen decimatingColLen i) arr
    let arr2 ← (List.range decimatingColLen).foldlM
      (fun a j => rearrange2DFromTC fuel (colLift a colLen decimatingRowLen j)
        rowLen colLen decimatingRowLen j) arr1
    waveletTransform2D_loop fuel rowLen colLen level arr2
      (decimatingRowLen / 2) (decimatingColLen / 2)

/-- Forward transform `waveletTransform2D(arr, rowLen, colLen, level)`. -/
def waveletTransform2D (fuel : Nat) (arr : Buf) (rowLen colLen level : Nat) : Option Buf :=
  waveletTransform2D_loop fuel rowLen colLen level arr rowLen colLen

/-! ## invWaveletTransform2D (lines 166-212) -/

/-- The `while (level--)` loop of `invWaveletTransform2D`. -/
def invWaveletTransform2D_loop (fuel rowLen colLen : Nat) :
    Nat → Buf → Nat → Nat → Option Buf
  | 0, arr, _, _ => some arr
  | level + 1, arr, runningRowLen, runningColLen => do
    let arr1 ← (List.range runningColLen).foldlM
      (fun a j => (revertRearrange2DFromTC fuel a rowLen colLen runningRowLen j).map
        (fun a1 => colLift a1 colLen runningRowLen j)) arr
    let arr2 ← (List.range runningRowLen).foldlM
      (fun a i => (revertRearrange2DFromLR fuel a rowLen colLen runningColLen i).map
        (fun a1 => rowLift a1 colLen runningColLen i)) arr1
    invWaveletTransform2D_loop fuel rowLen colLen level arr2
      (runningRowLen * 2) (runningColLen * 2)

/-- Inverse transform `invWaveletTransform2D(arr, rowLen, colLen, level)`;
`1 << level` is `2 ^ level`. -/
def invWaveletTransform2D (fuel : Nat) (arr : Buf) (rowLen colLen level : Nat) :
    Option Buf :=
  invWaveletTransform2D_loop fuel rowLen colLen level arr
    (2 * rowLen / 2 ^ level) (2 * colLen / 2 ^ level)

/-! ## validateLength (lines 586-613) -/

/-- What a call of `validateLength` leaves behind: the returned
`unsigned char`, the value of `*pI`, and the lines written to `std::cout`. -/
structure Validated where
  ret : Nat
  pI : Nat
  out : List String
  deriving DecidableEq, Repr

/-- The `do`-`while` of `validateLength` (lines 601-610), entered with the
current `*pI` and the halved `length`. -/
def validateLength_loop : Nat → Nat → Nat → Option Validated
  | 0, _, _ => none
  | fuel + 1, pI, length =>
    if length % 2 = 1 then
      some { ret := 0, pI := pI, out := ["Length of array is not a power of 2"] }
    else
      if length / 2 ≠ 1 then validateLength_loop fuel (pI + 1) (length / 2)
      else some { ret := 1, pI := pI + 1, out := [] }

/-- The length validator `validateLength(pI, length)`; `pI` is the value
`*pI` holds before the call. -/
def validateLength (fuel : Nat) (pI : Nat) (length : Nat) : Option Validated :=
  let ch := if length = 0 ∨ length = 1 then 'a' else if length % 2 = 1 then 'b' else 'c'
  if ch = 'a' then
    some { ret := 0, pI := pI, out := ["Length of array cannot be 0 or 1"] }
  else if ch = 'b' then
    some { ret := 0, pI := pI, out := ["Length of array cannot be odd"] }
  else
    validateLength_loop fuel 1 (length / 2)

/-! ## Auxiliary definitions for the proofs -/

/-- The shape shared by the four `do`-`while` bodies: `addr` maps an offset of
the line to its flat index, `inA` selects the first branch, `nextA` and
`nextB` compute `indexTemp01` in the two branches, `mark` and `idx` are the
test and the table index of the `indexMask` update. -/
def gBody (addr : Nat → Nat) (inA : Nat → Prop) [DecidablePred inA] (nextA nextB : Nat → Nat)
    (mark : Nat → Prop) [DecidablePred mark] (idx : Nat → Nat) (j : Nat) (s : Walk) :
    Walk × Bool :=
  if inA s.indexTemp02 then
    let indexTemp01 := nextA s.indexTemp02
    if indexTemp01 = j then
      ({ s with arr := Function.update s.arr (addr j) s.valueTemp }, true)
    else
      let arr1 := Function.update s.arr (addr j) (s.arr (addr indexTemp01))
      let arr2 := Function.update arr1 (addr indexTemp01) s.valueTemp
      ({ s with arr := arr2, valueTemp := arr2 (addr j), indexTemp02 := indexTemp01 }, false)
  else
    let indexTemp01 := nextB s.indexTemp02
    if s.indexTemp02 = j then
      let valueTemp := s.arr (addr indexTemp01)
      let arr1 := Function.update s.arr (addr indexTemp01) (s.arr (addr s.indexTemp02))
      ({ s with arr := arr1, valueTemp := valueTemp, indexTemp02 := indexTemp01 }, false)
    else
      let arr1 := Function.update s.arr (addr j) (s.arr (addr indexTemp01))
      let arr2 := Function.update arr1 (addr indexTemp01) s.valueTemp
      let indexMask :=
        if mark s.indexTemp02 then Function.update s.indexMask (idx s.indexTemp02) 1
        else s.indexMask
      ({ arr := arr2, indexMask := indexMask, valueTemp := arr2 (addr j),
         indexTemp02 := indexTemp01 }, false)

/-- The index map walked by `gBody`: one step from offset `x`. -/
def gNext (inA : Nat → Prop) [DecidablePred inA] (nextA nextB : Nat → Nat) (x : Nat) : Nat :=
  if inA x then nextA x else nextB x

/-- The shape shared by the four rearrange functions: the seed loop around the
cycle walk. -/
def gRearrange (addr : Nat → Nat) (inA : Nat → Prop) [DecidablePred inA]
    (nextA nextB : Nat → Nat) (mark : Nat → Prop) [DecidablePred mark] (idx : Nat → Nat)
    (guard : Prop) [Decidable guard] (seeds : List Nat) (fuel : Nat)
    (st : Buf × (Nat → Nat)) : Option (Buf × (Nat → Nat)) :=
  seeds.foldlM
    (fun (st : Buf × (Nat → Nat)) j =>
      if guard ∧ st.2 (idx j) ≠ 0 then some st
      else
        (doWhile (gBody addr inA nextA nextB mark idx j)
          (fun s => decide (s.indexTemp02 ≠ j)) fuel
          { arr := st.1, indexMask := st.2, valueTemp := 0, indexTemp02 := j }).map
          (fun s => (s.arr, s.indexMask)))
    st


/-- Destination of offset `x` under the packer on a segment of length `L`:
`x/2` for even `x` and `x + (L/2 - 1) - (x - 1)/2` for odd `x`, as computed in
`rearrange2DFromLR` and `rearrange2DFromTC`. -/
def packIdx (L x : Nat) : Nat :=
  if x % 2 = 0 then x / 2 else x + (L / 2 - 1) - (x - 1) / 2

/-- Destination of offset `x` under the unpacker on a segment of length `L`:
`2*x` in the lower half and `2*x + 1 - L` in the upper half, as computed in
`revertRearrange2DFromLR` and `revertRearrange2DFromTC`. -/
def unpackIdx (L x : Nat) : Nat :=
  if x < L / 2 then 2 * x else 2 * x + 1 - L

/-- The inner lifting loop along a line: `liftStep` on the pairs at offsets
`0, 2, ..., 2 (n - 1)` of the line `addr`, with `v` the index distance inside
a pair. -/
def gLift (addr : Nat → Nat) (v n : Nat) (arr : Buf) : Buf :=
  (List.range' 0 n 2).foldl (fun a k => liftStep a (addr k) v) arr

/-- Content of a line of length `L` after lifting and packing, in terms of the
content `l` before: trends in the first half, fluctuations in the second. -/
def fwdLineVal (L : Nat) (l : Nat → Nat) (x : Nat) : Nat :=
  if x < L / 2 then trend (l (2 * x)) (l (2 * x + 1))
  else fluct (l (2 * (x - L / 2))) (l (2 * (x - L / 2) + 1))

/-- Content of a line of length `L` after unpacking and lifting, in terms of
the content `l` before. -/
def invLineVal (L : Nat) (l : Nat → Nat) (x : Nat) : Nat :=
  if x % 2 = 0 then trend (l (x / 2)) (l (L / 2 + x / 2))
  else fluct (l (x / 2)) (l (L / 2 + x / 2))

/-- Row pass of one forward level on the `M × M` region of a buffer of row
length `N`. -/
def fwdRows (N M : Nat) (arr : Buf) : Buf := fun a =>
  if a / N < M ∧ a % N < M then fwdLineVal M (fun y => arr (a / N * N + y)) (a % N)
  else arr a

/-- Column pass of one forward level on the `M × M` region. -/
def fwdCols (N M : Nat) (arr : Buf) : Buf := fun a =>
  if a / N < M ∧ a % N < M then fwdLineVal M (fun y => arr (a % N + y * N)) (a / N)
  else arr a

/-- Column pass of one inverse level on the `M × M` region. -/
def invCols (N M : Nat) (arr : Buf) : Buf := fun a =>
  if a / N < M ∧ a % N < M then invLineVal M (fun y => arr (a % N + y * N)) (a / N)
  else arr a

/-- Row pass of one inverse level on the `M × M` region. -/
def invRows (N M : Nat) (arr : Buf) : Buf := fun a =>
  if a / N < M ∧ a % N < M then invLineVal M (fun y => arr (a / N * N + y)) (a % N)
  else arr a

/-- One forward level on the `M × M` region: row pass, then column pass. -/
def fwdLevel (N M : Nat) (arr : Buf) : Buf := fwdCols N M (fwdRows N M arr)

/-- One inverse level on the `M × M` region: column pass, then row pass. -/
def invLevel (N M : Nat) (arr : Buf) : Buf := invRows N M (invCols N M arr)

/-- The forward levels one after the other, the region halving each time. -/
def fwdSpec (N : Nat) : Nat → Nat → Buf → Buf
  | 0, _, arr => arr
  | level + 1, M, arr => fwdSpec N level (M / 2) (fwdLevel N M arr)

/-- The inverse levels one after the other, the region doubling each time. -/
def invSpec (N : Nat) : Nat → Nat → Buf → Buf
  | 0, _, arr => arr
  | level + 1, M, arr => invSpec N level (M * 2) (invLevel N M arr)

/-- The lifting step applied to its own result `(trend, fluctuation)` gives
back the pair `(a, b)`. -/
def liftUndone (a b : Nat) : Prop :=
  trend (trend a b) (fluct a b) = a ∧ fluct (trend a b) (fluct a b) = b

instance (a b : Nat) : Decidable (liftUndone a b) := by
  unfold liftUndone; infer_instance

/-- Every lifting step of one forward level on the `M × M` region is undone by
a second lifting step: the row pairs of `arr`, and the column pairs of the
buffer left by the row pass. -/
def LevelUndone (N M : Nat) (arr : Buf) : Prop :=
  (∀ r, r < M → ∀ c, c < M / 2 →
    liftUndone (arr (r * N + 2 * c)) (arr (r * N + (2 * c + 1)))) ∧
  (∀ c, c < M → ∀ r, r < M / 2 →
    liftUndone (fwdRows N M arr (c + 2 * r * N)) (fwdRows N M arr (c + (2 * r + 1) * N)))

/-- Every lifting step of `level` forward levels, starting on the `M × M`
region, is undone by a second lifting step. -/
def AllUndone (N : Nat) : Nat → Nat → Buf → Prop
  | 0, _, _ => True
  | level + 1, M, arr => LevelUndone N M arr ∧ AllUndone N level (M / 2) (fwdLevel N M arr)

/-- What one forward level makes of the value `d` of a constant square: the
trend of `(d, d)` along the rows, then the trend of that value with itself
along the columns. -/
def constStep (d : Nat) : Nat := trend (trend d d) (trend d d)

/-- The value left in the trend subband of a constant buffer by `level`
forward levels. -/
def constTrend (level c : Nat) : Nat := constStep^[level] c

/-- Inside the `N × N` buffer the cells of the top-left `K × K` square hold `d`
and all other cells hold 0. -/
def ConstRegion (N K d : Nat) (buf : Buf) : Prop :=
  ∀ r col, r < N → col < N → buf (r * N + col) = if r < K ∧ col < K then d else 0

/-- The constant `SQRT_2 = 1.414214f` as a rational number. -/
def SQRT_2q : ℚ := 11863287 / 8388608

/-- The lifting step without rounding and without byte storage:
`((a + b) / SQRT_2, (a - b) / SQRT_2)` in exact arithmetic. -/
def liftExact (p : ℚ × ℚ) : ℚ × ℚ := ((p.1 + p.2) / SQRT_2q, (p.1 - p.2) / SQRT_2q)

/-! ## Access traces

The same functions once more, now recording in program order every access to
`arr`, every access to an `indexMask` table and every call of a packer or
unpacker. -/

/-- Conversion of an `unsigned int` value to `int`, as in the initialisers
`int n = i*colLen + j` and `int v = colLen` of the lifting loops: the value
modulo `2^32` read as a 32-bit two's-complement number. -/
def toInt32 (u : Nat) : Int :=
  if u % 2 ^ 32 < 2 ^ 31 then ((u % 2 ^ 32 : Nat) : Int)
  else ((u % 2 ^ 32 : Nat) : Int) - 2 ^ 32

/-- One recorded step: a read or write of `arr[n]` in a rearrange function
(subscript `(i*colLen)+j`), a read or write of `*(arr + n)` in a lifting loop,
where the offset `n` is an `int`, a read or write of entry `k` of an
`indexMask` table declared with `quartLen` entries, a call of a packer
(`rearrange2DFromLR`, `rearrange2DFromTC`) with segment length `len`, or a
call of an unpacker (`revertRearrange2DFromLR`, `revertRearrange2DFromTC`)
with segment length `len`. -/
inductive Event where
  | arr (n : Nat)
  | arrAt (n : Int)
  | indexMask (quartLen k : Nat)
  | pack (len : Nat)
  | unpack (len : Nat)
  deriving DecidableEq, Repr

/-- An access is in bounds for a buffer of `size` cells: `arr[n]` with
`n < size`, `*(arr + n)` with `0 ≤ n < size`, `indexMask[k]` with `k` below
the declared table length. -/
def Event.InBounds (size : Nat) : Event → Prop
  | Event.arr n => n < size
  | Event.arrAt n => 0 ≤ n ∧ n < (size : Int)
  | Event.indexMask quartLen k => k < quartLen
  | Event.pack _ => True
  | Event.unpack _ => True

/-- The segment length of a packer call. -/
def Event.packLen : Event → Option Nat
  | Event.pack len => some len
  | _ => none

/-- The segment length of an unpacker call. -/
def Event.unpackLen : Event → Option Nat
  | Event.unpack len => some len
  | _ => none

/-- Accesses of one iteration of a cycle walk (`gBody`), in program order:
the `break` branch writes `arr[addr j]`; a move reads `arr[addr indexTemp01]`,
writes `arr[addr j]`, writes `arr[addr indexTemp01]` and reads `arr[addr j]`;
the first iteration reads `arr[addr indexTemp01]`, reads
`arr[addr indexTemp02]` and writes `arr[addr indexTemp01]`; a move in the
second branch writes `indexMask[idx indexTemp02]` when `mark` holds. -/
def gBodyEvents (addr : Nat → Nat) (inA : Nat → Prop) [DecidablePred inA]
    (nextA nextB : Nat → Nat) (mark : Nat → Prop) [DecidablePred mark] (idx : Nat → Nat)
    (quartLen j : Nat) (s : Walk) : List Event :=
  if inA s.indexTemp02 then
    let indexTemp01 := nextA s.indexTemp02
    if indexTemp01 = j then [Event.arr (addr j)]
    else
      [Event.arr (addr indexTemp01), Event.arr (addr j), Event.arr (addr indexTemp01),
        Event.arr (addr j)]
  else
    let indexTemp01 := nextB s.indexTemp02
    if s.indexTemp02 = j then
      [Event.arr (addr indexTemp01), Event.arr (addr s.indexTemp02),
        Event.arr (addr indexTemp01)]
    else
      [Event.arr (addr indexTemp01), Event.arr (addr j), Event.arr (addr indexTemp01),
        Event.arr (addr j)] ++
        (if mark s.indexTemp02 then [Event.indexMask quartLen (idx s.indexTemp02)] else [])

/-- One iteration of a cycle walk together with the trace so far. -/
def gBodyTraced (addr : Nat → Nat) (inA : Nat → Prop) [DecidablePred inA]
    (nextA nextB : Nat → Nat) (mark : Nat → Prop) [DecidablePred mark] (idx : Nat → Nat)
    (quartLen j : Nat) (t : Walk × List Event) : (Walk × List Event) × Bool :=
  (((gBody addr inA nextA nextB mark idx j t.1).1,
    t.2 ++ gBodyEvents addr inA nextA nextB mark idx quartLen j t.1),
   (gBody addr inA nextA nextB mark idx j t.1).2)

/-- The shape shared by the four rearrange functions, with its trace: the
loop that zeroes the `quartLen` entries of `indexMask`, then the seed loop;
the test `(quartLen > 0) && indexMask[idx j]` reads the table only when
`quartLen > 0`. -/
def gRearrangeTraced (addr : Nat → Nat) (inA : Nat → Prop) [DecidablePred inA]
    (nextA nextB : Nat → Nat) (mark : Nat → Prop) [DecidablePred mark] (idx : Nat → Nat)
    (guard : Prop) [Decidable guard] (quartLen : Nat) (seeds : List Nat) (fuel : Nat)
    (st : Buf × (Nat → Nat)) (log : List Event) :
    Option ((Buf × (Nat → Nat)) × List Event) :=
  seeds.foldlM
    (fun (t : (Buf × (Nat → Nat)) × List Event) j =>
      let log1 := t.2 ++ (if guard then [Event.indexMask quartLen (idx j)] else [])
      if guard ∧ t.1.2 (idx j) ≠ 0 then some (t.1, log1)
      else
        (doWhile (gBodyTraced addr inA nextA nextB mark idx quartLen j)
          (fun u => decide (u.1.indexTemp02 ≠ j)) fuel
          ({ arr := t.1.1, indexMask := t.1.2, valueTemp := 0, indexTemp02 := j }, log1)).map
          (fun u => ((u.1.arr, u.1.indexMask), u.2)))
    (st, log ++ (List.range quartLen).map (Event.indexMask quartLen))

/-- Trace of `rearrange2DFromLR`. -/
def rearrange2DFromLR_traced (fuel : Nat) (t : Buf × List Event) (rowLen colLen decimatingColLen
    decimatingRowIndex : Nat) : Option (Buf × List Event) :=
  let _ := rowLen
  let i := decimatingRowIndex
  let quartLen := decimatingColLen / 4
  let lastMidOddIndex := decimatingColLen / 2 - 1
  (gRearrangeTraced (fun k => i * colLen + k) (fun x => x % 2 = 0) (fun x => x / 2)
    (fun x => x + lastMidOddIndex - (x - 1) / 2) (fun x => x ≤ lastMidOddIndex ∧ quartLen > 0)
    (fun x => x / 2) (quartLen > 0) quartLen (List.range' 1 ((lastMidOddIndex + 1) / 2) 2) fuel
    (t.1, fun _ => 0) (t.2 ++ [Event.pack decimatingColLen])).map
    (fun u => (u.1.1, u.2))

/-- Trace of `rearrange2DFromTC`. -/
def rearrange2DFromTC_traced (fuel : Nat) (t : Buf × List Event) (rowLen colLen decimatingRowLen
    decimatingColumnIndex : Nat) : Option (Buf × List Event) :=
  let _ := rowLen
  let j := decimatingColumnIndex
  let quartLen := decimatingRowLen / 4
  let lastMidOddIndex := decimatingRowLen / 2 - 1
  (gRearrangeTraced (fun k => j + k * colLen) (fun x => x % 2 = 0) (fun x => x / 2)
    (fun x => x + lastMidOddIndex - (x - 1) / 2) (fun x => x ≤ lastMidOddIndex ∧ quartLen > 0)
    (fun x => x / 2) (quartLen > 0) quartLen (List.range' 1 ((lastMidOddIndex + 1) / 2) 2) fuel
    (t.1, fun _ => 0) (t.2 ++ [Event.pack decimatingRowLen])).map
    (fun u => (u.1.1, u.2))

/-- Trace of `revertRearrange2DFromLR`. -/
def revertRearrange2DFromLR_traced (fuel : Nat) (t : Buf × List Event) (rowLen colLen
    runningColLen runningRowIndex : Nat) : Option (Buf × List Event) :=
  let _ := rowLen
  let i := runningRowIndex
  let quartLen := runningColLen / 4
  let halfLen := runningColLen / 2
  (gRearrangeTraced (fun k => i * colLen + k) (fun x => x < halfLen) (fun x => 2 * x)
    (fun x => 2 * x + 1 - runningColLen) (fun x => x % 2 = 0 ∧ quartLen > 0)
    (fun x => (x - halfLen) / 2) (quartLen > 0) quartLen
    (List.range' halfLen ((runningColLen - halfLen) / 2) 2) fuel
    (t.1, fun _ => 0) (t.2 ++ [Event.unpack runningColLen])).map
    (fun u => (u.1.1, u.2))

/-- Trace of `revertRearrange2DFromTC`. -/
def revertRearrange2DFromTC_traced (fuel : Nat) (t : Buf × List Event) (rowLen colLen
    runningRowLen runningColumnIndex : Nat) : Option (Buf × List Event) :=
  let _ := rowLen
  let j := runningColumnIndex
  let quartLen := runningRowLen / 4
  let halfLen := runningRowLen / 2
  (gRearrangeTraced (fun k => j + k * colLen) (fun x => x < halfLen) (fun x => 2 * x)
    (fun x => 2 * x + 1 - runningRowLen) (fun x => x % 2 = 0 ∧ quartLen > 0)
    (fun x => (x - halfLen) / 2) (quartLen > 0) quartLen
    (List.range' halfLen ((runningRowLen - halfLen) / 2) 2) fuel
    (t.1, fun _ => 0) (t.2 ++ [Event.unpack runningRowLen])).map
    (fun u => (u.1.1, u.2))

/-- A lifting step with its accesses: reads of `*(arr + n)` and
`*(arr + n + v)`, then writes of `*(arr + n)` and `*(arr + n + v)`.  The
arguments `n` and `v` are the values of the `unsigned int` expressions that
initialise `int n` and `int v`; the recorded offsets are the `int` values. -/
def liftStepTraced (t : Buf × List Event) (n v : Nat) : Buf × List Event :=
  (liftStep t.1 n v,
    t.2 ++ [Event.arrAt (toInt32 n), Event.arrAt (toInt32 n + toInt32 v),
      Event.arrAt (toInt32 n), Event.arrAt (toInt32 n + toInt32 v)])

/-- Trace of the inner loop of the row pass (`rowLift`). -/
def rowLiftTraced (t : Buf × List Event) (colLen decimatingColLen i : Nat) :
    Buf × List Event :=
  (List.range' 0 ((decimatingColLen + 1) / 2) 2).foldl
    (fun a j => liftStepTraced a (i * colLen + j) 1) t

/-- Trace of the inner loop of the column pass (`colLift`). -/
def colLiftTraced (t : Buf × List Event) (colLen decimatingRowLen j : Nat) :
    Buf × List Event :=
  (List.range' 0 ((decimatingRowLen + 1) / 2) 2).foldl
    (fun a i => liftStepTraced a (j + i * colLen) colLen) t

/-- Trace of the `while (level--)` loop of `waveletTransform2D`. -/
def waveletTransform2D_loopTraced (fuel rowLen colLen : Nat) :
    Nat → Buf × List Event → Nat → Nat → Option (Buf × List Event)
  | 0, t, _, _ => some t
  | level + 1, t, decimatingRowLen, decimatingColLen => do
    let t1 ← (List.range decimatingRowLen).foldlM
      (fun a i => rearrange2DFromLR_traced fuel (rowLiftTraced a colLen decimatingColLen i)
        rowLen colLen decimatingColLen i) t
    let t2 ← (List.range decimatingColLen).foldlM
      (fun a j => rearrange2DFromTC_traced fuel (colLiftTraced a colLen decimatingRowLen j)
        rowLen colLen decimatingRowLen j) t1
    waveletTransform2D_loopTraced fuel rowLen colLen level t2
      (decimatingRowLen / 2) (decimatingColLen / 2)

/-- The forward transform with its trace. -/
def waveletTransform2D_traced (fuel : Nat) (arr : Buf) (rowLen colLen level : Nat) :
    Option (Buf × List Event) :=
  waveletTransform2D_loopTraced fuel rowLen colLen level (arr, []) rowLen colLen

/-- Trace of the `while (level--)` loop of `invWaveletTransform2D`. -/
def invWaveletTransform2D_loopTraced (fuel rowLen colLen : Nat) :
    Nat → Buf × List Event → Nat → Nat → Option (Buf × List Event)
  | 0, t, _, _ => some t
  | level + 1, t, runningRowLen, runningColLen => do
    let t1 ← (List.range runningColLen).foldlM
      (fun a j => (revertRearrange2DFromTC_traced fuel a rowLen colLen runningRowLen j).map
        (fun a1 => colLiftTraced a1 colLen runningRowLen j)) t
    let t2 ← (List.range runningRowLen).foldlM
      (fun a i => (revertRearrange2DFromLR_traced fuel a rowLen colLen runningColLen i).map
        (fun a1 => rowLiftTraced a1 colLen runningColLen i)) t1
    invWaveletTransform2D_loopTraced fuel rowLen colLen level t2
      (runningRowLen * 2) (runningColLen * 2)

/-- The inverse transform with its trace. -/
def invWaveletTransform2D_traced (fuel : Nat) (arr : Buf) (rowLen colLen level : Nat) :
    Option (Buf × List Event) :=
  invWaveletTransform2D_loopTraced fuel rowLen colLen level (arr, [])
    (2 * rowLen / 2 ^ level) (2 * colLen / 2 ^ level)

/-- A trace whose events all satisfy `Q` and whose calls selected by `g` have,
in order, the segment lengths `c`. -/
def TraceOk (Q : Event → Prop) (g : Event → Option Nat) (c : List Nat) (l : List Event) :
    Prop :=
  (∀ e, e ∈ l → Q e) ∧ l.filterMap g = c

/-- The property `Q` holds of every event that stays inside an `N × N` buffer
and inside its `indexMask` table, and of every call. -/
def EventsIn (N : Nat) (Q : Event → Prop) : Prop :=
  (∀ n, n < N * N → Q (Event.arr n)) ∧
  (∀ q k, k < q → Q (Event.indexMask q k)) ∧
  (∀ n v, n + v < N * N →
    Q (Event.arrAt (toInt32 n)) ∧ Q (Event.arrAt (toInt32 n + toInt32 v))) ∧
  (∀ len, Q (Event.pack len)) ∧ (∀ len, Q (Event.unpack len))

/-- The calls made level by level: `2 * 2 ^ e` calls with segment length
`2 ^ e`, for the exponents `e = ex 0, ex 1, ..., ex (level - 1)`. -/
def levelCalls (ex : Nat → Nat) (level : Nat) : List Nat :=
  (List.range level).flatMap (fun s => List.replicate (2 * 2 ^ ex s) (2 ^ ex s))

/-! ## Further auxiliary definitions -/

/-- The values of `length` tested by `while (length != 1)` in `validateLength`:
the value after each `length /= 2` inside the `do`-`while` entered with
`length`. -/
def validateLength_loop_halved : Nat → Nat → List Nat
  | 0, _ => []
  | fuel + 1, length =>
    if length % 2 = 1 then []
    else
      length / 2 ::
        (if length / 2 ≠ 1 then validateLength_loop_halved fuel (length / 2) else [])

/-- All halved values of `length` in a call of `validateLength`: the value
after the `length /= 2` of case `'c'`, with which the loop is entered, and
then the values of `validateLength_loop_halved`. -/
def validateLength_halved (fuel : Nat) (length : Nat) : List Nat :=
  let ch := if length = 0 ∨ length = 1 then 'a' else if length % 2 = 1 then 'b' else 'c'
  if ch = 'a' then []
  else if ch = 'b' then []
  else length / 2 :: validateLength_loop_halved fuel (length / 2)

/-- Transposition of the flat indices of an `N × N` buffer:
`r * N + c ↦ c * N + r`; an index outside the buffer stays where it is. -/
def transposeIdx (N n : Nat) : Nat :=
  if n < N * N then n % N * N + n / N else n

/-- The transpose of an `N × N` buffer. -/
def transpose (N : Nat) (A : Buf) : Buf := fun n => A (transposeIdx N n)

/-- A walk state seen through a renaming `σ` of the flat indices. -/
def Walk.reindex (σ : Nat → Nat) (s : Walk) : Walk :=
  { s with arr := fun n => s.arr (σ n) }

/-- The seed loop of `gRearrange` that also records, in order, the seeds whose
cycle walk is run, that is the seeds not skipped by `continue`. -/
def gRearrangeWalked (addr : Nat → Nat) (inA : Nat → Prop) [DecidablePred inA]
    (nextA nextB : Nat → Nat) (mark : Nat → Prop) [DecidablePred mark] (idx : Nat → Nat)
    (guard : Prop) [Decidable guard] (seeds : List Nat) (fuel : Nat)
    (st : (Buf × (Nat → Nat)) × List Nat) : Option ((Buf × (Nat → Nat)) × List Nat) :=
  seeds.foldlM
    (fun (t : (Buf × (Nat → Nat)) × List Nat) j =>
      if guard ∧ t.1.2 (idx j) ≠ 0 then some t
      else
        (doWhile (gBody addr inA nextA nextB mark idx j)
          (fun s => decide (s.indexTemp02 ≠ j)) fuel
          { arr := t.1.1, indexMask := t.1.2, valueTemp := 0, indexTemp02 := j }).map
          (fun s => ((s.arr, s.indexMask), t.2 ++ [j])))
    st

/-- The row packer `rearrange2DFromLR` together with the list of the seeds
`j` for which the `do`-`while` is run. -/
def rearrange2DFromLR_walked (fuel : Nat) (arr : Buf) (rowLen colLen decimatingColLen
    decimatingRowIndex : Nat) : Option (Buf × List Nat) :=
  let _ := rowLen
  let i := decimatingRowIndex
  let quartLen := decimatingColLen / 4
  let lastMidOddIndex := decimatingColLen / 2 - 1
  (gRearrangeWalked (fun k => i * colLen + k) (fun x => x % 2 = 0) (fun x => x / 2)
    (fun x => x + lastMidOddIndex - (x - 1) / 2) (fun x => x ≤ lastMidOddIndex ∧ quartLen > 0)
    (fun x => x / 2) (quartLen > 0) (List.range' 1 ((lastMidOddIndex + 1) / 2) 2) fuel
    ((arr, fun _ => 0), [])).map (fun t => (t.1.1, t.2))

/-! ## The lifting arithmetic -/

set_option maxRecDepth 1000000 in
/-- Rounding the quotient to binary32 before adding `0.5` never changes the
converted value on the range of sums and differences of two bytes. -/
theorem roundDivF32_eq_roundDiv :
    ∀ n : Nat, n < 766 → roundDivF32 ((n : Int) - 255) = roundDiv ((n : Int) - 255) := by
  decide

/-! ## The length validator -/

theorem validateLength_loop_some (fuel : Nat) : ∀ (pI length : Nat) (r : Validated),
    validateLength_loop fuel pI length = some r →
    (r.ret = 1 ∧ r.out = [] ∧ ∃ k, 1 ≤ k ∧ length = 2 ^ k ∧ r.pI = pI + k) ∨
    (r.ret = 0 ∧ r.out = ["Length of array is not a power of 2"] ∧
      ¬ ∃ k, 1 ≤ k ∧ length = 2 ^ k) := by
  induction fuel with
  | zero => intro pI length r h; simp [validateLength_loop] at h
  | succ n ih =>
    intro pI length r h
    unfold validateLength_loop at h
    split_ifs at h with h1 h2
    · right
      cases h
      refine ⟨rfl, rfl, ?_⟩
      rintro ⟨k, hk, rfl⟩
      obtain ⟨m, rfl⟩ : ∃ m, k = m + 1 := ⟨k - 1, by omega⟩
      rw [pow_succ] at h1
      omega
    · rcases ih _ _ _ h with ⟨hr, ho, k, hk, hl, hp⟩ | ⟨hr, ho, hn⟩
      · left
        refine ⟨hr, ho, k + 1, by omega, ?_, by omega⟩
        rw [pow_succ]
        omega
      · right
        refine ⟨hr, ho, ?_⟩
        rintro ⟨k, hk, rfl⟩
        obtain ⟨m, rfl⟩ : ∃ m, k = m + 1 := ⟨k - 1, by omega⟩
        have hm : 2 ^ (m + 1) / 2 = 2 ^ m := by rw [pow_succ]; omega
        rw [hm] at h2
        apply hn
        refine ⟨m, ?_, hm⟩
        rcases Nat.eq_zero_or_pos m with rfl | hpos
        · simp at h2
        · exact hpos
    · left
      cases h
      refine ⟨rfl, rfl, 1, le_refl _, ?_, rfl⟩
      push_neg at h2
      omega

theorem validateLength_loop_total (fuel : Nat) : ∀ (pI length : Nat),
    1 ≤ length → length ≤ fuel → ∃ r, validateLength_loop fuel pI length = some r := by
  induction fuel with
  | zero => intro pI length h1 h2; omega
  | succ n ih =>
    intro pI length h1 h2
    unfold validateLength_loop
    split_ifs with h3 h4
    · exact ⟨_, rfl⟩
    · exact ih _ _ (by omega) (by omega)
    · exact ⟨_, rfl⟩

theorem validateLength_even (fuel pI length : Nat) (h2 : 2 ≤ length) (he : length % 2 = 0) :
    validateLength fuel pI length = validateLength_loop fuel 1 (length / 2) := by
  have h1 : ¬ (length = 0 ∨ length = 1) := by omega
  have h3 : ¬ (length % 2 = 1) := by omega
  simp [validateLength, h1, h3]

theorem validateLength_short (fuel pI length : Nat) (h : length = 0 ∨ length = 1) :
    validateLength fuel pI length =
      some { ret := 0, pI := pI, out := ["Length of array cannot be 0 or 1"] } := by
  simp [validateLength, h]

theorem validateLength_odd (fuel pI length : Nat) (h3 : 3 ≤ length) (ho : length % 2 = 1) :
    validateLength fuel pI length =
      some { ret := 0, pI := pI, out := ["Length of array cannot be odd"] } := by
  have h1 : ¬ (length = 0 ∨ length = 1) := by omega
  simp [validateLength, h1, ho]

theorem validateLength_success (fuel pI length : Nat) (r : Validated)
    (h : validateLength fuel pI length = some r) (hr : r.ret = 1) :
    2 ≤ length ∧ length = 2 ^ r.pI := by
  by_cases h1 : length = 0 ∨ length = 1
  · rw [validateLength_short fuel pI length h1] at h
    cases h; simp at hr
  · by_cases ho : length % 2 = 1
    · rw [validateLength_odd fuel pI length (by omega) ho] at h
      cases h; simp at hr
    · rw [validateLength_even fuel pI length (by omega) (by omega)] at h
      rcases validateLength_loop_some _ _ _ _ h with ⟨_, _, k, hk, hl, hp⟩ | ⟨hr0, _, _⟩
      · refine ⟨by omega, ?_⟩
        rw [hp, add_comm, pow_succ, ← hl]
        omega
      · omega

/-! ## Cycle walks -/

section Generic

variable (addr : Nat → Nat) (inA : Nat → Prop) [DecidablePred inA] (nextA nextB : Nat → Nat)
  (mark : Nat → Prop) [DecidablePred mark] (idx : Nat → Nat)

/-- Two iterates below the first return time are different. -/
theorem iterate_ne_of_lt {f : Nat → Nat} {j p : Nat} (hper : f^[p] j = j)
    (hmin : ∀ k, 0 < k → k < p → f^[k] j ≠ j) {a b : Nat} (hab : a < b) (hb : b < p) :
    f^[a] j ≠ f^[b] j := by
  intro h
  have h2 : f^[p - b] (f^[a] j) = f^[p - b] (f^[b] j) := by rw [h]
  rw [← Function.iterate_add_apply, ← Function.iterate_add_apply] at h2
  have e : p - b + b = p := by omega
  rw [e, hper] at h2
  exact hmin (p - b + a) (by omega) (by omega) h2

theorem iterate_ne_of_ne {f : Nat → Nat} {j p : Nat} (hper : f^[p] j = j)
    (hmin : ∀ k, 0 < k → k < p → f^[k] j ≠ j) {a b : Nat} (hab : a ≠ b) (ha : a < p)
    (hb : b < p) : f^[a] j ≠ f^[b] j := by
  rcases Nat.lt_or_gt_of_ne hab with h | h
  · exact iterate_ne_of_lt hper hmin h hb
  · exact fun e => iterate_ne_of_lt hper hmin h ha e.symm

theorem doWhile_succ {σ : Type} (body : σ → σ × Bool) (cond : σ → Bool) (fuel : Nat) (s : σ) :
    doWhile body cond (fuel + 1) s =
      if (body s).2 then some (body s).1
      else if cond (body s).1 then doWhile body cond fuel (body s).1
      else some (body s).1 := rfl

/-- One iteration of the walk away from the seed. -/
theorem gBody_spec (j : Nat) (s : Walk) (hs : s.indexTemp02 ≠ j) :
    (∀ a, (gBody addr inA nextA nextB mark idx j s).1.arr a =
      if a = addr (gNext inA nextA nextB s.indexTemp02) then s.valueTemp
      else if a = addr j then s.arr (addr (gNext inA nextA nextB s.indexTemp02))
      else s.arr a) ∧
    (gBody addr inA nextA nextB mark idx j s).1.indexMask =
      (if ¬ inA s.indexTemp02 ∧ mark s.indexTemp02 then
        Function.update s.indexMask (idx s.indexTemp02) 1 else s.indexMask) ∧
    (gNext inA nextA nextB s.indexTemp02 ≠ j →
      (gBody addr inA nextA nextB mark idx j s).2 = false ∧
      (gBody addr inA nextA nextB mark idx j s).1.indexTemp02 =
        gNext inA nextA nextB s.indexTemp02) ∧
    (gNext inA nextA nextB s.indexTemp02 = j →
      (gBody addr inA nextA nextB mark idx j s).2 = true ∨
      (gBody addr inA nextA nextB mark idx j s).1.indexTemp02 = j) := by
  by_cases hA : inA s.indexTemp02
  · by_cases h1 : nextA s.indexTemp02 = j
    · simp only [gBody, gNext, hA, h1, if_true]
      refine ⟨?_, by simp, by simp, by simp⟩
      intro a
      by_cases ha : a = addr j <;> simp [Function.update_apply, ha]
    · simp only [gBody, gNext, hA, h1, if_true, if_false]
      refine ⟨?_, by simp, by simp, by simp [h1]⟩
      intro a
      by_cases ha : a = addr (nextA s.indexTemp02)
      · simp [Function.update_apply, ha]
      · by_cases hb : a = addr j <;> simp [Function.update_apply, ha, hb]
  · simp only [gBody, gNext, hA, hs, if_false]
    refine ⟨?_, by simp, by simp, by simp⟩
    intro a
    by_cases ha : a = addr (nextB s.indexTemp02)
    · simp [Function.update_apply, ha]
    · by_cases hb : a = addr j <;> simp [Function.update_apply, ha, hb]

theorem gBody_valueTemp (haddr : Function.Injective addr) (j : Nat) (s : Walk)
    (hs : s.indexTemp02 ≠ j) (h1 : gNext inA nextA nextB s.indexTemp02 ≠ j) :
    (gBody addr inA nextA nextB mark idx j s).1.valueTemp =
      s.arr (addr (gNext inA nextA nextB s.indexTemp02)) := by
  have hne : addr j ≠ addr (gNext inA nextA nextB s.indexTemp02) :=
    fun e => h1 (haddr e).symm
  by_cases hA : inA s.indexTemp02
  · have h1' : nextA s.indexTemp02 ≠ j := by simpa [gNext, hA] using h1
    have hne' : addr j ≠ addr (nextA s.indexTemp02) := by simpa [gNext, hA] using hne
    simp [gBody, gNext, hA, h1', Function.update_apply, hne']
  · have hne' : addr j ≠ addr (nextB s.indexTemp02) := by simpa [gNext, hA] using hne
    simp [gBody, gNext, hA, hs, Function.update_apply, hne']


theorem mask_step (c : Prop) [Decidable c] (mask : Nat → Nat) (i x : Nat) :
    (if c then Function.update mask i 1 else mask) x ≠ 0 ↔ (mask x ≠ 0 ∨ (c ∧ i = x)) := by
  by_cases hc : c
  · by_cases hx : x = i
    · subst hx; simp [hc]
    · have hx' : ¬ i = x := fun e => hx e.symm
      simp [hc, Function.update_apply, hx, hx']
  · simp [hc]

/-- The walk from position `k ≥ 1` of the cycle of `j` to its end. -/
theorem doWhile_gBody_rest (haddr : Function.Injective addr) (f : Nat → Nat)
    (hf : gNext inA nextA nextB = f) (j p : Nat) (hper : f^[p] j = j)
    (hmin : ∀ k, 0 < k → k < p → f^[k] j ≠ j) :
    ∀ (n fuel k : Nat) (s : Walk), 1 ≤ k → k + n + 1 = p → n + 1 ≤ fuel →
      s.indexTemp02 = f^[k] j →
      ∃ s', doWhile (gBody addr inA nextA nextB mark idx j)
          (fun s => decide (s.indexTemp02 ≠ j)) fuel s = some s' ∧
        s'.arr (addr (f^[k + 1] j)) = s.valueTemp ∧
        (∀ m, k < m → m < p → s'.arr (addr (f^[m + 1] j)) = s.arr (addr (f^[m] j))) ∧
        (∀ a, (∀ m, k < m → m ≤ p → a ≠ addr (f^[m] j)) → s'.arr a = s.arr a) ∧
        (∀ x, s'.indexMask x ≠ 0 ↔ (s.indexMask x ≠ 0 ∨
          ∃ m, k ≤ m ∧ m < p ∧ ¬ inA (f^[m] j) ∧ mark (f^[m] j) ∧ idx (f^[m] j) = x)) := by
  subst hf
  intro n
  induction n with
  | zero =>
    intro fuel k s hk hkp hfuel ht
    obtain ⟨fuel', rfl⟩ : ∃ fuel', fuel = fuel' + 1 := ⟨fuel - 1, by omega⟩
    have hs : s.indexTemp02 ≠ j := by rw [ht]; exact hmin k (by omega) (by omega)
    obtain ⟨harr, hmask, -, hlast⟩ := gBody_spec addr inA nextA nextB mark idx j s hs
    have hp1 : (gNext inA nextA nextB)^[k + 1] j = j := by
      have : k + 1 = p := by omega
      rw [this, hper]
    have hnext : gNext inA nextA nextB s.indexTemp02 = j := by
      rw [ht, ← Function.iterate_succ_apply' (gNext inA nextA nextB) k j]
      exact hp1
    have hrun : doWhile (gBody addr inA nextA nextB mark idx j)
        (fun s => decide (s.indexTemp02 ≠ j)) (fuel' + 1) s =
        some (gBody addr inA nextA nextB mark idx j s).1 := by
      rw [doWhile_succ]
      rcases hlast hnext with hb | ht2
      · simp [hb]
      · by_cases hb : (gBody addr inA nextA nextB mark idx j s).2 = true
        · simp [hb]
        · simp [hb, ht2]
    refine ⟨_, hrun, ?_, ?_, ?_, ?_⟩
    · rw [harr, hnext, hp1]; simp
    · intro m h1 h2; omega
    · intro a ha
      have h1 := ha p (by omega) (le_refl _)
      rw [hper] at h1
      rw [harr, hnext]; simp [h1]
    · intro x
      rw [hmask, mask_step]
      constructor
      · rintro (h | ⟨⟨h1, h2⟩, h3⟩)
        · exact Or.inl h
        · exact Or.inr ⟨k, le_refl _, by omega, by rw [← ht]; exact h1, by rw [← ht]; exact h2,
            by rw [← ht]; exact h3⟩
      · rintro (h | ⟨m, h1, h2, h3, h4, h5⟩)
        · exact Or.inl h
        · have : m = k := by omega
          subst this
          rw [← ht] at h3 h4 h5
          exact Or.inr ⟨⟨h3, h4⟩, h5⟩
  | succ n ih =>
    intro fuel k s hk hkp hfuel ht
    obtain ⟨fuel', rfl⟩ : ∃ fuel', fuel = fuel' + 1 := ⟨fuel - 1, by omega⟩
    have hs : s.indexTemp02 ≠ j := by rw [ht]; exact hmin k (by omega) (by omega)
    obtain ⟨harr, hmask, hmove, -⟩ := gBody_spec addr inA nextA nextB mark idx j s hs
    have hnext : gNext inA nextA nextB s.indexTemp02 = (gNext inA nextA nextB)^[k + 1] j := by
      rw [ht, ← Function.iterate_succ_apply' (gNext inA nextA nextB) k j]
    have hne : gNext inA nextA nextB s.indexTemp02 ≠ j := by
      rw [hnext]; exact hmin (k + 1) (by omega) (by omega)
    obtain ⟨hb, ht2⟩ := hmove hne
    have hvt := gBody_valueTemp addr inA nextA nextB mark idx haddr j s hs hne
    have hrun : doWhile (gBody addr inA nextA nextB mark idx j)
        (fun s => decide (s.indexTemp02 ≠ j)) (fuel' + 1) s =
        doWhile (gBody addr inA nextA nextB mark idx j)
        (fun s => decide (s.indexTemp02 ≠ j)) fuel' (gBody addr inA nextA nextB mark idx j s).1 := by
      rw [doWhile_succ]
      simp [hb, ht2, hne]
    obtain ⟨s', hrun', h1, h2, h3, h4⟩ := ih fuel' (k + 1)
      (gBody addr inA nextA nextB mark idx j s).1 (by omega) (by omega) (by omega)
      (by rw [ht2, hnext])
    have hpj : (gNext inA nextA nextB)^[0] j = j := rfl
    refine ⟨s', by rw [hrun, hrun'], ?_, ?_, ?_, ?_⟩
    · -- position k+1 receives valueTemp
      rw [h3, harr, hnext]
      · simp
      · intro m hm1 hm2 e
        have e' := haddr e
        rcases Nat.eq_or_lt_of_le hm2 with hmp | hmp
        · rw [hmp, hper] at e'
          exact hmin (k + 1) (by omega) (by omega) e'
        · exact iterate_ne_of_lt hper hmin hm1 hmp e'
    · intro m hm1 hm2
      rcases Nat.eq_or_lt_of_le (Nat.succ_le_of_lt hm1) with hmk | hmk
      · -- m = k + 1
        have : m = k + 1 := by omega
        subst this
        rw [h1, hvt, hnext]
      · rw [h2 m hmk hm2, harr, hnext]
        have e1 : addr ((gNext inA nextA nextB)^[m] j) ≠
            addr ((gNext inA nextA nextB)^[k + 1] j) := fun e =>
          iterate_ne_of_lt hper hmin hmk hm2 (haddr e).symm
        have e2 : addr ((gNext inA nextA nextB)^[m] j) ≠ addr j := fun e =>
          hmin m (by omega) hm2 (haddr e)
        rw [if_neg e1, if_neg e2]
    · intro a ha
      rw [h3 a (fun m hm1 hm2 => ha m (by omega) hm2), harr, hnext]
      have e1 := ha (k + 1) (by omega) (by omega)
      have e2 := ha p (by omega) (le_refl _)
      rw [hper] at e2
      rw [if_neg e1, if_neg e2]
    · intro x
      rw [h4, hmask, mask_step]
      constructor
      · rintro ((h | ⟨⟨h1, h2⟩, h3⟩) | ⟨m, h1, h2, h3, h4, h5⟩)
        · exact Or.inl h
        · exact Or.inr ⟨k, le_refl _, by omega, by rw [← ht]; exact h1, by rw [← ht]; exact h2,
            by rw [← ht]; exact h3⟩
        · exact Or.inr ⟨m, by omega, h2, h3, h4, h5⟩
      · rintro (h | ⟨m, h1, h2, h3, h4, h5⟩)
        · exact Or.inl (Or.inl h)
        · rcases Nat.eq_or_lt_of_le h1 with hmk | hmk
          · subst hmk
            rw [← ht] at h3 h4 h5
            exact Or.inl (Or.inr ⟨⟨h3, h4⟩, h5⟩)
          · exact Or.inr ⟨m, by omega, h2, h3, h4, h5⟩


/-- A complete walk of the cycle of the seed `j`: every value of the cycle
moves one step along `f`, nothing else changes, and the table records the
offsets met in the second branch that pass the `mark` test. -/
theorem doWhile_gBody_walk (haddr : Function.Injective addr) (f : Nat → Nat)
    (hf : gNext inA nextA nextB = f) (j p : Nat) (hj : ¬ inA j) (hp2 : 2 ≤ p)
    (hper : f^[p] j = j) (hmin : ∀ k, 0 < k → k < p → f^[k] j ≠ j)
    (fuel : Nat) (hfuel : p ≤ fuel) (arr : Buf) (mask : Nat → Nat) (v0 : Nat) :
    ∃ s', doWhile (gBody addr inA nextA nextB mark idx j)
        (fun s => decide (s.indexTemp02 ≠ j)) fuel
        { arr := arr, indexMask := mask, valueTemp := v0, indexTemp02 := j } = some s' ∧
      (∀ m, m < p → s'.arr (addr (f^[m + 1] j)) = arr (addr (f^[m] j))) ∧
      (∀ a, (∀ m, m < p → a ≠ addr (f^[m] j)) → s'.arr a = arr a) ∧
      (∀ x, s'.indexMask x ≠ 0 ↔ (mask x ≠ 0 ∨
        ∃ m, 1 ≤ m ∧ m < p ∧ ¬ inA (f^[m] j) ∧ mark (f^[m] j) ∧ idx (f^[m] j) = x)) := by
  obtain ⟨fuel', rfl⟩ : ∃ fuel', fuel = fuel' + 1 := ⟨fuel - 1, by omega⟩
  have hfj : f j = nextB j := by rw [← hf]; simp [gNext, hj]
  have hf1 : f^[1] j = f j := rfl
  have hne : f j ≠ j := hmin 1 (by omega) (by omega)
  have hne' : nextB j ≠ j := by rw [← hfj]; exact hne
  have hrun : doWhile (gBody addr inA nextA nextB mark idx j)
      (fun s => decide (s.indexTemp02 ≠ j)) (fuel' + 1)
      { arr := arr, indexMask := mask, valueTemp := v0, indexTemp02 := j } =
      doWhile (gBody addr inA nextA nextB mark idx j)
      (fun s => decide (s.indexTemp02 ≠ j)) fuel'
      { arr := Function.update arr (addr (f j)) (arr (addr j)), indexMask := mask,
        valueTemp := arr (addr (f j)), indexTemp02 := f j } := by
    rw [doWhile_succ]
    simp [gBody, hj, hfj, hne']
  obtain ⟨s', hrun', h1, h2, h3, h4⟩ := doWhile_gBody_rest addr inA nextA nextB mark idx haddr f hf
    j p hper hmin (p - 2) fuel' 1
    { arr := Function.update arr (addr (f j)) (arr (addr j)), indexMask := mask,
      valueTemp := arr (addr (f j)), indexTemp02 := f j } (le_refl _) (by omega) (by omega) rfl
  simp only at h1 h2 h3 h4
  refine ⟨s', by rw [hrun, hrun'], ?_, ?_, h4⟩
  · intro m hm
    rcases Nat.lt_or_ge m 1 with hm0 | hm1
    · have : m = 0 := by omega
      subst this
      rw [h3]
      · show Function.update arr (addr (f j)) (arr (addr j)) (addr (f j)) = arr (addr j)
        simp
      · intro m hm1 hm2 e
        have e' : f^[1] j = f^[m] j := haddr e
        rcases Nat.eq_or_lt_of_le hm2 with hmp | hmp
        · rw [hmp, hper] at e'
          exact hne e'
        · exact iterate_ne_of_lt hper hmin hm1 hmp e'
    · rcases Nat.eq_or_lt_of_le hm1 with hm1' | hm1'
      · subst hm1'
        rw [h1, hf1]
      · rw [h2 m hm1' hm]
        have e1 : addr (f^[m] j) ≠ addr (f j) := fun e =>
          iterate_ne_of_lt hper hmin hm1' hm (haddr e).symm
        rw [Function.update_apply, if_neg e1]
  · intro a ha
    rw [h3]
    · have e1 : a ≠ addr (f j) := ha 1 (by omega)
      rw [Function.update_apply, if_neg e1]
    · intro m hm1 hm2
      rcases Nat.eq_or_lt_of_le hm2 with hmp | hmp
      · rw [hmp, hper]
        exact ha 0 (by omega)
      · exact ha m hmp

/-- A point that returns to itself has a first return time. -/
theorem exists_first_return (f : Nat → Nat) (j B : Nat)
    (h : ∃ p, 0 < p ∧ p ≤ B ∧ f^[p] j = j) :
    ∃ p, 0 < p ∧ p ≤ B ∧ f^[p] j = j ∧ ∀ k, 0 < k → k < p → f^[k] j ≠ j := by
  classical
  have h' : ∃ p, 0 < p ∧ f^[p] j = j := by
    obtain ⟨p, h1, _, h3⟩ := h
    exact ⟨p, h1, h3⟩
  obtain ⟨p, hp0, hpB, hp⟩ := h
  refine ⟨Nat.find h', (Nat.find_spec h').1, ?_, (Nat.find_spec h').2, ?_⟩
  · exact le_trans (Nat.find_min' h' ⟨hp0, hp⟩) hpB
  · intro k hk0 hk e
    exact Nat.find_min h' hk ⟨hk0, e⟩

theorem iterate_mul_of_return (f : Nat → Nat) (x p : Nat) (h : f^[p] x = x) (n : Nat) :
    f^[n * p] x = x := by
  induction n with
  | zero => simp
  | succ n ih => rw [Nat.succ_mul, Function.iterate_add_apply, h, ih]


theorem iterate_lt_of_maps (f : Nat → Nat) (L : Nat) (hmap : ∀ x, x < L → f x < L)
    (x : Nat) (hx : x < L) (n : Nat) : f^[n] x < L := by
  induction n with
  | zero => simpa using hx
  | succ n ih => rw [Function.iterate_succ_apply']; exact hmap _ ih

theorem iterate_closed (f : Nat → Nat) (D : Nat → Prop) (hD : ∀ x, D x → D (f x))
    (x : Nat) (hx : D x) (n : Nat) : D (f^[n] x) := by
  induction n with
  | zero => simpa using hx
  | succ n ih => rw [Function.iterate_succ_apply']; exact hD _ ih

theorem gRearrange_nil (guard : Prop) [Decidable guard] (fuel : Nat) (st : Buf × (Nat → Nat)) :
    gRearrange addr inA nextA nextB mark idx guard [] fuel st = some st := rfl

theorem gRearrange_cons (guard : Prop) [Decidable guard] (fuel : Nat) (st : Buf × (Nat → Nat))
    (j : Nat) (rest : List Nat) :
    gRearrange addr inA nextA nextB mark idx guard (j :: rest) fuel st =
      (if guard ∧ st.2 (idx j) ≠ 0 then some st
        else
          (doWhile (gBody addr inA nextA nextB mark idx j)
            (fun s => decide (s.indexTemp02 ≠ j)) fuel
            { arr := st.1, indexMask := st.2, valueTemp := 0, indexTemp02 := j }).map
            (fun s => (s.arr, s.indexMask))).bind
        (fun st' => gRearrange addr inA nextA nextB mark idx guard rest fuel st') := by
  simp only [gRearrange, List.foldlM_cons]
  rfl

/-- The seed loop keeps the set `D` of offsets whose cycle has been walked:
on `D` every value has moved one step along `f`, off `D` nothing has
changed, and the table answers membership in `D` for the seeds still to
come. -/
theorem gRearrange_inv (haddr : Function.Injective addr) (f : Nat → Nat)
    (hf : gNext inA nextA nextB = f) (guard : Prop) [Decidable guard] (hguard : guard)
    (L fuel : Nat) (hmap : ∀ x, x < L → f x < L)
    (hret : ∀ x, x < L → ∃ p, 0 < p ∧ p ≤ fuel ∧ f^[p] x = x)
    (S : Nat → Prop)
    (hS1 : ∀ s, S s → s < L ∧ ¬ inA s ∧ mark s ∧ f s ≠ s)
    (hS2 : ∀ y, y < L → ¬ inA y → mark y → S y)
    (hS3 : ∀ s s', S s → S s' → idx s = idx s' → s = s')
    (arr0 : Buf) :
    ∀ (seeds : List Nat), seeds.Nodup → (∀ s, s ∈ seeds → S s) →
    ∀ (D : Nat → Prop) (arr : Buf) (mask : Nat → Nat),
      (∀ x, D x → x < L) → (∀ x, D x → D (f x)) →
      (∀ x, D x → arr (addr (f x)) = arr0 (addr x)) →
      (∀ x, x < L → ¬ D x → arr (addr x) = arr0 (addr x)) →
      (∀ a, (∀ x, x < L → a ≠ addr x) → arr a = arr0 a) →
      (∀ s, s ∈ seeds → (mask (idx s) ≠ 0 ↔ D s)) →
      ∃ (arr' : Buf) (mask' : Nat → Nat) (D' : Nat → Prop),
        gRearrange addr inA nextA nextB mark idx guard seeds fuel (arr, mask) =
          some (arr', mask') ∧
        (∀ x, D' x → x < L) ∧ (∀ x, D' x → D' (f x)) ∧
        (∀ x, D' x → arr' (addr (f x)) = arr0 (addr x)) ∧
        (∀ x, x < L → ¬ D' x → arr' (addr x) = arr0 (addr x)) ∧
        (∀ a, (∀ x, x < L → a ≠ addr x) → arr' a = arr0 a) ∧
        (∀ s, s ∈ seeds → D' s) ∧ (∀ x, D x → D' x) := by
  intro seeds
  induction seeds with
  | nil =>
    intro _ _ D arr mask h1 h2 h3 h4 h5 _
    exact ⟨arr, mask, D, gRearrange_nil addr inA nextA nextB mark idx guard fuel _,
      h1, h2, h3, h4, h5, by simp, fun x hx => hx⟩
  | cons j rest ih =>
    intro hnd hS D arr mask h1 h2 h3 h4 h5 h6
    have hjr : j ∉ rest := (List.nodup_cons.mp hnd).1
    have hnd' : rest.Nodup := (List.nodup_cons.mp hnd).2
    have hS' : ∀ s, s ∈ rest → S s := fun s hs => hS s (List.mem_cons_of_mem _ hs)
    have hSj : S j := hS j (List.mem_cons_self _ _)
    obtain ⟨hjL, hjA, hjm, hjf⟩ := hS1 j hSj
    by_cases hm : mask (idx j) ≠ 0
    · -- the seed was met by an earlier walk
      have hDj : D j := (h6 j (List.mem_cons_self _ _)).mp hm
      obtain ⟨arr', mask', D', hrun, g1, g2, g3, g4, g5, g6, g7⟩ :=
        ih hnd' hS' D arr mask h1 h2 h3 h4 h5
          (fun s hs => h6 s (List.mem_cons_of_mem _ hs))
      refine ⟨arr', mask', D', ?_, g1, g2, g3, g4, g5, ?_, g7⟩
      · rw [gRearrange_cons, if_pos ⟨hguard, hm⟩]
        exact hrun
      · intro s hs
        rcases List.mem_cons.mp hs with rfl | hs
        · exact g7 _ hDj
        · exact g6 s hs
    · -- a fresh cycle
      have hDj : ¬ D j := fun h => hm ((h6 j (List.mem_cons_self _ _)).mpr h)
      obtain ⟨p, hp0, hpf, hper, hmin⟩ := exists_first_return f j fuel (hret j hjL)
      have hp2 : 2 ≤ p := by
        rcases Nat.lt_or_ge p 2 with h | h
        · have : p = 1 := by omega
          subst this
          exact absurd hper hjf
        · exact h
      obtain ⟨s', hwalk, w1, w2, w3⟩ := doWhile_gBody_walk addr inA nextA nextB mark idx haddr f hf
        j p hjA hp2 hper hmin fuel hpf arr mask 0
      have horbL : ∀ m, f^[m] j < L := iterate_lt_of_maps f L hmap j hjL
      have horbD : ∀ m, ¬ D (f^[m] j) := by
        intro m hd
        have := iterate_closed f D h2 _ hd (m * (p - 1))
        rw [← Function.iterate_add_apply] at this
        have e : m * (p - 1) + m = m * p := by
          obtain ⟨q, rfl⟩ : ∃ q, p = q + 1 := ⟨p - 1, by omega⟩
          simp [Nat.mul_succ]
        rw [e, iterate_mul_of_return f j p hper m] at this
        exact hDj this
      obtain ⟨arr', mask', D', hrun, g1, g2, g3, g4, g5, g6, g7⟩ :=
        ih hnd' hS' (fun x => D x ∨ ∃ m, m < p ∧ x = f^[m] j) s'.arr s'.indexMask
          (by
            rintro x (hx | ⟨m, _, rfl⟩)
            · exact h1 x hx
            · exact horbL m)
          (by
            rintro x (hx | ⟨m, hm, rfl⟩)
            · exact Or.inl (h2 x hx)
            · right
              rcases Nat.eq_or_lt_of_le (Nat.succ_le_of_lt hm) with e | e
              · refine ⟨0, by omega, ?_⟩
                rw [← Function.iterate_succ_apply' f m j]
                show f^[m + 1] j = j
                rw [show m + 1 = p from e, hper]
              · exact ⟨m + 1, e, (Function.iterate_succ_apply' f m j).symm⟩)
          (by
            rintro x (hx | ⟨m, hm, rfl⟩)
            · rw [w2, h3 x hx]
              intro m hm e
              have e' := haddr e
              exact horbD m (e' ▸ h2 x hx)
            · rw [← Function.iterate_succ_apply' f m j, w1 m hm]
              exact h4 _ (horbL m) (horbD m))
          (by
            intro x hxL hx
            rw [w2, h4 x hxL (fun h => hx (Or.inl h))]
            intro m hm e
            exact hx (Or.inr ⟨m, hm, haddr e⟩))
          (by
            intro a ha
            rw [w2, h5 a ha]
            intro m _
            exact ha _ (horbL m))
          (by
            intro s hs
            have hSs := hS' s hs
            rw [w3, h6 s (List.mem_cons_of_mem _ hs)]
            constructor
            · rintro (h | ⟨m, hm1, hm2, hm3, hm4, hm5⟩)
              · exact Or.inl h
              · right
                have := hS3 _ _ (hS2 _ (horbL m) hm3 hm4) hSs hm5
                exact ⟨m, hm2, this.symm⟩
            · rintro (h | ⟨m, hm, rfl⟩)
              · exact Or.inl h
              · right
                obtain ⟨_, hsA, hsm, _⟩ := hS1 _ hSs
                refine ⟨m, ?_, hm, hsA, hsm, rfl⟩
                rcases Nat.eq_zero_or_pos m with rfl | h0
                · exact absurd hs hjr
                · exact h0)
      refine ⟨arr', mask', D', ?_, g1, g2, g3, g4, g5, ?_, fun x hx => g7 x (Or.inl hx)⟩
      · rw [gRearrange_cons, if_neg (fun h => hm h.2), hwalk]
        exact hrun
      · intro s hs
        rcases List.mem_cons.mp hs with rfl | hs
        · exact g7 _ (Or.inr ⟨0, by omega, rfl⟩)
        · exact g6 s hs


/-- The rearrange loop moves every value of the line one step along `f` and
touches nothing outside the line, provided every cycle with more than one
element meets a seed. -/
theorem gRearrange_spec (haddr : Function.Injective addr) (f : Nat → Nat)
    (hf : gNext inA nextA nextB = f) (guard : Prop) [Decidable guard] (hguard : guard)
    (L fuel : Nat) (hmap : ∀ x, x < L → f x < L)
    (hret : ∀ x, x < L → ∃ p, 0 < p ∧ p ≤ fuel ∧ f^[p] x = x)
    (seeds : List Nat) (hnd : seeds.Nodup)
    (hS1 : ∀ s, s ∈ seeds → s < L ∧ ¬ inA s ∧ mark s ∧ f s ≠ s)
    (hS2 : ∀ y, y < L → ¬ inA y → mark y → y ∈ seeds)
    (hS3 : ∀ s s', s ∈ seeds → s' ∈ seeds → idx s = idx s' → s = s')
    (hcover : ∀ x, x < L → f x ≠ x → ∃ k, f^[k] x ∈ seeds)
    (arr : Buf) :
    ∃ r, gRearrange addr inA nextA nextB mark idx guard seeds fuel (arr, fun _ => 0) = some r ∧
      (∀ x, x < L → r.1 (addr (f x)) = arr (addr x)) ∧
      (∀ a, (∀ x, x < L → a ≠ addr x) → r.1 a = arr a) := by
  obtain ⟨arr', mask', D', hrun, g1, g2, g3, g4, g5, g6, -⟩ :=
    gRearrange_inv addr inA nextA nextB mark idx haddr f hf guard hguard L fuel hmap hret
      (fun s => s ∈ seeds) hS1 hS2 hS3 arr seeds hnd (fun s hs => hs)
      (fun _ => False) arr (fun _ => 0)
      (fun x hx => hx.elim) (fun x hx => hx.elim) (fun x hx => hx.elim)
      (fun x _ _ => rfl) (fun a _ => rfl) (fun s _ => by simp)
  refine ⟨(arr', mask'), hrun, ?_, g5⟩
  intro x hx
  by_cases hD : D' x
  · exact g3 x hD
  · by_cases hfx : f x = x
    · rw [hfx]; exact g4 x hx hD
    · exfalso
      obtain ⟨k, hk⟩ := hcover x hx hfx
      obtain ⟨p, hp0, -, hp⟩ := hret x hx
      have h1 := iterate_closed f D' g2 _ (g6 _ hk) (k * (p - 1))
      rw [← Function.iterate_add_apply] at h1
      have e : k * (p - 1) + k = k * p := by
        obtain ⟨q, rfl⟩ : ∃ q, p = q + 1 := ⟨p - 1, by omega⟩
        simp [Nat.mul_succ]
      rw [e, iterate_mul_of_return f x p hp k] at h1
      exact hD h1

end Generic
/-! ## The index maps of the packer and the unpacker -/

theorem packIdx_even (L x : Nat) (hx : x % 2 = 0) : packIdx L x = x / 2 := by
  simp [packIdx, hx]

theorem packIdx_odd (L x : Nat) (hL : L % 2 = 0) (hx : x % 2 = 1) (hxL : x < L) :
    packIdx L x = L / 2 + (x - 1) / 2 := by
  have h : ¬ x % 2 = 0 := by omega
  simp only [packIdx, h, if_false]
  omega

theorem unpackIdx_low (L x : Nat) (hx : x < L / 2) : unpackIdx L x = 2 * x := by
  simp [unpackIdx, hx]

theorem unpackIdx_high (L x : Nat) (hx : L / 2 ≤ x) : unpackIdx L x = 2 * x + 1 - L := by
  have h : ¬ x < L / 2 := by omega
  simp [unpackIdx, h]

theorem packIdx_lt (L x : Nat) (hL : L % 2 = 0) (hx : x < L) : packIdx L x < L := by
  rcases Nat.mod_two_eq_zero_or_one x with h | h
  · rw [packIdx_even L x h]; omega
  · rw [packIdx_odd L x hL h hx]; omega

theorem unpackIdx_lt (L x : Nat) (hL : L % 2 = 0) (hx : x < L) : unpackIdx L x < L := by
  rcases Nat.lt_or_ge x (L / 2) with h | h
  · rw [unpackIdx_low L x h]; omega
  · rw [unpackIdx_high L x h]; omega

/-- The unpacker index map undoes the packer index map. -/
theorem unpackIdx_packIdx (L x : Nat) (hL : L % 2 = 0) (hx : x < L) :
    unpackIdx L (packIdx L x) = x := by
  rcases Nat.mod_two_eq_zero_or_one x with h | h
  · rw [packIdx_even L x h, unpackIdx_low L _ (by omega)]; omega
  · rw [packIdx_odd L x hL h hx, unpackIdx_high L _ (by omega)]; omega

/-- The packer index map undoes the unpacker index map. -/
theorem packIdx_unpackIdx (L x : Nat) (hL : L % 2 = 0) (hx : x < L) :
    packIdx L (unpackIdx L x) = x := by
  rcases Nat.lt_or_ge x (L / 2) with h | h
  · rw [unpackIdx_low L x h, packIdx_even L _ (by omega)]; omega
  · rw [unpackIdx_high L x h, packIdx_odd L _ hL (by omega) (by omega)]; omega

/-- Below `L - 1` the packer index map halves modulo `L - 1`. -/
theorem packIdx_modEq (L x : Nat) (hL : L % 2 = 0) (hx : x < L - 1) :
    packIdx L x < L - 1 ∧ 2 * packIdx L x ≡ x [MOD (L - 1)] := by
  rcases Nat.mod_two_eq_zero_or_one x with h | h
  · rw [packIdx_even L x h]
    refine ⟨by omega, ?_⟩
    have : 2 * (x / 2) = x := by omega
    rw [this]
  · rw [packIdx_odd L x hL h (by omega)]
    refine ⟨by omega, ?_⟩
    have : 2 * (L / 2 + (x - 1) / 2) = x + (L - 1) := by omega
    rw [this]
    exact Nat.add_modEq_right

/-- Below `L - 1` the unpacker index map doubles modulo `L - 1`. -/
theorem unpackIdx_modEq (L x : Nat) (hL : L % 2 = 0) (hx : x < L - 1) :
    unpackIdx L x < L - 1 ∧ unpackIdx L x ≡ 2 * x [MOD (L - 1)] := by
  rcases Nat.lt_or_ge x (L / 2) with h | h
  · rw [unpackIdx_low L x h]
    exact ⟨by omega, Nat.ModEq.refl _⟩
  · rw [unpackIdx_high L x h]
    refine ⟨by omega, ?_⟩
    obtain ⟨y, hy⟩ : ∃ y, 2 * x + 1 - L = y := ⟨_, rfl⟩
    rw [hy]
    have e : 2 * x = y + (L - 1) := by omega
    rw [e]
    exact Nat.add_modEq_right.symm

theorem packIdx_iterate_modEq (L x : Nat) (hL : L % 2 = 0) (hx : x < L - 1) (n : Nat) :
    (packIdx L)^[n] x < L - 1 ∧ 2 ^ n * (packIdx L)^[n] x ≡ x [MOD (L - 1)] := by
  induction n with
  | zero => exact ⟨by simpa using hx, by simp [Nat.ModEq.refl]⟩
  | succ n ih =>
    rw [Function.iterate_succ_apply']
    obtain ⟨h1, h2⟩ := packIdx_modEq L _ hL ih.1
    refine ⟨h1, ?_⟩
    have e : 2 ^ (n + 1) * packIdx L ((packIdx L)^[n] x) =
        2 ^ n * (2 * packIdx L ((packIdx L)^[n] x)) := by ring
    rw [e]
    exact (Nat.ModEq.mul_left _ h2).trans ih.2

theorem unpackIdx_iterate_modEq (L x : Nat) (hL : L % 2 = 0) (hx : x < L - 1) (n : Nat) :
    (unpackIdx L)^[n] x < L - 1 ∧ (unpackIdx L)^[n] x ≡ 2 ^ n * x [MOD (L - 1)] := by
  induction n with
  | zero => exact ⟨by simpa using hx, by simp [Nat.ModEq.refl]⟩
  | succ n ih =>
    rw [Function.iterate_succ_apply']
    obtain ⟨h1, h2⟩ := unpackIdx_modEq L _ hL ih.1
    refine ⟨h1, ?_⟩
    have e : 2 ^ (n + 1) * x = 2 * (2 ^ n * x) := by ring
    rw [e]
    exact h2.trans (Nat.ModEq.mul_left _ ih.2)

theorem two_pow_totient_modEq (L : Nat) (hL : L % 2 = 0) :
    2 ^ (Nat.totient (L - 1)) ≡ 1 [MOD (L - 1)] := by
  rcases Nat.eq_zero_or_pos L with rfl | hpos
  · simp [Nat.ModEq]
  · apply Nat.ModEq.pow_totient
    exact (Nat.Prime.coprime_iff_not_dvd Nat.prime_two).mpr (by omega)

/-- Every offset returns to itself under the packer index map within
`L - 2` steps. -/
theorem packIdx_returns (L x : Nat) (hL : L % 2 = 0) (h4 : 4 ≤ L) (hx : x < L) :
    ∃ p, 0 < p ∧ p ≤ L - 2 ∧ (packIdx L)^[p] x = x := by
  rcases Nat.eq_or_lt_of_le (Nat.le_pred_of_lt hx) with hlast | hlt
  · refine ⟨1, by omega, by omega, ?_⟩
    have hx1 : x = L - 1 := hlast
    rw [Function.iterate_one, packIdx_odd L x hL (by omega) hx]
    omega
  · have hlt' : x < L - 1 := hlt
    refine ⟨Nat.totient (L - 1), Nat.totient_pos.mpr (by omega), ?_, ?_⟩
    · have := Nat.totient_lt (L - 1) (by omega)
      omega
    · obtain ⟨h1, h2⟩ := packIdx_iterate_modEq L x hL hlt' (Nat.totient (L - 1))
      have h3 : 2 ^ (Nat.totient (L - 1)) * (packIdx L)^[Nat.totient (L - 1)] x ≡
          1 * (packIdx L)^[Nat.totient (L - 1)] x [MOD (L - 1)] :=
        Nat.ModEq.mul_right _ (two_pow_totient_modEq L hL)
      rw [one_mul] at h3
      exact Nat.ModEq.eq_of_lt_of_lt (h3.symm.trans h2) h1 hlt'

/-- Every offset returns to itself under the unpacker index map within
`L - 2` steps. -/
theorem unpackIdx_returns (L x : Nat) (hL : L % 2 = 0) (h4 : 4 ≤ L) (hx : x < L) :
    ∃ p, 0 < p ∧ p ≤ L - 2 ∧ (unpackIdx L)^[p] x = x := by
  rcases Nat.eq_or_lt_of_le (Nat.le_pred_of_lt hx) with hlast | hlt
  · refine ⟨1, by omega, by omega, ?_⟩
    have hx1 : x = L - 1 := hlast
    rw [Function.iterate_one, unpackIdx_high L x (by omega)]
    omega
  · have hlt' : x < L - 1 := hlt
    refine ⟨Nat.totient (L - 1), Nat.totient_pos.mpr (by omega), ?_, ?_⟩
    · have := Nat.totient_lt (L - 1) (by omega)
      omega
    · obtain ⟨h1, h2⟩ := unpackIdx_iterate_modEq L x hL hlt' (Nat.totient (L - 1))
      have h3 : 2 ^ (Nat.totient (L - 1)) * x ≡ 1 * x [MOD (L - 1)] :=
        Nat.ModEq.mul_right _ (two_pow_totient_modEq L hL)
      rw [one_mul] at h3
      exact Nat.ModEq.eq_of_lt_of_lt (h2.trans h3) h1 hlt'

/-! ## Every cycle meets a seed -/

theorem packIdx_cover_even (L : Nat) (hL : L % 2 = 0) :
    ∀ n x, x ≤ n → 0 < x → x < L → x % 2 = 0 →
      ∃ k, ((packIdx L)^[k] x) % 2 = 1 ∧ (packIdx L)^[k] x ≤ L / 2 - 1 := by
  intro n
  induction n with
  | zero => intro x h1 h2; omega
  | succ n ih =>
    intro x h1 h2 h3 h4
    by_cases ho : (x / 2) % 2 = 1
    · refine ⟨1, ?_, ?_⟩
      · rw [Function.iterate_one, packIdx_even L x h4]; exact ho
      · rw [Function.iterate_one, packIdx_even L x h4]; omega
    · obtain ⟨k, hk1, hk2⟩ := ih (x / 2) (by omega) (by omega) (by omega) (by omega)
      refine ⟨k + 1, ?_, ?_⟩
      · rw [Function.iterate_succ_apply, packIdx_even L x h4]; exact hk1
      · rw [Function.iterate_succ_apply, packIdx_even L x h4]; exact hk2

theorem packIdx_cover_odd (L : Nat) (hL : L % 2 = 0) :
    ∀ n x, L - 1 - x ≤ n → x % 2 = 1 → x < L - 1 →
      ∃ k, ((packIdx L)^[k] x) % 2 = 1 ∧ (packIdx L)^[k] x ≤ L / 2 - 1 := by
  intro n
  induction n with
  | zero => intro x h1 h2 h3; omega
  | succ n ih =>
    intro x h1 h2 h3
    by_cases hlow : x ≤ L / 2 - 1
    · exact ⟨0, by simpa using h2, by simpa using hlow⟩
    · have hy : packIdx L x = L / 2 + (x - 1) / 2 := packIdx_odd L x hL h2 (by omega)
      by_cases he : (L / 2 + (x - 1) / 2) % 2 = 0
      · obtain ⟨k, hk1, hk2⟩ := packIdx_cover_even L hL _ (L / 2 + (x - 1) / 2) (le_refl _)
          (by omega) (by omega) he
        refine ⟨k + 1, ?_, ?_⟩
        · rw [Function.iterate_succ_apply, hy]; exact hk1
        · rw [Function.iterate_succ_apply, hy]; exact hk2
      · obtain ⟨k, hk1, hk2⟩ := ih (L / 2 + (x - 1) / 2) (by omega) (by omega) (by omega)
        refine ⟨k + 1, ?_, ?_⟩
        · rw [Function.iterate_succ_apply, hy]; exact hk1
        · rw [Function.iterate_succ_apply, hy]; exact hk2

/-- Every offset the packer moves lies on a cycle through one of the seeds
`1, 3, ... <= L/2 - 1`. -/
theorem packIdx_cover (L x : Nat) (hL : L % 2 = 0) (hx : x < L) (hne : packIdx L x ≠ x) :
    ∃ k, (packIdx L)^[k] x ∈ List.range' 1 ((L / 2 - 1 + 1) / 2) 2 := by
  have key : ∃ k, ((packIdx L)^[k] x) % 2 = 1 ∧ (packIdx L)^[k] x ≤ L / 2 - 1 := by
    rcases Nat.mod_two_eq_zero_or_one x with he | ho
    · have h0 : 0 < x := by
        rcases Nat.eq_zero_or_pos x with rfl | h
        · exact absurd (packIdx_even L 0 rfl) hne
        · exact h
      exact packIdx_cover_even L hL x x (le_refl _) h0 hx he
    · have hlt : x < L - 1 := by
        rcases Nat.lt_or_ge x (L - 1) with h | h
        · exact h
        · exfalso
          apply hne
          rw [packIdx_odd L x hL ho hx]
          omega
      exact packIdx_cover_odd L hL _ x (le_refl _) ho hlt
  obtain ⟨k, hk1, hk2⟩ := key
  refine ⟨k, ?_⟩
  rw [List.mem_range']
  exact ⟨((packIdx L)^[k] x - 1) / 2, by omega, by omega⟩

theorem unpackIdx_cover_low (L : Nat) (hL : L % 2 = 0) :
    ∀ n x, L / 2 - x ≤ n → 0 < x → x < L / 2 →
      ∃ k, ((unpackIdx L)^[k] x) % 2 = 0 ∧ L / 2 ≤ (unpackIdx L)^[k] x ∧
        (unpackIdx L)^[k] x < L := by
  intro n
  induction n with
  | zero => intro x h1 h2 h3; omega
  | succ n ih =>
    intro x h1 h2 h3
    have hy : unpackIdx L x = 2 * x := unpackIdx_low L x h3
    by_cases hup : L / 2 ≤ 2 * x
    · refine ⟨1, ?_, ?_, ?_⟩ <;> rw [Function.iterate_one, hy] <;> omega
    · obtain ⟨k, hk1, hk2, hk3⟩ := ih (2 * x) (by omega) (by omega) (by omega)
      exact ⟨k + 1, by rw [Function.iterate_succ_apply, hy]; exact hk1,
        by rw [Function.iterate_succ_apply, hy]; exact hk2,
        by rw [Function.iterate_succ_apply, hy]; exact hk3⟩

theorem unpackIdx_cover_odd (L : Nat) (hL : L % 2 = 0) :
    ∀ n x, x ≤ n → x % 2 = 1 → L / 2 ≤ x → x < L - 1 →
      ∃ k, ((unpackIdx L)^[k] x) % 2 = 0 ∧ L / 2 ≤ (unpackIdx L)^[k] x ∧
        (unpackIdx L)^[k] x < L := by
  intro n
  induction n with
  | zero => intro x h1 h2 h3 h4; omega
  | succ n ih =>
    intro x h1 h2 h3 h4
    have hy : unpackIdx L x = 2 * x + 1 - L := unpackIdx_high L x h3
    by_cases hlow : 2 * x + 1 - L < L / 2
    · obtain ⟨k, hk1, hk2, hk3⟩ := unpackIdx_cover_low L hL _ (2 * x + 1 - L) (le_refl _)
        (by omega) hlow
      exact ⟨k + 1, by rw [Function.iterate_succ_apply, hy]; exact hk1,
        by rw [Function.iterate_succ_apply, hy]; exact hk2,
        by rw [Function.iterate_succ_apply, hy]; exact hk3⟩
    · obtain ⟨k, hk1, hk2, hk3⟩ := ih (2 * x + 1 - L) (by omega) (by omega) (by omega)
        (by omega)
      exact ⟨k + 1, by rw [Function.iterate_succ_apply, hy]; exact hk1,
        by rw [Function.iterate_succ_apply, hy]; exact hk2,
        by rw [Function.iterate_succ_apply, hy]; exact hk3⟩

/-- When `L` is a multiple of four, every offset the unpacker moves lies on a
cycle through one of the seeds `L/2, L/2 + 2, ... <= L - 2`. -/
theorem unpackIdx_cover (L x : Nat) (hL : L % 4 = 0) (hx : x < L)
    (hne : unpackIdx L x ≠ x) :
    ∃ k, (unpackIdx L)^[k] x ∈ List.range' (L / 2) ((L - L / 2) / 2) 2 := by
  have hL2 : L % 2 = 0 := by omega
  have key : ∃ k, ((unpackIdx L)^[k] x) % 2 = 0 ∧ L / 2 ≤ (unpackIdx L)^[k] x ∧
      (unpackIdx L)^[k] x < L := by
    rcases Nat.lt_or_ge x (L / 2) with hlow | hhigh
    · have h0 : 0 < x := by
        rcases Nat.eq_zero_or_pos x with rfl | h
        · exact absurd (unpackIdx_low L 0 hlow) hne
        · exact h
      exact unpackIdx_cover_low L hL2 _ x (le_refl _) h0 hlow
    · rcases Nat.mod_two_eq_zero_or_one x with he | ho
      · exact ⟨0, by simpa using he, by simpa using hhigh, by simpa using hx⟩
      · have hlt : x < L - 1 := by
          rcases Nat.lt_or_ge x (L - 1) with h | h
          · exact h
          · exfalso
            apply hne
            rw [unpackIdx_high L x hhigh]
            omega
        exact unpackIdx_cover_odd L hL2 _ x (le_refl _) ho hhigh hlt
  obtain ⟨k, hk1, hk2, hk3⟩ := key
  refine ⟨k, ?_⟩
  rw [List.mem_range']
  exact ⟨((unpackIdx L)^[k] x - L / 2) / 2, by omega, by omega⟩

/-! ## The four rearrange functions as cycle walks -/

theorem rearrange2DFromLR_eq (fuel : Nat) (arr : Buf) (rowLen colLen L i : Nat) :
    rearrange2DFromLR fuel arr rowLen colLen L i =
      (gRearrange (fun k => i * colLen + k) (fun x => x % 2 = 0) (fun x => x / 2)
        (fun x => x + (L / 2 - 1) - (x - 1) / 2) (fun x => x ≤ L / 2 - 1 ∧ L / 4 > 0)
        (fun x => x / 2) (L / 4 > 0) (List.range' 1 ((L / 2 - 1 + 1) / 2) 2) fuel
        (arr, fun _ => 0)).map Prod.fst := rfl

theorem rearrange2DFromTC_eq (fuel : Nat) (arr : Buf) (rowLen colLen L j : Nat) :
    rearrange2DFromTC fuel arr rowLen colLen L j =
      (gRearrange (fun k => j + k * colLen) (fun x => x % 2 = 0) (fun x => x / 2)
        (fun x => x + (L / 2 - 1) - (x - 1) / 2) (fun x => x ≤ L / 2 - 1 ∧ L / 4 > 0)
        (fun x => x / 2) (L / 4 > 0) (List.range' 1 ((L / 2 - 1 + 1) / 2) 2) fuel
        (arr, fun _ => 0)).map Prod.fst := rfl

theorem revertRearrange2DFromLR_eq (fuel : Nat) (arr : Buf) (rowLen colLen L i : Nat) :
    revertRearrange2DFromLR fuel arr rowLen colLen L i =
      (gRearrange (fun k => i * colLen + k) (fun x => x < L / 2) (fun x => 2 * x)
        (fun x => 2 * x + 1 - L) (fun x => x % 2 = 0 ∧ L / 4 > 0)
        (fun x => (x - L / 2) / 2) (L / 4 > 0) (List.range' (L / 2) ((L - L / 2) / 2) 2) fuel
        (arr, fun _ => 0)).map Prod.fst := rfl

theorem revertRearrange2DFromTC_eq (fuel : Nat) (arr : Buf) (rowLen colLen L j : Nat) :
    revertRearrange2DFromTC fuel arr rowLen colLen L j =
      (gRearrange (fun k => j + k * colLen) (fun x => x < L / 2) (fun x => 2 * x)
        (fun x => 2 * x + 1 - L) (fun x => x % 2 = 0 ∧ L / 4 > 0)
        (fun x => (x - L / 2) / 2) (L / 4 > 0) (List.range' (L / 2) ((L - L / 2) / 2) 2) fuel
        (arr, fun _ => 0)).map Prod.fst := rfl

theorem nodup_range'_two (s n : Nat) : (List.range' s n 2).Nodup :=
  List.nodup_range' s n 2 (by omega)

/-- The packer loop along an injective address map, for every even length:
the value at offset `x` ends at offset `packIdx L x`; nothing outside the
line changes. -/
theorem gPack_spec (addr : Nat → Nat) (haddr : Function.Injective addr) (L fuel : Nat)
    (hL : L % 2 = 0) (hfuel : L - 2 ≤ fuel) (arr : Buf) :
    ∃ out, (gRearrange addr (fun x => x % 2 = 0) (fun x => x / 2)
        (fun x => x + (L / 2 - 1) - (x - 1) / 2) (fun x => x ≤ L / 2 - 1 ∧ L / 4 > 0)
        (fun x => x / 2) (L / 4 > 0) (List.range' 1 ((L / 2 - 1 + 1) / 2) 2) fuel
        (arr, fun _ => 0)).map Prod.fst = some out ∧
      (∀ x, x < L → out (addr (packIdx L x)) = arr (addr x)) ∧
      (∀ a, (∀ x, x < L → a ≠ addr x) → out a = arr a) := by
  rcases Nat.lt_or_ge L 4 with hsmall | h4
  · -- no seed: the loop body never runs
    have hseeds : List.range' 1 ((L / 2 - 1 + 1) / 2) 2 = [] := by
      have : (L / 2 - 1 + 1) / 2 = 0 := by omega
      rw [this]; rfl
    refine ⟨arr, by rw [hseeds]; rfl, ?_, fun a _ => rfl⟩
    intro x hx
    have : packIdx L x = x := by
      rcases Nat.mod_two_eq_zero_or_one x with h | h
      · rw [packIdx_even L x h]; omega
      · rw [packIdx_odd L x hL h hx]; omega
    rw [this]
  · obtain ⟨r, hr, h1, h2⟩ := gRearrange_spec addr (fun x => x % 2 = 0) (fun x => x / 2)
      (fun x => x + (L / 2 - 1) - (x - 1) / 2) (fun x => x ≤ L / 2 - 1 ∧ L / 4 > 0)
      (fun x => x / 2) haddr (packIdx L) rfl (L / 4 > 0) (by omega) L fuel
      (fun x hx => packIdx_lt L x hL hx)
      (fun x hx => by
        obtain ⟨p, hp0, hp1, hp2⟩ := packIdx_returns L x hL h4 hx
        exact ⟨p, hp0, by omega, hp2⟩)
      (List.range' 1 ((L / 2 - 1 + 1) / 2) 2) (nodup_range'_two _ _)
      (by
        intro s hs
        rw [List.mem_range'] at hs
        obtain ⟨i, hi, rfl⟩ := hs
        refine ⟨by omega, by omega, ⟨by omega, by omega⟩, ?_⟩
        rw [packIdx_odd L _ hL (by omega) (by omega)]
        omega)
      (by
        intro y hy hyA hym
        rw [List.mem_range']
        have hyA' : ¬ y % 2 = 0 := hyA
        have hym' : y ≤ L / 2 - 1 := hym.1
        exact ⟨(y - 1) / 2, by omega, by omega⟩)
      (by
        intro s s' hs hs' e
        rw [List.mem_range'] at hs hs'
        obtain ⟨i, hi, rfl⟩ := hs
        obtain ⟨i', hi', rfl⟩ := hs'
        have e' : (1 + 2 * i) / 2 = (1 + 2 * i') / 2 := e
        omega)
      (fun x hx hne => packIdx_cover L x hL hx hne) arr
    exact ⟨r.1, by rw [hr]; rfl, h1, h2⟩

/-- The unpacker loop along an injective address map, for length 2 and for
every multiple of four: the value at offset `x` ends at offset
`unpackIdx L x`; nothing outside the line changes. -/
theorem gUnpack_spec (addr : Nat → Nat) (haddr : Function.Injective addr) (L fuel : Nat)
    (hL : L = 2 ∨ L % 4 = 0) (hfuel : L - 2 ≤ fuel) (arr : Buf) :
    ∃ out, (gRearrange addr (fun x => x < L / 2) (fun x => 2 * x)
        (fun x => 2 * x + 1 - L) (fun x => x % 2 = 0 ∧ L / 4 > 0)
        (fun x => (x - L / 2) / 2) (L / 4 > 0) (List.range' (L / 2) ((L - L / 2) / 2) 2) fuel
        (arr, fun _ => 0)).map Prod.fst = some out ∧
      (∀ x, x < L → out (addr (unpackIdx L x)) = arr (addr x)) ∧
      (∀ a, (∀ x, x < L → a ≠ addr x) → out a = arr a) := by
  rcases Nat.lt_or_ge L 4 with hsmall | h4
  · have hseeds : List.range' (L / 2) ((L - L / 2) / 2) 2 = [] := by
      have : (L - L / 2) / 2 = 0 := by omega
      rw [this]; rfl
    refine ⟨arr, by rw [hseeds]; rfl, ?_, fun a _ => rfl⟩
    intro x hx
    have : unpackIdx L x = x := by
      rcases Nat.lt_or_ge x (L / 2) with h | h
      · rw [unpackIdx_low L x h]; omega
      · rw [unpackIdx_high L x h]; omega
    rw [this]
  · have hL4 : L % 4 = 0 := by omega
    have hL2 : L % 2 = 0 := by omega
    obtain ⟨r, hr, h1, h2⟩ := gRearrange_spec addr (fun x => x < L / 2) (fun x => 2 * x)
      (fun x => 2 * x + 1 - L) (fun x => x % 2 = 0 ∧ L / 4 > 0)
      (fun x => (x - L / 2) / 2) haddr (unpackIdx L) rfl (L / 4 > 0) (by omega) L fuel
      (fun x hx => unpackIdx_lt L x hL2 hx)
      (fun x hx => by
        obtain ⟨p, hp0, hp1, hp2⟩ := unpackIdx_returns L x hL2 h4 hx
        exact ⟨p, hp0, by omega, hp2⟩)
      (List.range' (L / 2) ((L - L / 2) / 2) 2) (nodup_range'_two _ _)
      (by
        intro s hs
        rw [List.mem_range'] at hs
        obtain ⟨i, hi, rfl⟩ := hs
        refine ⟨by omega, by omega, ⟨by omega, by omega⟩, ?_⟩
        rw [unpackIdx_high L _ (by omega)]
        omega)
      (by
        intro y hy hyA hym
        rw [List.mem_range']
        have hyA' : ¬ y < L / 2 := hyA
        have hym' : y % 2 = 0 := hym.1
        exact ⟨(y - L / 2) / 2, by omega, by omega⟩)
      (by
        intro s s' hs hs' e
        rw [List.mem_range'] at hs hs'
        obtain ⟨i, hi, rfl⟩ := hs
        obtain ⟨i', hi', rfl⟩ := hs'
        have e' : (L / 2 + 2 * i - L / 2) / 2 = (L / 2 + 2 * i' - L / 2) / 2 := e
        omega)
      (fun x hx hne => unpackIdx_cover L x hL4 hx hne) arr
    exact ⟨r.1, by rw [hr]; rfl, h1, h2⟩

/-! ## Lifting and packing along one line -/

theorem rowLift_eq (arr : Buf) (colLen L i : Nat) :
    rowLift arr colLen L i = gLift (fun k => i * colLen + k) 1 ((L + 1) / 2) arr := rfl

theorem colLift_eq (arr : Buf) (colLen L j : Nat) :
    colLift arr colLen L j = gLift (fun k => j + k * colLen) colLen ((L + 1) / 2) arr := rfl

theorem gLift_succ (addr : Nat → Nat) (v n : Nat) (arr : Buf) :
    gLift addr v (n + 1) arr = liftStep (gLift addr v n arr) (addr (2 * n)) v := by
  unfold gLift
  rw [List.range'_concat, List.foldl_append]
  simp

/-- The lifting loop on `n` pairs of a line. -/
theorem gLift_spec (addr : Nat → Nat) (haddr : Function.Injective addr) (v : Nat)
    (hv : ∀ k, addr k + v = addr (k + 1)) (arr : Buf) (n : Nat) :
    (∀ x, x < 2 * n → gLift addr v n arr (addr x) =
      if x % 2 = 0 then trend (arr (addr x)) (arr (addr (x + 1)))
      else fluct (arr (addr (x - 1))) (arr (addr x))) ∧
    (∀ a, (∀ x, x < 2 * n → a ≠ addr x) → gLift addr v n arr a = arr a) := by
  induction n with
  | zero =>
    exact ⟨fun x hx => by omega, fun a _ => rfl⟩
  | succ n ih =>
    obtain ⟨ih1, ih2⟩ := ih
    have hbase : gLift addr v n arr (addr (2 * n)) = arr (addr (2 * n)) :=
      ih2 _ (fun x hx e => by have := haddr e; omega)
    have hnext : gLift addr v n arr (addr (2 * n + 1)) = arr (addr (2 * n + 1)) :=
      ih2 _ (fun x hx e => by have := haddr e; omega)
    have hval : ∀ a, gLift addr v (n + 1) arr a =
        if a = addr (2 * n + 1) then fluct (arr (addr (2 * n))) (arr (addr (2 * n + 1)))
        else if a = addr (2 * n) then trend (arr (addr (2 * n))) (arr (addr (2 * n + 1)))
        else gLift addr v n arr a := by
      intro a
      rw [gLift_succ]
      simp only [liftStep, Function.update_apply, hv, hbase, hnext]
    constructor
    · intro x hx
      rw [hval]
      by_cases h1 : x = 2 * n + 1
      · subst h1
        have h2 : ¬ (2 * n + 1) % 2 = 0 := by omega
        simp [h2]
      · have e1 : addr x ≠ addr (2 * n + 1) := fun e => h1 (haddr e)
        rw [if_neg e1]
        by_cases h2 : x = 2 * n
        · subst h2
          have h3 : (2 * n) % 2 = 0 := by omega
          simp [h3]
        · have e2 : addr x ≠ addr (2 * n) := fun e => h2 (haddr e)
          rw [if_neg e2]
          exact ih1 x (by omega)
    · intro a ha
      rw [hval, if_neg (ha _ (by omega)), if_neg (ha _ (by omega))]
      exact ih2 a (fun x hx => ha x (by omega))

/-- Lifting then packing one line of even length `L`. -/
theorem gFwdLine_spec (addr : Nat → Nat) (haddr : Function.Injective addr) (v : Nat)
    (hv : ∀ k, addr k + v = addr (k + 1)) (L fuel : Nat) (hL : L % 2 = 0)
    (hfuel : L - 2 ≤ fuel) (arr : Buf) :
    ∃ out, (gRearrange addr (fun x => x % 2 = 0) (fun x => x / 2)
        (fun x => x + (L / 2 - 1) - (x - 1) / 2) (fun x => x ≤ L / 2 - 1 ∧ L / 4 > 0)
        (fun x => x / 2) (L / 4 > 0) (List.range' 1 ((L / 2 - 1 + 1) / 2) 2) fuel
        (gLift addr v ((L + 1) / 2) arr, fun _ => 0)).map Prod.fst = some out ∧
      (∀ x, x < L → out (addr x) = fwdLineVal L (fun y => arr (addr y)) x) ∧
      (∀ a, (∀ x, x < L → a ≠ addr x) → out a = arr a) := by
  obtain ⟨out, hrun, h1, h2⟩ := gPack_spec addr haddr L fuel hL hfuel
    (gLift addr v ((L + 1) / 2) arr)
  obtain ⟨l1, l2⟩ := gLift_spec addr haddr v hv arr ((L + 1) / 2)
  have hn : 2 * ((L + 1) / 2) = L := by omega
  rw [hn] at l1 l2
  refine ⟨out, hrun, ?_, ?_⟩
  · intro x hx
    have hu := unpackIdx_lt L x hL hx
    have := h1 (unpackIdx L x) hu
    rw [packIdx_unpackIdx L x hL hx] at this
    rw [this, l1 _ hu]
    unfold fwdLineVal
    by_cases hlow : x < L / 2
    · rw [unpackIdx_low L x hlow, if_pos hlow, if_pos (by omega)]
    · rw [unpackIdx_high L x (by omega), if_neg hlow, if_neg (by omega)]
      have e1 : 2 * x + 1 - L - 1 = 2 * (x - L / 2) := by omega
      have e2 : 2 * x + 1 - L = 2 * (x - L / 2) + 1 := by omega
      simp only [e1]
      rw [e2]
  · intro a ha
    rw [h2 a ha, l2 a ha]

/-- Unpacking then lifting one line of length `L`, for `L = 2` and for every
multiple of four. -/
theorem gInvLine_spec (addr : Nat → Nat) (haddr : Function.Injective addr) (v : Nat)
    (hv : ∀ k, addr k + v = addr (k + 1)) (L fuel : Nat) (hL : L = 2 ∨ L % 4 = 0)
    (hfuel : L - 2 ≤ fuel) (arr : Buf) :
    ∃ out, ((gRearrange addr (fun x => x < L / 2) (fun x => 2 * x)
        (fun x => 2 * x + 1 - L) (fun x => x % 2 = 0 ∧ L / 4 > 0)
        (fun x => (x - L / 2) / 2) (L / 4 > 0) (List.range' (L / 2) ((L - L / 2) / 2) 2) fuel
        (arr, fun _ => 0)).map Prod.fst).map (fun a1 => gLift addr v ((L + 1) / 2) a1) =
          some out ∧
      (∀ x, x < L → out (addr x) = invLineVal L (fun y => arr (addr y)) x) ∧
      (∀ a, (∀ x, x < L → a ≠ addr x) → out a = arr a) := by
  obtain ⟨u, hrun, h1, h2⟩ := gUnpack_spec addr haddr L fuel hL hfuel arr
  have hL2 : L % 2 = 0 := by omega
  obtain ⟨l1, l2⟩ := gLift_spec addr haddr v hv u ((L + 1) / 2)
  have hn : 2 * ((L + 1) / 2) = L := by omega
  rw [hn] at l1 l2
  have hu : ∀ x, x < L → u (addr x) = arr (addr (packIdx L x)) := by
    intro x hx
    have := h1 (packIdx L x) (packIdx_lt L x hL2 hx)
    rw [unpackIdx_packIdx L x hL2 hx] at this
    exact this
  refine ⟨gLift addr v ((L + 1) / 2) u, by rw [hrun]; rfl, ?_, ?_⟩
  · intro x hx
    rw [l1 x hx]
    unfold invLineVal
    by_cases he : x % 2 = 0
    · rw [if_pos he, if_pos he, hu x hx, hu (x + 1) (by omega), packIdx_even L x he,
        packIdx_odd L (x + 1) hL2 (by omega) (by omega)]
      have : (x + 1 - 1) / 2 = x / 2 := by omega
      rw [this]
    · rw [if_neg he, if_neg he, hu x hx, hu (x - 1) (by omega),
        packIdx_even L (x - 1) (by omega), packIdx_odd L x hL2 (by omega) hx]
      have : (x - 1) / 2 = x / 2 := by omega
      rw [this]
  · intro a ha
    rw [l2 a ha, h2 a ha]

/-! ## Row and column passes -/

/-- A loop over `R` pairwise disjoint lines, each step rewriting its own line
as a function `G` of that line's content. -/
theorem foldlM_lines (op : Buf → Nat → Option Buf) (addr : Nat → Nat → Nat) (L : Nat)
    (G : (Nat → Nat) → Nat → Nat)
    (hG : ∀ l l' : Nat → Nat, (∀ y, y < L → l y = l' y) → ∀ x, x < L → G l x = G l' x)
    (R : Nat)
    (hop : ∀ arr i, i < R → ∃ out, op arr i = some out ∧
      (∀ x, x < L → out (addr i x) = G (fun y => arr (addr i y)) x) ∧
      (∀ a, (∀ x, x < L → a ≠ addr i x) → out a = arr a))
    (hdisj : ∀ i i' x x', i < R → i' < R → x < L → x' < L → addr i x = addr i' x' → i = i')
    (arr : Buf) :
    ∀ n, n ≤ R → ∃ out, (List.range n).foldlM op arr = some out ∧
      (∀ i, i < n → ∀ x, x < L → out (addr i x) = G (fun y => arr (addr i y)) x) ∧
      (∀ a, (∀ i, i < n → ∀ x, x < L → a ≠ addr i x) → out a = arr a) := by
  intro n
  induction n with
  | zero =>
    intro _
    exact ⟨arr, rfl, fun i hi => by omega, fun a _ => rfl⟩
  | succ n ih =>
    intro hn
    obtain ⟨mid, hmid, m1, m2⟩ := ih (by omega)
    obtain ⟨out, hout, o1, o2⟩ := hop mid n (by omega)
    refine ⟨out, ?_, ?_, ?_⟩
    · rw [List.range_succ, List.foldlM_append, hmid]
      simp [hout]
    · intro i hi x hx
      rcases Nat.eq_or_lt_of_le (Nat.le_of_lt_succ hi) with rfl | hlt
      · rw [o1 x hx]
        apply hG _ _ _ x hx
        intro y hy
        apply m2
        intro i' hi' x' hx' e
        have := hdisj _ _ _ _ (by omega) (by omega) hy hx' e
        omega
      · rw [o2, m1 i hlt x hx]
        intro x' hx' e
        have := hdisj _ _ _ _ (by omega) (by omega) hx hx' e
        omega
    · intro a ha
      rw [o2 a (fun x hx => ha n (by omega) x hx)]
      exact m2 a (fun i hi x hx => ha i (by omega) x hx)

theorem fwdLineVal_congr (L : Nat) (hL : L % 2 = 0) (l l' : Nat → Nat)
    (h : ∀ y, y < L → l y = l' y) (x : Nat) (hx : x < L) :
    fwdLineVal L l x = fwdLineVal L l' x := by
  unfold fwdLineVal
  by_cases hlow : x < L / 2
  · rw [if_pos hlow, if_pos hlow, h _ (by omega), h _ (by omega)]
  · rw [if_neg hlow, if_neg hlow, h _ (by omega), h _ (by omega)]

theorem invLineVal_congr (L : Nat) (l l' : Nat → Nat)
    (h : ∀ y, y < L → l y = l' y) (x : Nat) (hx : x < L) :
    invLineVal L l x = invLineVal L l' x := by
  unfold invLineVal
  rw [h _ (by omega), h _ (by omega)]

theorem row_div (N i x : Nat) (hx : x < N) : (i * N + x) / N = i := by
  have hN : 0 < N := by omega
  rw [Nat.add_comm, Nat.mul_comm, Nat.add_mul_div_left _ _ hN, Nat.div_eq_of_lt hx]
  simp

theorem row_mod (N i x : Nat) (hx : x < N) : (i * N + x) % N = x := by
  rw [Nat.add_comm, Nat.mul_comm, Nat.add_mul_mod_self_left, Nat.mod_eq_of_lt hx]

theorem col_div (N j x : Nat) (hj : j < N) : (j + x * N) / N = x := by
  rw [Nat.add_comm]; exact row_div N x j hj

theorem col_mod (N j x : Nat) (hj : j < N) : (j + x * N) % N = j := by
  rw [Nat.add_comm]; exact row_mod N x j hj

/-- A buffer that was rewritten row by row on the `M × M` region. -/
theorem rows_closed (N M : Nat) (hMN : M ≤ N) (G : (Nat → Nat) → Nat → Nat)
    (out arr : Buf)
    (h1 : ∀ i, i < M → ∀ x, x < M → out (i * N + x) = G (fun y => arr (i * N + y)) x)
    (h2 : ∀ a, (∀ i, i < M → ∀ x, x < M → a ≠ i * N + x) → out a = arr a) :
    out = fun a => if a / N < M ∧ a % N < M then G (fun y => arr (a / N * N + y)) (a % N)
      else arr a := by
  funext a
  have ha : a = a / N * N + a % N := by
    rw [Nat.mul_comm]; exact (Nat.div_add_mod a N).symm
  by_cases h : a / N < M ∧ a % N < M
  · rw [if_pos h]
    conv_lhs => rw [ha]
    exact h1 _ h.1 _ h.2
  · rw [if_neg h]
    apply h2
    intro i hi x hx e
    apply h
    rw [e, row_div N i x (by omega), row_mod N i x (by omega)]
    exact ⟨hi, hx⟩

/-- A buffer that was rewritten column by column on the `M × M` region. -/
theorem cols_closed (N M : Nat) (hMN : M ≤ N) (G : (Nat → Nat) → Nat → Nat)
    (out arr : Buf)
    (h1 : ∀ j, j < M → ∀ x, x < M → out (j + x * N) = G (fun y => arr (j + y * N)) x)
    (h2 : ∀ a, (∀ j, j < M → ∀ x, x < M → a ≠ j + x * N) → out a = arr a) :
    out = fun a => if a / N < M ∧ a % N < M then G (fun y => arr (a % N + y * N)) (a / N)
      else arr a := by
  funext a
  have ha : a = a % N + a / N * N := by
    rw [Nat.mul_comm]; exact (Nat.mod_add_div a N).symm
  by_cases h : a / N < M ∧ a % N < M
  · rw [if_pos h]
    conv_lhs => rw [ha]
    exact h1 _ h.2 _ h.1
  · rw [if_neg h]
    apply h2
    intro j hj x hx e
    apply h
    rw [e, col_div N j x (by omega), col_mod N j x (by omega)]
    exact ⟨hx, hj⟩

theorem row_addr_inj (N i : Nat) : Function.Injective (fun k => i * N + k) :=
  fun a b h => by simpa using h

theorem col_addr_inj (N j : Nat) (hN : 0 < N) : Function.Injective (fun k => j + k * N) := by
  intro a b h
  have h' : a * N = b * N := by simpa using h
  exact Nat.eq_of_mul_eq_mul_right hN h'

/-- The row loop of one forward level. -/
theorem fwdRows_loop (fuel rowLen N M : Nat) (hMN : M ≤ N) (hM : M % 2 = 0)
    (hfuel : M - 2 ≤ fuel) (arr : Buf) :
    (List.range M).foldlM
      (fun a i => rearrange2DFromLR fuel (rowLift a N M i) rowLen N M i) arr =
      some (fwdRows N M arr) := by
  obtain ⟨out, hrun, h1, h2⟩ := foldlM_lines
    (fun a i => rearrange2DFromLR fuel (rowLift a N M i) rowLen N M i)
    (fun i x => i * N + x) M (fwdLineVal M) (fwdLineVal_congr M hM) M
    (fun a i _ => gFwdLine_spec (fun k => i * N + k) (row_addr_inj N i) 1
      (fun k => by ring) M fuel hM hfuel a)
    (fun i i' x x' _ _ hx hx' e => by
      have h := congrArg (fun t => t / N) e
      simp only [row_div N i x (by omega), row_div N i' x' (by omega)] at h
      exact h)
    arr M (le_refl _)
  rw [hrun]
  exact congrArg some (rows_closed N M hMN (fwdLineVal M) out arr h1 h2)

/-- The column loop of one forward level. -/
theorem fwdCols_loop (fuel rowLen N M : Nat) (hN : 0 < N) (hMN : M ≤ N) (hM : M % 2 = 0)
    (hfuel : M - 2 ≤ fuel) (arr : Buf) :
    (List.range M).foldlM
      (fun a j => rearrange2DFromTC fuel (colLift a N M j) rowLen N M j) arr =
      some (fwdCols N M arr) := by
  obtain ⟨out, hrun, h1, h2⟩ := foldlM_lines
    (fun a j => rearrange2DFromTC fuel (colLift a N M j) rowLen N M j)
    (fun j x => j + x * N) M (fwdLineVal M) (fwdLineVal_congr M hM) M
    (fun a j _ => gFwdLine_spec (fun k => j + k * N) (col_addr_inj N j hN) N
      (fun k => by ring) M fuel hM hfuel a)
    (fun j j' x x' hj hj' _ _ e => by
      have h := congrArg (fun t => t % N) e
      simp only [col_mod N j x (by omega), col_mod N j' x' (by omega)] at h
      exact h)
    arr M (le_refl _)
  rw [hrun]
  exact congrArg some (cols_closed N M hMN (fwdLineVal M) out arr h1 h2)

/-- The column loop of one inverse level. -/
theorem invCols_loop (fuel rowLen N M : Nat) (hN : 0 < N) (hMN : M ≤ N)
    (hM : M = 2 ∨ M % 4 = 0) (hfuel : M - 2 ≤ fuel) (arr : Buf) :
    (List.range M).foldlM
      (fun a j => (revertRearrange2DFromTC fuel a rowLen N M j).map
        (fun a1 => colLift a1 N M j)) arr =
      some (invCols N M arr) := by
  obtain ⟨out, hrun, h1, h2⟩ := foldlM_lines
    (fun a j => (revertRearrange2DFromTC fuel a rowLen N M j).map
        (fun a1 => colLift a1 N M j))
    (fun j x => j + x * N) M (invLineVal M) (invLineVal_congr M) M
    (fun a j _ => gInvLine_spec (fun k => j + k * N) (col_addr_inj N j hN) N
      (fun k => by ring) M fuel hM hfuel a)
    (fun j j' x x' hj hj' _ _ e => by
      have h := congrArg (fun t => t % N) e
      simp only [col_mod N j x (by omega), col_mod N j' x' (by omega)] at h
      exact h)
    arr M (le_refl _)
  rw [hrun]
  exact congrArg some (cols_closed N M hMN (invLineVal M) out arr h1 h2)

/-- The row loop of one inverse level. -/
theorem invRows_loop (fuel rowLen N M : Nat) (hMN : M ≤ N)
    (hM : M = 2 ∨ M % 4 = 0) (hfuel : M - 2 ≤ fuel) (arr : Buf) :
    (List.range M).foldlM
      (fun a i => (revertRearrange2DFromLR fuel a rowLen N M i).map
        (fun a1 => rowLift a1 N M i)) arr =
      some (invRows N M arr) := by
  obtain ⟨out, hrun, h1, h2⟩ := foldlM_lines
    (fun a i => (revertRearrange2DFromLR fuel a rowLen N M i).map
        (fun a1 => rowLift a1 N M i))
    (fun i x => i * N + x) M (invLineVal M) (invLineVal_congr M) M
    (fun a i _ => gInvLine_spec (fun k => i * N + k) (row_addr_inj N i) 1
      (fun k => by ring) M fuel hM hfuel a)
    (fun i i' x x' _ _ hx hx' e => by
      have h := congrArg (fun t => t / N) e
      simp only [row_div N i x (by omega), row_div N i' x' (by omega)] at h
      exact h)
    arr M (le_refl _)
  rw [hrun]
  exact congrArg some (rows_closed N M hMN (invLineVal M) out arr h1 h2)

/-! ## Levels -/

theorem waveletTransform2D_loop_succ (fuel rowLen N level M : Nat) (hN : 0 < N)
    (hMN : M ≤ N) (hM : M % 2 = 0) (hfuel : M - 2 ≤ fuel) (arr : Buf) :
    waveletTransform2D_loop fuel rowLen N (level + 1) arr M M =
      waveletTransform2D_loop fuel rowLen N level (fwdLevel N M arr) (M / 2) (M / 2) := by
  simp only [waveletTransform2D_loop]
  rw [fwdRows_loop fuel rowLen N M hMN hM hfuel arr]
  simp only [Option.bind_eq_bind, Option.some_bind]
  rw [fwdCols_loop fuel rowLen N M hN hMN hM hfuel]
  rfl

theorem invWaveletTransform2D_loop_succ (fuel rowLen N level M : Nat) (hN : 0 < N)
    (hMN : M ≤ N) (hM : M = 2 ∨ M % 4 = 0) (hfuel : M - 2 ≤ fuel) (arr : Buf) :
    invWaveletTransform2D_loop fuel rowLen N (level + 1) arr M M =
      invWaveletTransform2D_loop fuel rowLen N level (invLevel N M arr) (M * 2) (M * 2) := by
  simp only [invWaveletTransform2D_loop]
  rw [invCols_loop fuel rowLen N M hN hMN hM hfuel arr]
  simp only [Option.bind_eq_bind, Option.some_bind]
  rw [invRows_loop fuel rowLen N M hMN hM hfuel]
  rfl

theorem two_pow_even (k : Nat) (hk : 1 ≤ k) : 2 ^ k % 2 = 0 := by
  obtain ⟨q, rfl⟩ : ∃ q, k = q + 1 := ⟨k - 1, by omega⟩
  rw [pow_succ]; omega

theorem two_pow_two_or_four (k : Nat) (hk : 1 ≤ k) : 2 ^ k = 2 ∨ 2 ^ k % 4 = 0 := by
  obtain ⟨q, rfl⟩ : ∃ q, k = q + 1 := ⟨k - 1, by omega⟩
  rcases Nat.eq_zero_or_pos q with rfl | hq
  · left; rfl
  · right
    obtain ⟨q', rfl⟩ : ∃ q', q = q' + 1 := ⟨q - 1, by omega⟩
    rw [pow_succ, pow_succ]; omega

theorem two_pow_half (k : Nat) : 2 ^ (k + 1) / 2 = 2 ^ k := by
  rw [pow_succ]; omega

/-- The forward loop on a dyadic region equals the levels of `fwdSpec`. -/
theorem waveletTransform2D_loop_eq (fuel rowLen N : Nat) (hN : 0 < N) :
    ∀ (level k : Nat) (arr : Buf), level ≤ k → 2 ^ k ≤ N → 2 ^ k - 2 ≤ fuel →
      waveletTransform2D_loop fuel rowLen N level arr (2 ^ k) (2 ^ k) =
        some (fwdSpec N level (2 ^ k) arr) := by
  intro level
  induction level with
  | zero => intro k arr _ _ _; rfl
  | succ level ih =>
    intro k arr hk hkN hfuel
    obtain ⟨q, rfl⟩ : ∃ q, k = q + 1 := ⟨k - 1, by omega⟩
    rw [waveletTransform2D_loop_succ fuel rowLen N level _ hN hkN (two_pow_even _ (by omega))
      hfuel, two_pow_half]
    have h2 : 2 ^ q ≤ 2 ^ (q + 1) := Nat.pow_le_pow_right (by omega) (by omega)
    rw [ih q _ (by omega) (by omega) (by omega)]
    simp only [fwdSpec, two_pow_half]

/-- The inverse loop on dyadic regions equals the levels of `invSpec`. -/
theorem invWaveletTransform2D_loop_eq (fuel rowLen N : Nat) (hN : 0 < N) :
    ∀ (level k : Nat) (arr : Buf), 1 ≤ k → 2 ^ (k + level) ≤ 2 * N → N - 2 ≤ fuel →
      invWaveletTransform2D_loop fuel rowLen N level arr (2 ^ k) (2 ^ k) =
        some (invSpec N level (2 ^ k) arr) := by
  intro level
  induction level with
  | zero => intro k arr _ _ _; rfl
  | succ level ih =>
    intro k arr hk hkN hfuel
    have e : 2 ^ (k + (level + 1)) = 2 ^ (k + 1 + level) := by
      congr 1; omega
    have h1 : 2 ^ (k + 1) ≤ 2 ^ (k + 1 + level) := Nat.pow_le_pow_right (by omega) (by omega)
    have h2 : 2 ^ (k + 1) = 2 ^ k * 2 := pow_succ 2 k
    have hkN' : 2 ^ k ≤ N := by rw [e] at hkN; omega
    rw [invWaveletTransform2D_loop_succ fuel rowLen N level _ hN hkN'
      (two_pow_two_or_four _ hk) (by omega), ← h2]
    rw [ih (k + 1) _ (by omega) (by rw [← e]; exact hkN) hfuel]
    simp only [invSpec, h2]

/-- The forward transform on a dyadic square buffer, in closed form. -/
theorem waveletTransform2D_eq (fuel m level : Nat) (hlev : level ≤ m)
    (hfuel : 2 ^ m - 2 ≤ fuel) (arr : Buf) :
    waveletTransform2D fuel arr (2 ^ m) (2 ^ m) level =
      some (fwdSpec (2 ^ m) level (2 ^ m) arr) :=
  waveletTransform2D_loop_eq fuel (2 ^ m) (2 ^ m) (Nat.pos_pow_of_pos m (by omega)) level m arr
    hlev (le_refl _) hfuel

theorem two_mul_div_pow (m level : Nat) (hlev : level ≤ m) :
    2 * 2 ^ m / 2 ^ level = 2 ^ (m + 1 - level) := by
  have e : 2 * 2 ^ m = 2 ^ (m + 1 - level) * 2 ^ level := by
    rw [← pow_add, show m + 1 - level + level = m + 1 by omega, pow_succ]; ring
  rw [e, Nat.mul_div_cancel _ (Nat.pos_pow_of_pos level (by omega))]

/-- The inverse transform on a dyadic square buffer, in closed form. -/
theorem invWaveletTransform2D_eq (fuel m level : Nat) (hlev : level ≤ m)
    (hfuel : 2 ^ m - 2 ≤ fuel) (arr : Buf) :
    invWaveletTransform2D fuel arr (2 ^ m) (2 ^ m) level =
      some (invSpec (2 ^ m) level (2 ^ (m + 1 - level)) arr) := by
  unfold invWaveletTransform2D
  rw [two_mul_div_pow m level hlev]
  apply invWaveletTransform2D_loop_eq fuel (2 ^ m) (2 ^ m) (Nat.pos_pow_of_pos m (by omega))
    level (m + 1 - level) arr (by omega) _ hfuel
  rw [show m + 1 - level + level = m + 1 by omega, pow_succ]
  omega

/-! ## Undoing one level -/

theorem invLineVal_fwdLineVal (L : Nat) (hL : L % 2 = 0) (l : Nat → Nat)
    (h : ∀ t, t < L / 2 → liftUndone (l (2 * t)) (l (2 * t + 1))) (x : Nat) (hx : x < L) :
    invLineVal L (fwdLineVal L l) x = l x := by
  have ht : x / 2 < L / 2 := by omega
  have h1 : fwdLineVal L l (x / 2) = trend (l (2 * (x / 2))) (l (2 * (x / 2) + 1)) := by
    unfold fwdLineVal; rw [if_pos ht]
  have h2 : fwdLineVal L l (L / 2 + x / 2) =
      fluct (l (2 * (x / 2))) (l (2 * (x / 2) + 1)) := by
    unfold fwdLineVal
    rw [if_neg (by omega), show L / 2 + x / 2 - L / 2 = x / 2 by omega]
  unfold invLineVal
  rw [h1, h2]
  by_cases he : x % 2 = 0
  · rw [if_pos he, (h _ ht).1]
    congr 1; omega
  · rw [if_neg he, (h _ ht).2]
    congr 1; omega

theorem fwdRows_apply (N M : Nat) (arr : Buf) (r c : Nat) (hr : r < M) (hc : c < M)
    (hMN : M ≤ N) :
    fwdRows N M arr (r * N + c) = fwdLineVal M (fun y => arr (r * N + y)) c := by
  unfold fwdRows
  simp only [row_div N r c (by omega), row_mod N r c (by omega)]
  rw [if_pos ⟨hr, hc⟩]

theorem fwdCols_apply (N M : Nat) (arr : Buf) (r c : Nat) (hr : r < M) (hc : c < M)
    (hMN : M ≤ N) :
    fwdCols N M arr (c + r * N) = fwdLineVal M (fun y => arr (c + y * N)) r := by
  unfold fwdCols
  simp only [col_div N c r (by omega), col_mod N c r (by omega)]
  rw [if_pos ⟨hr, hc⟩]

/-- The inverse row pass undoes the forward row pass when every row pair is
undone by a second lifting step. -/
theorem invRows_fwdRows (N M : Nat) (hMN : M ≤ N) (hM : M % 2 = 0) (arr : Buf)
    (h : ∀ r, r < M → ∀ c, c < M / 2 →
      liftUndone (arr (r * N + 2 * c)) (arr (r * N + (2 * c + 1)))) :
    invRows N M (fwdRows N M arr) = arr := by
  funext a
  unfold invRows
  by_cases hin : a / N < M ∧ a % N < M
  · rw [if_pos hin]
    have hc : ∀ y, y < M → (fun y => fwdRows N M arr (a / N * N + y)) y =
        fwdLineVal M (fun y => arr (a / N * N + y)) y :=
      fun y hy => fwdRows_apply N M arr (a / N) y hin.1 hy hMN
    have e : invLineVal M (fun y => fwdRows N M arr (a / N * N + y)) (a % N) =
        invLineVal M (fwdLineVal M (fun y => arr (a / N * N + y))) (a % N) :=
      invLineVal_congr M _ _ hc _ hin.2
    rw [e, invLineVal_fwdLineVal M hM (fun y => arr (a / N * N + y))
      (fun t ht => h _ hin.1 t ht) _ hin.2]
    congr 1
    rw [Nat.mul_comm]; exact Nat.div_add_mod a N
  · rw [if_neg hin]
    unfold fwdRows
    rw [if_neg hin]

/-- The inverse column pass undoes the forward column pass when every column
pair is undone by a second lifting step. -/
theorem invCols_fwdCols (N M : Nat) (hMN : M ≤ N) (hM : M % 2 = 0) (arr : Buf)
    (h : ∀ c, c < M → ∀ r, r < M / 2 →
      liftUndone (arr (c + 2 * r * N)) (arr (c + (2 * r + 1) * N))) :
    invCols N M (fwdCols N M arr) = arr := by
  funext a
  unfold invCols
  by_cases hin : a / N < M ∧ a % N < M
  · rw [if_pos hin]
    have hc : ∀ y, y < M → (fun y => fwdCols N M arr (a % N + y * N)) y =
        fwdLineVal M (fun y => arr (a % N + y * N)) y :=
      fun y hy => fwdCols_apply N M arr y (a % N) hy hin.2 hMN
    have e : invLineVal M (fun y => fwdCols N M arr (a % N + y * N)) (a / N) =
        invLineVal M (fwdLineVal M (fun y => arr (a % N + y * N))) (a / N) :=
      invLineVal_congr M _ _ hc _ hin.1
    rw [e, invLineVal_fwdLineVal M hM (fun y => arr (a % N + y * N))
      (fun t ht => h _ hin.2 t ht) _ hin.1]
    congr 1
    rw [Nat.mul_comm]; exact Nat.mod_add_div a N
  · rw [if_neg hin]
    unfold fwdCols
    rw [if_neg hin]

/-- One inverse level undoes one forward level when every lifting step of the
forward level is undone by a second lifting step. -/
theorem invLevel_fwdLevel (N M : Nat) (hMN : M ≤ N) (hM : M % 2 = 0) (arr : Buf)
    (h : LevelUndone N M arr) : invLevel N M (fwdLevel N M arr) = arr := by
  unfold invLevel fwdLevel
  rw [invCols_fwdCols N M hMN hM _ h.2, invRows_fwdRows N M hMN hM _ h.1]

theorem invSpec_snoc (N : Nat) : ∀ (level M : Nat) (arr : Buf),
    invSpec N (level + 1) M arr = invLevel N (M * 2 ^ level) (invSpec N level M arr) := by
  intro level
  induction level with
  | zero => intro M arr; simp [invSpec]
  | succ level ih =>
    intro M arr
    have e : M * 2 ^ (level + 1) = M * 2 * 2 ^ level := by rw [pow_succ]; ring
    rw [e]
    show invSpec N (level + 1) (M * 2) (invLevel N M arr) =
      invLevel N (M * 2 * 2 ^ level) (invSpec N level (M * 2) (invLevel N M arr))
    exact ih _ _

/-- The inverse levels undo the forward levels when every lifting step of the
forward levels is undone by a second lifting step. -/
theorem invSpec_fwdSpec (N : Nat) : ∀ (level k : Nat) (arr : Buf), level ≤ k → 2 ^ k ≤ N →
    AllUndone N level (2 ^ k) arr →
    invSpec N level (2 ^ (k + 1 - level)) (fwdSpec N level (2 ^ k) arr) = arr := by
  intro level
  induction level with
  | zero => intro k arr _ _ _; rfl
  | succ level ih =>
    intro k arr hk hkN hall
    obtain ⟨q, rfl⟩ : ∃ q, k = q + 1 := ⟨k - 1, by omega⟩
    obtain ⟨h1, h2⟩ := hall
    rw [two_pow_half] at h2
    have hq : 2 ^ q ≤ 2 ^ (q + 1) := Nat.pow_le_pow_right (by omega) (by omega)
    rw [invSpec_snoc]
    have e1 : q + 1 + 1 - (level + 1) = q + 1 - level := by omega
    have e2 : 2 ^ (q + 1 - level) * 2 ^ level = 2 ^ (q + 1) := by
      rw [← pow_add]; congr 1; omega
    rw [e1, e2]
    simp only [fwdSpec, two_pow_half]
    rw [ih q _ (by omega) (by omega) h2]
    exact invLevel_fwdLevel N _ hkN (two_pow_even _ (by omega)) arr h1

/-! ## Pack and unpack on one row -/

theorem fwdSpec_snoc (N : Nat) : ∀ (level M : Nat) (arr : Buf),
    fwdSpec N (level + 1) M arr = fwdLevel N (M / 2 ^ level) (fwdSpec N level M arr) := by
  intro level
  induction level with
  | zero => intro M arr; simp [fwdSpec]
  | succ level ih =>
    intro M arr
    have e : M / 2 ^ (level + 1) = M / 2 / 2 ^ level := by
      rw [Nat.div_div_eq_div_mul, pow_succ, Nat.mul_comm]
    rw [e]
    show fwdSpec N (level + 1) (M / 2) (fwdLevel N M arr) =
      fwdLevel N (M / 2 / 2 ^ level) (fwdSpec N level (M / 2) (fwdLevel N M arr))
    exact ih _ _

theorem fwdLevel_outside (N M : Nat) (arr : Buf) (a : Nat)
    (h : ¬ (a / N < M ∧ a % N < M)) : fwdLevel N M arr a = arr a := by
  unfold fwdLevel fwdCols
  rw [if_neg h]
  unfold fwdRows
  rw [if_neg h]

/-- Unpacking a packed line, and packing an unpacked line, gives the line
back, along any injective address map and for `L = 2` or `L` a multiple of
four. -/
theorem gPack_gUnpack (addr : Nat → Nat) (haddr : Function.Injective addr) (L fuel : Nat)
    (hL : L = 2 ∨ L % 4 = 0) (hfuel : L - 2 ≤ fuel) (arr : Buf) :
    (∃ p, (gRearrange addr (fun x => x % 2 = 0) (fun x => x / 2)
        (fun x => x + (L / 2 - 1) - (x - 1) / 2) (fun x => x ≤ L / 2 - 1 ∧ L / 4 > 0)
        (fun x => x / 2) (L / 4 > 0) (List.range' 1 ((L / 2 - 1 + 1) / 2) 2) fuel
        (arr, fun _ => 0)).map Prod.fst = some p ∧
      (gRearrange addr (fun x => x < L / 2) (fun x => 2 * x)
        (fun x => 2 * x + 1 - L) (fun x => x % 2 = 0 ∧ L / 4 > 0)
        (fun x => (x - L / 2) / 2) (L / 4 > 0) (List.range' (L / 2) ((L - L / 2) / 2) 2) fuel
        (p, fun _ => 0)).map Prod.fst = some arr) ∧
    (∃ u, (gRearrange addr (fun x => x < L / 2) (fun x => 2 * x)
        (fun x => 2 * x + 1 - L) (fun x => x % 2 = 0 ∧ L / 4 > 0)
        (fun x => (x - L / 2) / 2) (L / 4 > 0) (List.range' (L / 2) ((L - L / 2) / 2) 2) fuel
        (arr, fun _ => 0)).map Prod.fst = some u ∧
      (gRearrange addr (fun x => x % 2 = 0) (fun x => x / 2)
        (fun x => x + (L / 2 - 1) - (x - 1) / 2) (fun x => x ≤ L / 2 - 1 ∧ L / 4 > 0)
        (fun x => x / 2) (L / 4 > 0) (List.range' 1 ((L / 2 - 1 + 1) / 2) 2) fuel
        (u, fun _ => 0)).map Prod.fst = some arr) := by
  classical
  have hL2 : L % 2 = 0 := by omega
  constructor
  · obtain ⟨p, hp, p1, p2⟩ := gPack_spec addr haddr L fuel hL2 hfuel arr
    obtain ⟨u, hu, u1, u2⟩ := gUnpack_spec addr haddr L fuel hL hfuel p
    refine ⟨p, hp, ?_⟩
    rw [hu]
    congr 1
    funext a
    by_cases hin : ∃ x, x < L ∧ a = addr x
    · obtain ⟨x, hx, rfl⟩ := hin
      have := u1 (packIdx L x) (packIdx_lt L x hL2 hx)
      rw [unpackIdx_packIdx L x hL2 hx] at this
      rw [this, p1 x hx]
    · have hout : ∀ x, x < L → a ≠ addr x := fun x hx e => hin ⟨x, hx, e⟩
      rw [u2 a hout, p2 a hout]
  · obtain ⟨u, hu, u1, u2⟩ := gUnpack_spec addr haddr L fuel hL hfuel arr
    obtain ⟨p, hp, p1, p2⟩ := gPack_spec addr haddr L fuel hL2 hfuel u
    refine ⟨u, hu, ?_⟩
    rw [hp]
    congr 1
    funext a
    by_cases hin : ∃ x, x < L ∧ a = addr x
    · obtain ⟨x, hx, rfl⟩ := hin
      have := p1 (unpackIdx L x) (unpackIdx_lt L x hL2 hx)
      rw [packIdx_unpackIdx L x hL2 hx] at this
      rw [this, u1 x hx]
    · have hout : ∀ x, x < L → a ≠ addr x := fun x hx e => hin ⟨x, hx, e⟩
      rw [p2 a hout, u2 a hout]

/-! ## Properties of the packer, the transforms and the validator -/

/-- C1, counterexample: on the 2 × 2 buffer `[[0, 1], [0, 0]]` at level 1 both
transforms return, and the inverse after the forward transform leaves 1 in
cell 0, where the original buffer holds 0. -/
theorem roundTrip_not_exact :
    ∃ mid out, waveletTransform2D 0 (fun k => if k = 1 then 1 else 0) (2 ^ 1) (2 ^ 1) 1 =
        some mid ∧
      invWaveletTransform2D 0 mid (2 ^ 1) (2 ^ 1) 1 = some out ∧
      out 0 ≠ (fun k => if k = 1 then 1 else 0 : Buf) 0 :=
  ⟨_, _, waveletTransform2D_eq 0 1 1 (le_refl _) (by decide) _,
    invWaveletTransform2D_eq 0 1 1 (le_refl _) (by decide) _, by decide⟩

/-- C1 (amended): for `N = 2 ^ m`, every level with `1 ≤ level ≤ m` and every
`N × N` buffer on which every lifting step of the forward transform is undone
by a second lifting step (`AllUndone`), `waveletTransform2D` followed by
`invWaveletTransform2D` at the same level returns the original buffer, cell
for cell. -/
theorem roundTrip_of_allUndone (m level fuel : Nat) (buf : Buf) (_h1 : 1 ≤ level)
    (hlev : level ≤ m) (hfuel : 2 ^ m - 2 ≤ fuel)
    (hU : AllUndone (2 ^ m) level (2 ^ m) buf) :
    ∃ mid, waveletTransform2D fuel buf (2 ^ m) (2 ^ m) level = some mid ∧
      invWaveletTransform2D fuel mid (2 ^ m) (2 ^ m) level = some buf := by
  refine ⟨_, waveletTransform2D_eq fuel m level hlev hfuel buf, ?_⟩
  rw [invWaveletTransform2D_eq fuel m level hlev hfuel,
    invSpec_fwdSpec (2 ^ m) level m buf hlev (le_refl _) hU]

/-- C1 (amended), witness: the 2 × 2 buffer `[[10, 4], [7, 3]]` at level 1. -/
theorem roundTrip_of_allUndone_witness :
    (1 ≤ 1 ∧ 1 ≤ 1 ∧ 2 ^ 1 - 2 ≤ 0 ∧
      AllUndone (2 ^ 1) 1 (2 ^ 1)
        (fun k => if k = 0 then 10 else if k = 1 then 4 else if k = 2 then 7
          else if k = 3 then 3 else 0)) ∧
    ∃ mid, waveletTransform2D 0
        (fun k => if k = 0 then 10 else if k = 1 then 4 else if k = 2 then 7
          else if k = 3 then 3 else 0) (2 ^ 1) (2 ^ 1) 1 = some mid ∧
      invWaveletTransform2D 0 mid (2 ^ 1) (2 ^ 1) 1 =
        some (fun k => if k = 0 then 10 else if k = 1 then 4 else if k = 2 then 7
          else if k = 3 then 3 else 0) := by
  have hU : AllUndone (2 ^ 1) 1 (2 ^ 1)
      (fun k => if k = 0 then 10 else if k = 1 then 4 else if k = 2 then 7
        else if k = 3 then 3 else 0) := by
    refine ⟨⟨?_, ?_⟩, trivial⟩ <;> decide
  exact ⟨⟨le_refl _, le_refl _, by decide, hU⟩,
    roundTrip_of_allUndone 1 1 0 _ (le_refl _) (le_refl _) (by decide) hU⟩

/-- C2: for every `L = 2 ^ k` with `k ≥ 1` and `L ≤ colLen`, every row `i` and
every buffer, `revertRearrange2DFromLR` after `rearrange2DFromLR` restores the
buffer, and `rearrange2DFromLR` after `revertRearrange2DFromLR` restores it
too; all four calls return. -/
theorem pack_unpack_mutual_inverse (k fuel rowLen colLen i : Nat) (arr : Buf)
    (hk : 1 ≤ k) (_hLc : 2 ^ k ≤ colLen) (hfuel : 2 ^ k - 2 ≤ fuel) :
    (∃ p, rearrange2DFromLR fuel arr rowLen colLen (2 ^ k) i = some p ∧
      revertRearrange2DFromLR fuel p rowLen colLen (2 ^ k) i = some arr) ∧
    (∃ u, revertRearrange2DFromLR fuel arr rowLen colLen (2 ^ k) i = some u ∧
      rearrange2DFromLR fuel u rowLen colLen (2 ^ k) i = some arr) := by
  exact gPack_gUnpack (fun x => i * colLen + x) (row_addr_inj colLen i) (2 ^ k) fuel
    (two_pow_two_or_four k hk) hfuel arr

/-- C2, witness: length 4 on row 0 of the buffer `arr[n] = n`. -/
theorem pack_unpack_mutual_inverse_witness :
    (1 ≤ 2 ∧ 2 ^ 2 ≤ 4 ∧ 2 ^ 2 - 2 ≤ 2) ∧
    ((∃ p, rearrange2DFromLR 2 (fun n => n) 1 4 (2 ^ 2) 0 = some p ∧
      revertRearrange2DFromLR 2 p 1 4 (2 ^ 2) 0 = some (fun n => n)) ∧
    (∃ u, revertRearrange2DFromLR 2 (fun n => n) 1 4 (2 ^ 2) 0 = some u ∧
      rearrange2DFromLR 2 u 1 4 (2 ^ 2) 0 = some (fun n => n))) :=
  ⟨⟨by decide, by decide, by decide⟩,
    pack_unpack_mutual_inverse 2 2 1 4 0 (fun n => n) (by decide) (by decide) (by decide)⟩

/-- C3: for every even `L ≥ 2` with `L ≤ colLen`, every row `i` and every
buffer, `rearrange2DFromLR` returns, and afterwards `new[k] = old[2k]` and
`new[L/2 + k] = old[2k + 1]` for every `k < L/2`; equivalently the value at
old offset `x` sits at `x/2` for even `x` and at `L/2 + (x - 1)/2` for odd `x`. -/
theorem rearrange2DFromLR_parity_partition (fuel rowLen colLen L i : Nat) (arr : Buf)
    (_h2 : 2 ≤ L) (hL : L % 2 = 0) (_hLc : L ≤ colLen) (hfuel : L - 2 ≤ fuel) :
    ∃ out, rearrange2DFromLR fuel arr rowLen colLen L i = some out ∧
      (∀ k, k < L / 2 → out (i * colLen + k) = arr (i * colLen + 2 * k) ∧
        out (i * colLen + (L / 2 + k)) = arr (i * colLen + (2 * k + 1))) ∧
      (∀ x, x < L →
        out (i * colLen + (if x % 2 = 0 then x / 2 else L / 2 + (x - 1) / 2)) =
          arr (i * colLen + x)) := by
  obtain ⟨out, hout, h1, -⟩ := gPack_spec (fun x => i * colLen + x) (row_addr_inj colLen i)
    L fuel hL hfuel arr
  refine ⟨out, hout, ?_, ?_⟩
  · intro k hk
    constructor
    · have := h1 (2 * k) (by omega)
      rw [packIdx_even L _ (by omega)] at this
      rw [← this]
      congr 2; omega
    · have := h1 (2 * k + 1) (by omega)
      rw [packIdx_odd L _ hL (by omega) (by omega)] at this
      rw [← this]
      congr 2; omega
  · intro x hx
    have := h1 x hx
    by_cases he : x % 2 = 0
    · rw [packIdx_even L x he] at this
      rw [if_pos he]; exact this
    · rw [packIdx_odd L x hL (by omega) hx] at this
      rw [if_neg he]; exact this

/-- C3, witness: length 6 on row 1 of a buffer with rows of 8 cells. -/
theorem rearrange2DFromLR_parity_partition_witness :
    (2 ≤ 6 ∧ 6 % 2 = 0 ∧ 6 ≤ 8 ∧ 6 - 2 ≤ 4) ∧
    ∃ out, rearrange2DFromLR 4 (fun n => n) 8 8 6 1 = some out ∧
      (∀ k, k < 6 / 2 → out (1 * 8 + k) = (fun n => n : Buf) (1 * 8 + 2 * k) ∧
        out (1 * 8 + (6 / 2 + k)) = (fun n => n : Buf) (1 * 8 + (2 * k + 1))) ∧
      (∀ x, x < 6 →
        out (1 * 8 + (if x % 2 = 0 then x / 2 else 6 / 2 + (x - 1) / 2)) =
          (fun n => n : Buf) (1 * 8 + x)) :=
  ⟨⟨by decide, by decide, by decide, by decide⟩,
    rearrange2DFromLR_parity_partition 4 8 8 6 1 (fun n => n) (by decide) (by decide)
      (by decide) (by decide)⟩

/-- C4 (amended): for `L = 2` and for every multiple of four, so for every
power of two, on every row `i` and every buffer, `revertRearrange2DFromLR`
returns, and afterwards `new[2p] = old[p]` for every `p < L/2` and
`new[2(p - L/2) + 1] = old[p]` for every `p` with `L/2 ≤ p < L`. -/
theorem revertRearrange2DFromLR_interleave_of_four (fuel rowLen colLen L i : Nat) (arr : Buf)
    (hL : L = 2 ∨ L % 4 = 0) (hfuel : L - 2 ≤ fuel) :
    ∃ out, revertRearrange2DFromLR fuel arr rowLen colLen L i = some out ∧
      (∀ p, p < L / 2 → out (i * colLen + 2 * p) = arr (i * colLen + p)) ∧
      (∀ p, L / 2 ≤ p → p < L →
        out (i * colLen + (2 * (p - L / 2) + 1)) = arr (i * colLen + p)) := by
  obtain ⟨out, hout, h1, -⟩ := gUnpack_spec (fun x => i * colLen + x)
    (row_addr_inj colLen i) L fuel hL hfuel arr
  refine ⟨out, hout, ?_, ?_⟩
  · intro p hp
    have := h1 p (by omega)
    rw [unpackIdx_low L p hp] at this
    exact this
  · intro p hp1 hp2
    have := h1 p hp2
    rw [unpackIdx_high L p hp1] at this
    rw [← this]
    congr 2; omega

/-- C4 (amended), witness: row 1 of an 8 x 8 buffer, `L = 8`. -/
theorem revertRearrange2DFromLR_interleave_of_four_witness :
    ((8 = 2 ∨ 8 % 4 = 0) ∧ 8 - 2 ≤ 6) ∧
    ∃ out, revertRearrange2DFromLR 6 (fun n => n) 8 8 8 1 = some out ∧
      (∀ p, p < 8 / 2 → out (1 * 8 + 2 * p) = (fun n => n : Buf) (1 * 8 + p)) ∧
      (∀ p, 8 / 2 ≤ p → p < 8 →
        out (1 * 8 + (2 * (p - 8 / 2) + 1)) = (fun n => n : Buf) (1 * 8 + p)) :=
  ⟨⟨Or.inr (by decide), by decide⟩,
    revertRearrange2DFromLR_interleave_of_four 6 8 8 8 1 (fun n => n) (Or.inr (by decide))
      (by decide)⟩

/-- C4, counterexample: on a row of length 10 holding `0, 1, ..., 9` the
unpacker returns with offset 6 still holding 6, where the interleave
permutation `new[2p] = old[p]` puts the value 3 of offset `p = 3`. -/
theorem revertRearrange2DFromLR_ten_not_interleave :
    ∃ out, revertRearrange2DFromLR 8 (fun n => n) 1 10 10 0 = some out ∧
      out (0 * 10 + 2 * 3) = 6 ∧
      out (0 * 10 + 2 * 3) ≠ (fun n => n : Buf) (0 * 10 + 3) := by
  have h : (revertRearrange2DFromLR 8 (fun n => n) 1 10 10 0).map (fun out => out 6) =
      some 6 := by decide
  cases hr : revertRearrange2DFromLR 8 (fun n => n) 1 10 10 0 with
  | none => rw [hr] at h; cases h
  | some out =>
    rw [hr] at h
    have h6 : out 6 = 6 := by simpa using h
    refine ⟨out, rfl, h6, ?_⟩
    show out 6 ≠ 3
    rw [h6]; decide

theorem fwdLevel_apply (N M : Nat) (hMN : M ≤ N) (hM : M % 2 = 0) (arr : Buf) (r c : Nat)
    (hr : r < M) (hc : c < M) :
    fwdLevel N M arr (r * N + c) =
      fwdLineVal M (fun y => fwdLineVal M (fun z => arr (y * N + z)) c) r := by
  unfold fwdLevel
  rw [Nat.add_comm, fwdCols_apply N M _ r c hr hc hMN]
  apply fwdLineVal_congr M hM _ _ _ r hr
  intro y hy
  show fwdRows N M arr (c + y * N) = _
  rw [Nat.add_comm, fwdRows_apply N M arr y c hy hc hMN]

/-- C5: for `N = 2 ^ m ≥ 2` and every `N × N` buffer `x`, the forward transform
at level 1 returns, and for all `r, c < N/2` the four quadrants hold the
trend of trends, the trend of fluctuations, the fluctuation of trends and the
fluctuation of fluctuations of the 2 × 2 block at rows `2r, 2r + 1` and columns
`2c, 2c + 1`. -/
theorem waveletTransform2D_level_one_layout (N m fuel : Nat) (x : Buf) (hN : N = 2 ^ m)
    (hm : 1 ≤ m) (hfuel : N - 2 ≤ fuel) :
    ∃ out, waveletTransform2D fuel x N N 1 = some out ∧
      ∀ r c, r < N / 2 → c < N / 2 →
        out (r * N + c) =
          trend (trend (x (2 * r * N + 2 * c)) (x (2 * r * N + (2 * c + 1))))
            (trend (x ((2 * r + 1) * N + 2 * c)) (x ((2 * r + 1) * N + (2 * c + 1)))) ∧
        out (r * N + (N / 2 + c)) =
          trend (fluct (x (2 * r * N + 2 * c)) (x (2 * r * N + (2 * c + 1))))
            (fluct (x ((2 * r + 1) * N + 2 * c)) (x ((2 * r + 1) * N + (2 * c + 1)))) ∧
        out ((N / 2 + r) * N + c) =
          fluct (trend (x (2 * r * N + 2 * c)) (x (2 * r * N + (2 * c + 1))))
            (trend (x ((2 * r + 1) * N + 2 * c)) (x ((2 * r + 1) * N + (2 * c + 1)))) ∧
        out ((N / 2 + r) * N + (N / 2 + c)) =
          fluct (fluct (x (2 * r * N + 2 * c)) (x (2 * r * N + (2 * c + 1))))
            (fluct (x ((2 * r + 1) * N + 2 * c)) (x ((2 * r + 1) * N + (2 * c + 1)))) := by
  subst hN
  have hev : 2 ^ m % 2 = 0 := two_pow_even m hm
  refine ⟨_, waveletTransform2D_eq fuel m 1 hm hfuel x, ?_⟩
  intro r c hr hc
  have hspec : fwdSpec (2 ^ m) 1 (2 ^ m) x = fwdLevel (2 ^ m) (2 ^ m) x := rfl
  rw [hspec]
  have e1 : 2 ^ m / 2 + r - 2 ^ m / 2 = r := by omega
  have e2 : 2 ^ m / 2 + c - 2 ^ m / 2 = c := by omega
  have n1 : ¬ (2 ^ m / 2 + r < 2 ^ m / 2) := by omega
  have n2 : ¬ (2 ^ m / 2 + c < 2 ^ m / 2) := by omega
  refine ⟨?_, ?_, ?_, ?_⟩
  · rw [fwdLevel_apply _ _ (le_refl _) hev x r c (by omega) (by omega)]
    simp only [fwdLineVal, if_pos hr, if_pos hc]
  · rw [fwdLevel_apply _ _ (le_refl _) hev x r _ (by omega) (by omega)]
    simp only [fwdLineVal, if_pos hr, if_neg n2, e2]
  · rw [fwdLevel_apply _ _ (le_refl _) hev x _ c (by omega) (by omega)]
    simp only [fwdLineVal, if_pos hc, if_neg n1, e1]
  · rw [fwdLevel_apply _ _ (le_refl _) hev x _ _ (by omega) (by omega)]
    simp only [fwdLineVal, if_neg n1, if_neg n2, e1, e2]

/-- C5, witness: a 4 × 4 buffer. -/
theorem waveletTransform2D_level_one_layout_witness :
    (4 = 2 ^ 2 ∧ 1 ≤ 2 ∧ 4 - 2 ≤ 2) ∧
    ∃ out, waveletTransform2D 2 (fun n => 3 * n) 4 4 1 = some out ∧
      ∀ r c, r < 4 / 2 → c < 4 / 2 →
        out (r * 4 + c) =
          trend (trend ((fun n => 3 * n : Buf) (2 * r * 4 + 2 * c))
              ((fun n => 3 * n : Buf) (2 * r * 4 + (2 * c + 1))))
            (trend ((fun n => 3 * n : Buf) ((2 * r + 1) * 4 + 2 * c))
              ((fun n => 3 * n : Buf) ((2 * r + 1) * 4 + (2 * c + 1)))) ∧
        out (r * 4 + (4 / 2 + c)) =
          trend (fluct ((fun n => 3 * n : Buf) (2 * r * 4 + 2 * c))
              ((fun n => 3 * n : Buf) (2 * r * 4 + (2 * c + 1))))
            (fluct ((fun n => 3 * n : Buf) ((2 * r + 1) * 4 + 2 * c))
              ((fun n => 3 * n : Buf) ((2 * r + 1) * 4 + (2 * c + 1)))) ∧
        out ((4 / 2 + r) * 4 + c) =
          fluct (trend ((fun n => 3 * n : Buf) (2 * r * 4 + 2 * c))
              ((fun n => 3 * n : Buf) (2 * r * 4 + (2 * c + 1))))
            (trend ((fun n => 3 * n : Buf) ((2 * r + 1) * 4 + 2 * c))
              ((fun n => 3 * n : Buf) ((2 * r + 1) * 4 + (2 * c + 1)))) ∧
        out ((4 / 2 + r) * 4 + (4 / 2 + c)) =
          fluct (fluct ((fun n => 3 * n : Buf) (2 * r * 4 + 2 * c))
              ((fun n => 3 * n : Buf) (2 * r * 4 + (2 * c + 1))))
            (fluct ((fun n => 3 * n : Buf) ((2 * r + 1) * 4 + 2 * c))
              ((fun n => 3 * n : Buf) ((2 * r + 1) * 4 + (2 * c + 1)))) :=
  ⟨⟨by decide, by decide, by decide⟩,
    waveletTransform2D_level_one_layout 4 2 2 (fun n => 3 * n) (by decide) (by decide)
      (by decide)⟩

/-- C6: for `N = 2 ^ m`, every level `L` with `1 ≤ L < m` and every `N × N`
buffer, the forward transform returns at levels `L` and `L + 1`, and every
cell whose row index or column index is at least `N / 2 ^ L` holds the same
value after level `L + 1` as after level `L`. -/
theorem waveletTransform2D_deeper_level_frame (N m L fuel : Nat) (buf : Buf)
    (hN : N = 2 ^ m) (_hL1 : 1 ≤ L) (hLm : L < m) (hfuel : N - 2 ≤ fuel) :
    ∃ outL outL1, waveletTransform2D fuel buf N N L = some outL ∧
      waveletTransform2D fuel buf N N (L + 1) = some outL1 ∧
      ∀ r c, c < N → (N / 2 ^ L ≤ r ∨ N / 2 ^ L ≤ c) →
        outL1 (r * N + c) = outL (r * N + c) := by
  subst hN
  refine ⟨_, _, waveletTransform2D_eq fuel m L (by omega) hfuel buf,
    waveletTransform2D_eq fuel m (L + 1) (by omega) hfuel buf, ?_⟩
  intro r c hc hrc
  rw [fwdSpec_snoc]
  apply fwdLevel_outside
  rw [row_div _ r c hc, row_mod _ r c hc]
  omega

/-- C6, witness: an 8 × 8 buffer, levels 1 and 2. -/
theorem waveletTransform2D_deeper_level_frame_witness :
    (8 = 2 ^ 3 ∧ 1 ≤ 1 ∧ 1 < 3 ∧ 8 - 2 ≤ 6) ∧
    ∃ outL outL1, waveletTransform2D 6 (fun n => n % 7) 8 8 1 = some outL ∧
      waveletTransform2D 6 (fun n => n % 7) 8 8 (1 + 1) = some outL1 ∧
      ∀ r c, c < 8 → (8 / 2 ^ 1 ≤ r ∨ 8 / 2 ^ 1 ≤ c) →
        outL1 (r * 8 + c) = outL (r * 8 + c) :=
  ⟨⟨by decide, by decide, by decide, by decide⟩,
    waveletTransform2D_deeper_level_frame 8 3 1 6 (fun n => n % 7) (by decide) (by decide)
      (by decide) (by decide)⟩

theorem validateLength_loop_pow (fuel : Nat) : ∀ (j pI : Nat), 1 ≤ j → j ≤ fuel →
    validateLength_loop fuel pI (2 ^ j) = some { ret := 1, pI := pI + j, out := [] } := by
  induction fuel with
  | zero => intro j pI h1 h2; omega
  | succ n ih =>
    intro j pI h1 h2
    obtain ⟨q, rfl⟩ : ∃ q, j = q + 1 := ⟨j - 1, by omega⟩
    have hodd : ¬ (2 ^ (q + 1) % 2 = 1) := by rw [pow_succ]; omega
    unfold validateLength_loop
    rw [if_neg hodd, two_pow_half]
    rcases Nat.eq_zero_or_pos q with rfl | hq
    · simp
    · have hne : 2 ^ q ≠ 1 := by
        have : 2 ^ 1 ≤ 2 ^ q := Nat.pow_le_pow_right (by omega) hq
        omega
      rw [if_pos hne, ih q (pI + 1) hq (by omega)]
      congr 2; omega

/-- From length 4 on the validator accepts every power of two `2 ^ k` and
writes the level `k`. -/
theorem validateLength_pow_two_of_two_le (fuel pI k : Nat) (hk : 2 ≤ k) (hfuel : k ≤ fuel) :
    validateLength fuel pI (2 ^ k) = some { ret := 1, pI := k, out := [] } := by
  obtain ⟨q, rfl⟩ : ∃ q, k = q + 1 := ⟨k - 1, by omega⟩
  have h4 : 2 ^ 2 ≤ 2 ^ (q + 1) := Nat.pow_le_pow_right (by omega) hk
  rw [validateLength_even fuel pI _ (by omega) (two_pow_even _ (by omega)), two_pow_half,
    validateLength_loop_pow fuel q 1 (by omega) (by omega)]
  congr 2; omega

/-- C7, failing input: on length 2 the validator halves to 1, takes the
"not a power of 2" branch and returns 0 with `*pI = 1`, whatever budget the
loop is given. -/
theorem validateLength_two_rejected (fuel pI : Nat) :
    validateLength (fuel + 1) pI 2 =
      some { ret := 0, pI := 1, out := ["Length of array is not a power of 2"] } := by
  rw [validateLength_even (fuel + 1) pI 2 (le_refl _) rfl]
  rfl

/-- C8: whenever `validateLength` returns 1, the level `m` it wrote satisfies
`length = 2 ^ m`. -/
theorem validateLength_sound (fuel pI length : Nat) (r : Validated)
    (h : validateLength fuel pI length = some r) (hr : r.ret = 1) :
    length = 2 ^ r.pI :=
  (validateLength_success fuel pI length r h hr).2

/-- C8, witness: length 8 is accepted with level 3. -/
theorem validateLength_sound_witness :
    (validateLength 2 0 8 = some { ret := 1, pI := 3, out := [] } ∧
      ({ ret := 1, pI := 3, out := [] } : Validated).ret = 1) ∧
    8 = 2 ^ ({ ret := 1, pI := 3, out := [] } : Validated).pI :=
  ⟨⟨by decide, rfl⟩,
    validateLength_sound 2 0 8 { ret := 1, pI := 3, out := [] } (by decide) rfl⟩

/-- C9: for every even length `≥ 2` that is not a power of two,
`validateLength` returns 0 through the "not a power of 2" branch (with a loop
budget of at least `length` iterations), and whatever the budget it never
returns 1. -/
theorem validateLength_rejects_even_non_power (fuel pI length : Nat) (h2 : 2 ≤ length)
    (he : length % 2 = 0) (hn : ¬ ∃ k, length = 2 ^ k) :
    (length ≤ fuel → ∃ m, validateLength fuel pI length =
      some { ret := 0, pI := m, out := ["Length of array is not a power of 2"] }) ∧
    (∀ r, validateLength fuel pI length = some r → r.ret ≠ 1) := by
  have hsound : ∀ r, validateLength fuel pI length = some r → r.ret ≠ 1 := fun r hr h1 =>
    hn ⟨r.pI, (validateLength_success fuel pI length r hr h1).2⟩
  refine ⟨?_, hsound⟩
  intro hfuel
  rw [validateLength_even fuel pI length h2 he]
  obtain ⟨r, hr⟩ := validateLength_loop_total fuel 1 (length / 2) (by omega) (by omega)
  rcases validateLength_loop_some fuel 1 (length / 2) r hr with ⟨h1, -, -⟩ | ⟨h0, ho, -⟩
  · exfalso
    apply hsound r _ h1
    rw [validateLength_even fuel pI length h2 he]
    exact hr
  · refine ⟨r.pI, ?_⟩
    rw [hr]
    obtain ⟨ret, p, out⟩ := r
    simp only at h0 ho
    subst h0 ho
    rfl

/-- C9, witness: length 12. -/
theorem validateLength_rejects_even_non_power_witness :
    (2 ≤ 12 ∧ 12 % 2 = 0 ∧ ¬ ∃ k, 12 = 2 ^ k) ∧
    ((12 ≤ 12 → ∃ m, validateLength 12 0 12 =
      some { ret := 0, pI := m, out := ["Length of array is not a power of 2"] }) ∧
    (∀ r, validateLength 12 0 12 = some r → r.ret ≠ 1)) := by
  have hn : ¬ ∃ k, 12 = 2 ^ k := by
    rintro ⟨k, hk⟩
    rcases Nat.lt_or_ge k 4 with h | h
    · interval_cases k <;> omega
    · have : 2 ^ 4 ≤ 2 ^ k := Nat.pow_le_pow_right (by omega) h
      omega
  exact ⟨⟨by decide, by decide, hn⟩,
    validateLength_rejects_even_non_power 12 0 12 (by decide) (by decide) hn⟩

/-- C10: `validateLength` returns 0 with the message "cannot be 0 or 1"
exactly for the lengths 0 and 1, returns 0 with the message "cannot be odd"
for every odd length `≥ 3`, and in both cases leaves `*pI` as it was. -/
theorem validateLength_short_and_odd (fuel pI length : Nat) :
    ((∃ p, validateLength fuel pI length =
        some { ret := 0, pI := p, out := ["Length of array cannot be 0 or 1"] }) ↔
      (length = 0 ∨ length = 1)) ∧
    ((length = 0 ∨ length = 1) → validateLength fuel pI length =
      some { ret := 0, pI := pI, out := ["Length of array cannot be 0 or 1"] }) ∧
    (3 ≤ length → length % 2 = 1 → validateLength fuel pI length =
      some { ret := 0, pI := pI, out := ["Length of array cannot be odd"] }) := by
  refine ⟨⟨?_, fun h => ⟨pI, validateLength_short fuel pI length h⟩⟩,
    validateLength_short fuel pI length, validateLength_odd fuel pI length⟩
  rintro ⟨p, hp⟩
  by_contra hshort
  by_cases ho : length % 2 = 1
  · rw [validateLength_odd fuel pI length (by omega) ho] at hp
    simp at hp
  · rw [validateLength_even fuel pI length (by omega) (by omega)] at hp
    rcases validateLength_loop_some _ _ _ _ hp with ⟨h1, -, -⟩ | ⟨-, h2, -⟩
    · simp at h1
    · simp at h2

/-- C10, witness: lengths 1 and 7. -/
theorem validateLength_short_and_odd_witness :
    ((1 = 0 ∨ 1 = 1) ∧ validateLength 0 5 1 =
      some { ret := 0, pI := 5, out := ["Length of array cannot be 0 or 1"] }) ∧
    ((3 ≤ 7 ∧ 7 % 2 = 1) ∧ validateLength 0 5 7 =
      some { ret := 0, pI := 5, out := ["Length of array cannot be odd"] }) :=
  ⟨⟨Or.inr rfl, (validateLength_short_and_odd 0 5 1).2.1 (Or.inr rfl)⟩,
    ⟨⟨by decide, by decide⟩, (validateLength_short_and_odd 0 5 7).2.2 (by decide) (by decide)⟩⟩

/-! ## Constant buffers -/

theorem fluct_self (a : Nat) : fluct a a = 0 := by
  unfold fluct
  rw [sub_self]
  decide

theorem trend_zero : trend 0 0 = 0 := by decide

theorem fwdLineVal_const (L : Nat) (v x : Nat) :
    fwdLineVal L (fun _ => v) x = if x < L / 2 then trend v v else 0 := by
  unfold fwdLineVal
  by_cases h : x < L / 2
  · rw [if_pos h, if_pos h]
  · rw [if_neg h, if_neg h, fluct_self]

/-- One forward level on a square of constant value `d` leaves the value
`trend (trend d d) (trend d d)` in the top-left quarter and zeros elsewhere. -/
theorem constRegion_fwdLevel (N K d : Nat) (buf : Buf) (hKN : K ≤ N) (hK : K % 2 = 0)
    (h : ConstRegion N K d buf) :
    ConstRegion N (K / 2) (trend (trend d d) (trend d d)) (fwdLevel N K buf) := by
  intro r col hr hcol
  by_cases hin : r < K ∧ col < K
  · rw [fwdLevel_apply N K hKN hK buf r col hin.1 hin.2]
    have hinner : ∀ y, y < K →
        (fun y => fwdLineVal K (fun z => buf (y * N + z)) col) y =
          (fun _ => if col < K / 2 then trend d d else 0) y := by
      intro y hy
      show fwdLineVal K (fun z => buf (y * N + z)) col = _
      rw [fwdLineVal_congr K hK (fun z => buf (y * N + z)) (fun _ => d)
        (fun z hz => by
          show buf (y * N + z) = d
          rw [h y z (by omega) (by omega), if_pos ⟨hy, hz⟩]) col hin.2]
      exact fwdLineVal_const K d col
    rw [fwdLineVal_congr K hK _ _ hinner r hin.1, fwdLineVal_const]
    by_cases hr2 : r < K / 2
    · by_cases hc2 : col < K / 2
      · rw [if_pos hr2, if_pos hc2, if_pos ⟨hr2, hc2⟩]
      · rw [if_pos hr2, if_neg hc2, if_neg (fun hh => hc2 hh.2), trend_zero]
    · rw [if_neg hr2, if_neg (fun hh => hr2 hh.1)]
  · have hout : ¬ ((r * N + col) / N < K ∧ (r * N + col) % N < K) := by
      rw [row_div N r col hcol, row_mod N r col hcol]; exact hin
    rw [fwdLevel_outside N K buf _ hout, h r col hr hcol, if_neg hin,
      if_neg (fun hh => hin ⟨by omega, by omega⟩)]

theorem constTrend_succ (level c : Nat) :
    constTrend (level + 1) c = constTrend level (trend (trend c c) (trend c c)) :=
  Function.iterate_succ_apply constStep level c

/-- The forward levels on a dyadic square of constant value. -/
theorem constRegion_fwdSpec (N : Nat) : ∀ (level k d : Nat) (buf : Buf), level ≤ k →
    2 ^ k ≤ N → ConstRegion N (2 ^ k) d buf →
    ConstRegion N (2 ^ (k - level)) (constTrend level d) (fwdSpec N level (2 ^ k) buf) := by
  intro level
  induction level with
  | zero => intro k d buf _ _ h; exact h
  | succ level ih =>
    intro k d buf hk hkN h
    obtain ⟨q, rfl⟩ : ∃ q, k = q + 1 := ⟨k - 1, by omega⟩
    have hq : 2 ^ q ≤ 2 ^ (q + 1) := Nat.pow_le_pow_right (by omega) (by omega)
    have hstep := constRegion_fwdLevel N (2 ^ (q + 1)) d buf hkN (two_pow_even _ (by omega)) h
    rw [two_pow_half] at hstep
    have := ih q _ _ (by omega) (by omega) hstep
    rw [show q + 1 - (level + 1) = q - level by omega]
    rw [constTrend_succ]
    show ConstRegion N (2 ^ (q - level)) (constTrend level (trend (trend d d) (trend d d)))
      (fwdSpec N level (2 ^ (q + 1) / 2) (fwdLevel N (2 ^ (q + 1)) buf))
    rw [two_pow_half]
    exact this

theorem constRegion_of_const (N c : Nat) (buf : Buf)
    (h : ∀ r col, r < N → col < N → buf (r * N + col) = c) : ConstRegion N N c buf := by
  intro r col hr hcol
  rw [h r col hr hcol, if_pos ⟨hr, hcol⟩]

theorem two_pow_div_pow (m level : Nat) (hlev : level ≤ m) :
    2 ^ m / 2 ^ level = 2 ^ (m - level) :=
  Nat.pow_div hlev (by omega)

/-- C11: for `N = 2 ^ m`, every level with `1 ≤ level ≤ m` and every `c`, the
forward transform of an `N × N` buffer whose cells all equal `c` returns, and
every cell whose row index or column index is at least `N / 2 ^ level` is 0. -/
theorem waveletTransform2D_const_detail_zero (N m level fuel c : Nat) (buf : Buf)
    (hN : N = 2 ^ m) (_h1 : 1 ≤ level) (hlev : level ≤ m) (hfuel : N - 2 ≤ fuel)
    (hbuf : ∀ r col, r < N → col < N → buf (r * N + col) = c) :
    ∃ out, waveletTransform2D fuel buf N N level = some out ∧
      ∀ r col, r < N → col < N → (N / 2 ^ level ≤ r ∨ N / 2 ^ level ≤ col) →
        out (r * N + col) = 0 := by
  subst hN
  refine ⟨_, waveletTransform2D_eq fuel m level hlev hfuel buf, ?_⟩
  intro r col hr hcol hrc
  rw [two_pow_div_pow m level hlev] at hrc
  rw [constRegion_fwdSpec (2 ^ m) level m c buf hlev (le_refl _)
    (constRegion_of_const _ c buf hbuf) r col hr hcol, if_neg (by omega)]

/-- C11, witness: the 4 × 4 buffer of constant value 200 at level 2. -/
theorem waveletTransform2D_const_detail_zero_witness :
    (4 = 2 ^ 2 ∧ 1 ≤ 2 ∧ 2 ≤ 2 ∧ 4 - 2 ≤ 2 ∧
      ∀ r col, r < 4 → col < 4 → (fun _ => 200 : Buf) (r * 4 + col) = 200) ∧
    ∃ out, waveletTransform2D 2 (fun _ => 200) 4 4 2 = some out ∧
      ∀ r col, r < 4 → col < 4 → (4 / 2 ^ 2 ≤ r ∨ 4 / 2 ^ 2 ≤ col) →
        out (r * 4 + col) = 0 :=
  ⟨⟨by decide, by decide, by decide, by decide, fun _ _ _ _ => rfl⟩,
    waveletTransform2D_const_detail_zero 4 2 2 2 200 (fun _ => 200) (by decide) (by decide)
      (by decide) (by decide) (fun _ _ _ _ => rfl)⟩

/-- C12, counterexample: the forward transform of the 2 × 2 buffer of constant
value 2 at level 1 returns with 4 in cell 0, the one cell of the trend
subband. -/
theorem waveletTransform2D_const_trend_not_kept :
    ∃ out, waveletTransform2D 0 (fun _ => 2) (2 ^ 1) (2 ^ 1) 1 = some out ∧
      out (0 * 2 + 0) = 4 ∧ out (0 * 2 + 0) ≠ 2 :=
  ⟨_, waveletTransform2D_eq 0 1 1 (le_refl _) (by decide) _, by decide, by decide⟩

/-- C12 (amended): for `N = 2 ^ m`, every level with `1 ≤ level ≤ m` and every
`c`, the forward transform of an `N × N` buffer whose cells all equal `c`
returns, and every cell of the top-left `(N / 2 ^ level) × (N / 2 ^ level)`
trend subband holds the same value `constTrend level c`, obtained from `c` by
applying `level` times the map `d ↦ trend (trend d d) (trend d d)`. -/
theorem waveletTransform2D_const_trend (N m level fuel c : Nat) (buf : Buf)
    (hN : N = 2 ^ m) (_h1 : 1 ≤ level) (hlev : level ≤ m) (hfuel : N - 2 ≤ fuel)
    (hbuf : ∀ r col, r < N → col < N → buf (r * N + col) = c) :
    ∃ out, waveletTransform2D fuel buf N N level = some out ∧
      ∀ r col, r < N / 2 ^ level → col < N / 2 ^ level →
        out (r * N + col) = constTrend level c := by
  subst hN
  refine ⟨_, waveletTransform2D_eq fuel m level hlev hfuel buf, ?_⟩
  intro r col hr hcol
  rw [two_pow_div_pow m level hlev] at hr hcol
  have hle : 2 ^ (m - level) ≤ 2 ^ m := Nat.pow_le_pow_right (by omega) (by omega)
  rw [constRegion_fwdSpec (2 ^ m) level m c buf hlev (le_refl _)
    (constRegion_of_const _ c buf hbuf) r col (by omega) (by omega), if_pos ⟨hr, hcol⟩]

/-- C12 (amended), witness: the 4 × 4 buffer of constant value 3 at level 1. -/
theorem waveletTransform2D_const_trend_witness :
    (4 = 2 ^ 2 ∧ 1 ≤ 1 ∧ 1 ≤ 2 ∧ 4 - 2 ≤ 2 ∧
      ∀ r col, r < 4 → col < 4 → (fun _ => 3 : Buf) (r * 4 + col) = 3) ∧
    ∃ out, waveletTransform2D 2 (fun _ => 3) 4 4 1 = some out ∧
      ∀ r col, r < 4 / 2 ^ 1 → col < 4 / 2 ^ 1 →
        out (r * 4 + col) = constTrend 1 3 :=
  ⟨⟨by decide, by decide, by decide, by decide, fun _ _ _ _ => rfl⟩,
    waveletTransform2D_const_trend 4 2 1 2 3 (fun _ => 3) (by decide) (by decide)
      (by decide) (by decide) (fun _ _ _ _ => rfl)⟩

theorem liftUndone_zero : liftUndone 0 0 := by decide

set_option maxRecDepth 1000000 in
/-- Below 128 a value lifted with itself, and its trend lifted with itself, are
undone by a second lifting step, and one level at most doubles the value and
adds one. -/
theorem const_lift_facts :
    ∀ d : Nat, d < 128 →
      liftUndone d d ∧ liftUndone (trend d d) (trend d d) ∧ constStep d ≤ 2 * d + 1 := by
  decide

theorem constStep_zero : constStep 0 = 0 := by decide

theorem fwdRows_const (N K d : Nat) (buf : Buf) (hKN : K ≤ N) (hK : K % 2 = 0)
    (h : ConstRegion N K d buf) (r c : Nat) (hr : r < K) (hc : c < K) :
    fwdRows N K buf (c + r * N) = if c < K / 2 then trend d d else 0 := by
  rw [Nat.add_comm, fwdRows_apply N K buf r c hr hc hKN,
    fwdLineVal_congr K hK (fun y => buf (r * N + y)) (fun _ => d)
      (fun z hz => by
        show buf (r * N + z) = d
        rw [h r z (by omega) (by omega), if_pos ⟨hr, hz⟩]) c hc]
  exact fwdLineVal_const K d c

/-- On a square of constant value `d` every lifting step of one forward level
is undone as soon as the pairs `(d, d)` and `(trend d d, trend d d)` are. -/
theorem levelUndone_of_constRegion (N K d : Nat) (buf : Buf) (hKN : K ≤ N) (hK : K % 2 = 0)
    (h : ConstRegion N K d buf) (h1 : liftUndone d d)
    (h2 : liftUndone (trend d d) (trend d d)) : LevelUndone N K buf := by
  constructor
  · intro r hr c hc
    rw [h r (2 * c) (by omega) (by omega), h r (2 * c + 1) (by omega) (by omega),
      if_pos ⟨hr, by omega⟩, if_pos ⟨hr, by omega⟩]
    exact h1
  · intro c hc r hr
    rw [fwdRows_const N K d buf hKN hK h (2 * r) c (by omega) hc,
      fwdRows_const N K d buf hKN hK h (2 * r + 1) c (by omega) hc]
    by_cases hc2 : c < K / 2
    · rw [if_pos hc2]; exact h2
    · rw [if_neg hc2]; exact liftUndone_zero

/-- On a dyadic square of constant value `d` every lifting step of `level`
forward levels is undone when `d = 0` or `(d + 1) * 2 ^ level ≤ 256`. -/
theorem allUndone_of_constRegion (N : Nat) : ∀ (level k d : Nat) (buf : Buf), level ≤ k →
    2 ^ k ≤ N → ConstRegion N (2 ^ k) d buf → (d = 0 ∨ (d + 1) * 2 ^ level ≤ 256) →
    AllUndone N level (2 ^ k) buf := by
  intro level
  induction level with
  | zero => intro k d buf _ _ _ _; trivial
  | succ level ih =>
    intro k d buf hk hkN h hd
    obtain ⟨q, rfl⟩ : ∃ q, k = q + 1 := ⟨k - 1, by omega⟩
    have hq : 2 ^ q ≤ 2 ^ (q + 1) := Nat.pow_le_pow_right (by omega) (by omega)
    have hev : 2 ^ (q + 1) % 2 = 0 := two_pow_even _ (by omega)
    have hstep := constRegion_fwdLevel N (2 ^ (q + 1)) d buf hkN hev h
    rw [two_pow_half] at hstep
    have hpos : 0 < 2 ^ level := Nat.pos_pow_of_pos level (by omega)
    have hd128 : d < 128 := by
      rcases hd with rfl | hd
      · omega
      · rw [pow_succ] at hd
        nlinarith
    obtain ⟨f1, f2, f3⟩ := const_lift_facts d hd128
    have hnext : constStep d = 0 ∨ (constStep d + 1) * 2 ^ level ≤ 256 := by
      rcases hd with rfl | hd
      · left; exact constStep_zero
      · right
        rw [pow_succ] at hd
        calc (constStep d + 1) * 2 ^ level ≤ (2 * d + 1 + 1) * 2 ^ level :=
              Nat.mul_le_mul_right _ (by omega)
          _ = (d + 1) * (2 ^ level * 2) := by ring
          _ ≤ 256 := hd
    show LevelUndone N (2 ^ (q + 1)) buf ∧
      AllUndone N level (2 ^ (q + 1) / 2) (fwdLevel N (2 ^ (q + 1)) buf)
    rw [two_pow_half]
    exact ⟨levelUndone_of_constRegion N _ d buf hkN hev h f1 f2,
      ih q (constStep d) _ (by omega) (by omega) hstep hnext⟩

theorem const_bound_init (c level : Nat) (h : c * 2 ^ level < 256) :
    c = 0 ∨ (c + 1) * 2 ^ level ≤ 256 := by
  rcases Nat.eq_zero_or_pos c with h0 | hpos
  · exact Or.inl h0
  · right
    have hlev : level < 8 := by
      by_contra hcon
      have : 2 ^ 8 ≤ 2 ^ level := Nat.pow_le_pow_right (by omega) (by omega)
      have : 2 ^ level ≤ c * 2 ^ level := Nat.le_mul_of_pos_left _ hpos
      omega
    interval_cases level <;> omega

/-- C13, counterexample: on the 2 × 2 buffer of constant value 128 at level 1
both transforms return, and the inverse after the forward transform leaves 0
in cell 0. -/
theorem const_roundTrip_not_exact :
    ∃ mid out, waveletTransform2D 0 (fun _ => 128) (2 ^ 1) (2 ^ 1) 1 = some mid ∧
      invWaveletTransform2D 0 mid (2 ^ 1) (2 ^ 1) 1 = some out ∧
      out 0 = 0 ∧ out 0 ≠ (fun _ => 128 : Buf) 0 :=
  ⟨_, _, waveletTransform2D_eq 0 1 1 (le_refl _) (by decide) _,
    invWaveletTransform2D_eq 0 1 1 (le_refl _) (by decide) _, by decide, by decide⟩

/-- C13 (amended): for `N = 2 ^ m`, every level with `1 ≤ level ≤ m` and every
byte `c` with `c * 2 ^ level < 256`, `waveletTransform2D` followed by
`invWaveletTransform2D` at the same level on an `N × N` buffer whose cells all
equal `c` returns that buffer. -/
theorem const_roundTrip (N m level fuel c : Nat) (buf : Buf) (hN : N = 2 ^ m)
    (_h1 : 1 ≤ level) (hlev : level ≤ m) (hfuel : N - 2 ≤ fuel)
    (hc : c * 2 ^ level < 256)
    (hbuf : ∀ r col, r < N → col < N → buf (r * N + col) = c) :
    ∃ mid, waveletTransform2D fuel buf N N level = some mid ∧
      invWaveletTransform2D fuel mid N N level = some buf := by
  subst hN
  have hU : AllUndone (2 ^ m) level (2 ^ m) buf :=
    allUndone_of_constRegion (2 ^ m) level m c buf hlev (le_refl _)
      (constRegion_of_const _ c buf hbuf) (const_bound_init c level hc)
  refine ⟨_, waveletTransform2D_eq fuel m level hlev hfuel buf, ?_⟩
  rw [invWaveletTransform2D_eq fuel m level hlev hfuel,
    invSpec_fwdSpec (2 ^ m) level m buf hlev (le_refl _) hU]

/-- C13 (amended), witness: the 4 × 4 buffer of constant value 63 at level 2. -/
theorem const_roundTrip_witness :
    (4 = 2 ^ 2 ∧ 1 ≤ 2 ∧ 2 ≤ 2 ∧ 4 - 2 ≤ 2 ∧ 63 * 2 ^ 2 < 256 ∧
      ∀ r col, r < 4 → col < 4 → (fun _ => 63 : Buf) (r * 4 + col) = 63) ∧
    ∃ mid, waveletTransform2D 2 (fun _ => 63) 4 4 2 = some mid ∧
      invWaveletTransform2D 2 mid 4 4 2 = some (fun _ => 63) :=
  ⟨⟨by decide, by decide, by decide, by decide, by decide, fun _ _ _ _ => rfl⟩,
    const_roundTrip 4 2 2 2 63 (fun _ => 63) (by decide) (by decide) (by decide) (by decide)
      (by decide) (fun _ _ _ _ => rfl)⟩

/-! ## The lifting step on single pairs -/

theorem liftStep_apply_fst (arr : Buf) (n v : Nat) (hv : 0 < v) :
    liftStep arr n v n = trend (arr n) (arr (n + v)) := by
  unfold liftStep
  simp only [Function.update_apply]
  rw [if_neg (by omega)]
  exact if_pos trivial

theorem liftStep_apply_snd (arr : Buf) (n v : Nat) :
    liftStep arr n v (n + v) = fluct (arr n) (arr (n + v)) := by
  unfold liftStep
  simp only [Function.update_apply]
  exact if_pos trivial

/-- C14: the lifting step on a pair of cells holding `(10, 4)` stores trend 10
and fluctuation 4, and a second lifting step on the same cells stores
`(10, 4)` again. -/
theorem liftStep_example (arr : Buf) (n v : Nat) (hv : 0 < v) (ha : arr n = 10)
    (hb : arr (n + v) = 4) :
    (trend 10 4 = 10 ∧ fluct 10 4 = 4) ∧
    (liftStep arr n v n = 10 ∧ liftStep arr n v (n + v) = 4) ∧
    (liftStep (liftStep arr n v) n v n = 10 ∧
      liftStep (liftStep arr n v) n v (n + v) = 4) := by
  have t : trend 10 4 = 10 := by decide
  have f : fluct 10 4 = 4 := by decide
  have h1 : liftStep arr n v n = 10 := by rw [liftStep_apply_fst arr n v hv, ha, hb, t]
  have h2 : liftStep arr n v (n + v) = 4 := by rw [liftStep_apply_snd, ha, hb, f]
  refine ⟨⟨t, f⟩, ⟨h1, h2⟩, ?_, ?_⟩
  · rw [liftStep_apply_fst _ n v hv, h1, h2, t]
  · rw [liftStep_apply_snd, h1, h2, f]

/-- C14, witness: cells 0 and 1 of the buffer `10, 4, 4, ...`. -/
theorem liftStep_example_witness :
    (0 < 1 ∧ (fun k => if k = 0 then 10 else 4 : Buf) 0 = 10 ∧
      (fun k => if k = 0 then 10 else 4 : Buf) (0 + 1) = 4) ∧
    ((trend 10 4 = 10 ∧ fluct 10 4 = 4) ∧
    (liftStep (fun k => if k = 0 then 10 else 4) 0 1 0 = 10 ∧
      liftStep (fun k => if k = 0 then 10 else 4) 0 1 (0 + 1) = 4) ∧
    (liftStep (liftStep (fun k => if k = 0 then 10 else 4) 0 1) 0 1 0 = 10 ∧
      liftStep (liftStep (fun k => if k = 0 then 10 else 4) 0 1) 0 1 (0 + 1) = 4)) :=
  ⟨⟨by decide, rfl, rfl⟩,
    liftStep_example (fun k => if k = 0 then 10 else 4) 0 1 (by decide) rfl rfl⟩

theorem roundDiv_of_nonneg (x : Int) (hx : 0 ≤ x) :
    roundDiv x = ⌊(x : ℚ) / SQRT_2q + 1 / 2⌋ := by
  have e : (x : ℚ) / SQRT_2q + 1 / 2 =
      ((2 * x * 8388608 + 11863287 : ℤ) : ℚ) / ((23726574 : ℕ) : ℚ) := by
    unfold SQRT_2q
    push_cast
    field_simp
    ring
  rw [e, Rat.floor_intCast_div_natCast]
  unfold roundDiv SQRT_2_num SQRT_2_den
  rw [Int.tdiv_eq_ediv (by omega) (by omega)]
  norm_num

/-- C15: for all `a, b` the trend that the lifting step stores in the first
cell of a pair is `⌊(a + b) / SQRT_2 + 1/2⌋` reduced modulo 256; for
`a = b = 255` the rounded value is 361 and the stored trend is
`361 mod 256 = 105`, not 255. -/
theorem trend_stored_modulo (a b : Nat) :
    ((trend a b : ℤ) = ⌊((a : ℚ) + (b : ℚ)) / SQRT_2q + 1 / 2⌋ % 256) ∧
    (∀ (arr : Buf) (n v : Nat),
      liftStep arr n (v + 1) n = trend (arr n) (arr (n + (v + 1)))) ∧
    ⌊((255 : ℚ) + (255 : ℚ)) / SQRT_2q + 1 / 2⌋ = 361 ∧ (361 : ℤ) % 256 = 105 ∧
    trend 255 255 = 105 ∧ trend 255 255 ≠ 255 := by
  refine ⟨?_, fun arr n v => liftStep_apply_fst arr n (v + 1) (by omega), ?_, by decide,
    by decide, by decide⟩
  · have h := roundDiv_of_nonneg ((a : ℤ) + (b : ℤ)) (by omega)
    push_cast at h
    rw [← h]
    unfold trend toUChar
    rw [Int.toNat_of_nonneg (Int.emod_nonneg _ (by omega))]
  · have h := roundDiv_of_nonneg 510 (by omega)
    have e : roundDiv 510 = 361 := by decide
    rw [e] at h
    rw [h]
    norm_num

theorem SQRT_2q_sq_ne_two : SQRT_2q ^ 2 ≠ 2 := by
  unfold SQRT_2q
  norm_num

theorem liftExact_liftExact (a b : ℚ) :
    liftExact (liftExact (a, b)) = (2 * a / SQRT_2q ^ 2, 2 * b / SQRT_2q ^ 2) := by
  have hS : SQRT_2q ≠ 0 := by unfold SQRT_2q; norm_num
  unfold liftExact
  simp only [Prod.mk.injEq]
  constructor <;> field_simp <;> ring

/-- C16, counterexample: without rounding, two lifting steps with the
program's constant take `(1, 0)` to a pair other than `(1, 0)`. -/
theorem liftExact_not_involution : liftExact (liftExact (1, 0)) ≠ (1, 0) := by
  rw [liftExact_liftExact]
  intro h
  have h1 := (Prod.mk.injEq _ _ _ _ ▸ h : _ ∧ _).1
  have hS : SQRT_2q ^ 2 ≠ 0 := by unfold SQRT_2q; norm_num
  rw [div_eq_iff hS] at h1
  apply SQRT_2q_sq_ne_two
  linarith

/-- C16 (amended): without rounding and byte storage, two lifting steps with
the program's constant `SQRT_2` take `(a, b)` to
`(2 a / SQRT_2 ^ 2, 2 b / SQRT_2 ^ 2)`; since `SQRT_2 ^ 2 ≠ 2` this is `(a, b)`
only for `(a, b) = (0, 0)`. -/
theorem liftExact_twice (a b : ℚ) :
    liftExact (liftExact (a, b)) = (2 * a / SQRT_2q ^ 2, 2 * b / SQRT_2q ^ 2) ∧
    SQRT_2q ^ 2 ≠ 2 ∧
    (liftExact (liftExact (a, b)) = (a, b) ↔ a = 0 ∧ b = 0) := by
  refine ⟨liftExact_liftExact a b, SQRT_2q_sq_ne_two, ?_⟩
  have hS : SQRT_2q ^ 2 ≠ 0 := by unfold SQRT_2q; norm_num
  have hk : SQRT_2q ^ 2 - 2 ≠ 0 := sub_ne_zero.mpr SQRT_2q_sq_ne_two
  rw [liftExact_liftExact, Prod.mk.injEq, div_eq_iff hS, div_eq_iff hS]
  constructor
  · rintro ⟨h1, h2⟩
    have e1 : a * (SQRT_2q ^ 2 - 2) = 0 := by linarith
    have e2 : b * (SQRT_2q ^ 2 - 2) = 0 := by linarith
    exact ⟨(mul_eq_zero.mp e1).resolve_right hk, (mul_eq_zero.mp e2).resolve_right hk⟩
  · rintro ⟨rfl, rfl⟩
    simp

/-- C16 (amended), witness: the pair `(1, 0)`. -/
theorem liftExact_twice_witness :
    liftExact (liftExact (1, 0)) = (2 * 1 / SQRT_2q ^ 2, 2 * 0 / SQRT_2q ^ 2) ∧
    SQRT_2q ^ 2 ≠ 2 ∧
    (liftExact (liftExact (1, 0)) = (1, 0) ↔ (1 : ℚ) = 0 ∧ (0 : ℚ) = 0) :=
  liftExact_twice 1 0

/-! ## Termination and frame of the cycle walks, for every even length -/

/-- Rest of a walk that is away from its seed: it ends as soon as the index
map reaches the seed again, and writes only at addresses of offsets in a set
`P` that contains the seed and is closed under the index map. -/
theorem doWhile_gBody_total (addr : Nat → Nat) (inA : Nat → Prop) [DecidablePred inA]
    (nextA nextB : Nat → Nat) (mark : Nat → Prop) [DecidablePred mark] (idx : Nat → Nat)
    (P : Nat → Prop) (hP : ∀ x, P x → P (gNext inA nextA nextB x)) (j : Nat) (hj : P j) :
    ∀ (q fuel : Nat) (s : Walk), 1 ≤ q → q ≤ fuel → s.indexTemp02 ≠ j → P s.indexTemp02 →
      (gNext inA nextA nextB)^[q] s.indexTemp02 = j →
      ∃ s', doWhile (gBody addr inA nextA nextB mark idx j)
          (fun s => decide (s.indexTemp02 ≠ j)) fuel s = some s' ∧
        ∀ a, (∀ x, P x → a ≠ addr x) → s'.arr a = s.arr a := by
  intro q
  induction q with
  | zero => intro fuel s h1; omega
  | succ q ih =>
    intro fuel s _ hfuel hs hPs hq
    obtain ⟨fuel', rfl⟩ : ∃ fuel', fuel = fuel' + 1 := ⟨fuel - 1, by omega⟩
    obtain ⟨harr, -, hmove, hlast⟩ := gBody_spec addr inA nextA nextB mark idx j s hs
    have hframe : ∀ a, (∀ x, P x → a ≠ addr x) →
        (gBody addr inA nextA nextB mark idx j s).1.arr a = s.arr a := by
      intro a ha
      rw [harr a, if_neg (ha _ (hP _ hPs)), if_neg (ha _ hj)]
    by_cases hnext : gNext inA nextA nextB s.indexTemp02 = j
    · refine ⟨(gBody addr inA nextA nextB mark idx j s).1, ?_, hframe⟩
      rw [doWhile_succ]
      rcases hlast hnext with hb | ht2
      · simp [hb]
      · by_cases hb : (gBody addr inA nextA nextB mark idx j s).2 = true
        · simp [hb]
        · simp [hb, ht2]
    · obtain ⟨hb, ht2⟩ := hmove hnext
      have hq1 : 1 ≤ q := by
        rcases Nat.eq_zero_or_pos q with h0 | h0
        · subst h0
          exact absurd hq hnext
        · exact h0
      rw [Function.iterate_succ_apply] at hq
      obtain ⟨s', hrun, hfr⟩ := ih fuel' (gBody addr inA nextA nextB mark idx j s).1 hq1
        (by omega) (by rw [ht2]; exact hnext) (by rw [ht2]; exact hP _ hPs)
        (by rw [ht2]; exact hq)
      refine ⟨s', ?_, fun a ha => by rw [hfr a ha, hframe a ha]⟩
      rw [doWhile_succ, if_neg (by rw [hb]; exact Bool.false_ne_true),
        if_pos (by rw [ht2]; exact decide_eq_true hnext)]
      exact hrun

/-- A whole walk from a seed in the second branch whose orbit returns within
the fuel. -/
theorem doWhile_gBody_seed_total (addr : Nat → Nat) (inA : Nat → Prop) [DecidablePred inA]
    (nextA nextB : Nat → Nat) (mark : Nat → Prop) [DecidablePred mark] (idx : Nat → Nat)
    (P : Nat → Prop) (hP : ∀ x, P x → P (gNext inA nextA nextB x)) (j : Nat) (hj : P j)
    (hA : ¬ inA j) (p fuel : Nat) (hp : 0 < p) (hfuel : p ≤ fuel)
    (hper : (gNext inA nextA nextB)^[p] j = j) (arr : Buf) (mask : Nat → Nat) (v0 : Nat) :
    ∃ s', doWhile (gBody addr inA nextA nextB mark idx j)
        (fun s => decide (s.indexTemp02 ≠ j)) fuel
        { arr := arr, indexMask := mask, valueTemp := v0, indexTemp02 := j } = some s' ∧
      ∀ a, (∀ x, P x → a ≠ addr x) → s'.arr a = arr a := by
  obtain ⟨fuel', rfl⟩ : ∃ fuel', fuel = fuel' + 1 := ⟨fuel - 1, by omega⟩
  have hfj : gNext inA nextA nextB j = nextB j := by simp [gNext, hA]
  have hPn : P (nextB j) := by rw [← hfj]; exact hP j hj
  by_cases hne : nextB j = j
  · refine ⟨Walk.mk (Function.update arr (addr (nextB j)) (arr (addr j))) mask
        (arr (addr (nextB j))) (nextB j), ?_, ?_⟩
    · rw [doWhile_succ]
      simp [gBody, hA, hne]
    · intro a ha
      show Function.update arr (addr (nextB j)) (arr (addr j)) a = arr a
      rw [Function.update_apply, if_neg (ha _ hPn)]
  · have hp2 : 2 ≤ p := by
      rcases Nat.lt_or_ge p 2 with h | h
      · have : p = 1 := by omega
        subst this
        rw [Function.iterate_one, hfj] at hper
        exact absurd hper hne
      · exact h
    obtain ⟨p', rfl⟩ : ∃ p', p = p' + 1 := ⟨p - 1, by omega⟩
    rw [Function.iterate_succ_apply, hfj] at hper
    obtain ⟨s', hrun, hfr⟩ := doWhile_gBody_total addr inA nextA nextB mark idx P hP j hj p'
      fuel' (Walk.mk (Function.update arr (addr (nextB j)) (arr (addr j))) mask
        (arr (addr (nextB j))) (nextB j)) (by omega) (by omega)
      hne hPn hper
    have hstep : doWhile (gBody addr inA nextA nextB mark idx j)
        (fun s => decide (s.indexTemp02 ≠ j)) (fuel' + 1)
        { arr := arr, indexMask := mask, valueTemp := v0, indexTemp02 := j } =
        doWhile (gBody addr inA nextA nextB mark idx j)
        (fun s => decide (s.indexTemp02 ≠ j)) fuel'
        { arr := Function.update arr (addr (nextB j)) (arr (addr j)), indexMask := mask,
          valueTemp := arr (addr (nextB j)), indexTemp02 := nextB j } := by
      rw [doWhile_succ]
      simp [gBody, hA, hne]
    refine ⟨s', by rw [hstep, hrun], ?_⟩
    · intro a ha
      rw [hfr a ha]
      show Function.update arr (addr (nextB j)) (arr (addr j)) a = arr a
      rw [Function.update_apply, if_neg (ha _ hPn)]

/-- The seed loop is total and writes only at addresses of offsets in `P`, when
every seed lies in `P` and in the second branch and returns within the fuel. -/
theorem gRearrange_total (addr : Nat → Nat) (inA : Nat → Prop) [DecidablePred inA]
    (nextA nextB : Nat → Nat) (mark : Nat → Prop) [DecidablePred mark] (idx : Nat → Nat)
    (guard : Prop) [Decidable guard] (fuel : Nat)
    (P : Nat → Prop) (hP : ∀ x, P x → P (gNext inA nextA nextB x)) :
    ∀ (seeds : List Nat),
      (∀ j, j ∈ seeds → P j ∧ ¬ inA j ∧
        ∃ p, 0 < p ∧ p ≤ fuel ∧ (gNext inA nextA nextB)^[p] j = j) →
      ∀ (st : Buf × (Nat → Nat)),
      ∃ out, gRearrange addr inA nextA nextB mark idx guard seeds fuel st = some out ∧
        ∀ a, (∀ x, P x → a ≠ addr x) → out.1 a = st.1 a := by
  intro seeds
  induction seeds with
  | nil => intro _ st; exact ⟨st, rfl, fun _ _ => rfl⟩
  | cons j rest ih =>
    intro hseeds st
    have hrest : ∀ k, k ∈ rest → P k ∧ ¬ inA k ∧
        ∃ p, 0 < p ∧ p ≤ fuel ∧ (gNext inA nextA nextB)^[p] k = k :=
      fun k hk => hseeds k (List.mem_cons_of_mem _ hk)
    rw [gRearrange_cons]
    by_cases hskip : guard ∧ st.2 (idx j) ≠ 0
    · rw [if_pos hskip]
      exact ih hrest st
    · rw [if_neg hskip]
      obtain ⟨hj, hA, p, hp, hpf, hper⟩ := hseeds j (List.mem_cons_self _ _)
      obtain ⟨s', hrun, hfr⟩ := doWhile_gBody_seed_total addr inA nextA nextB mark idx P hP j hj
        hA p fuel hp hpf hper st.1 st.2 0
      rw [hrun]
      obtain ⟨out, hout, hfo⟩ := ih hrest (s'.arr, s'.indexMask)
      refine ⟨out, hout, fun a ha => ?_⟩
      rw [hfo a ha]
      exact hfr a ha

/-- The packer seed loop on any even length: total with fuel `L - 2`, and it
writes only at addresses of offsets `1 .. L - 2`. -/
theorem gPack_total (addr : Nat → Nat) (L fuel : Nat) (hL : L % 2 = 0) (hfuel : L - 2 ≤ fuel)
    (st : Buf × (Nat → Nat)) :
    ∃ out, gRearrange addr (fun x => x % 2 = 0) (fun x => x / 2)
        (fun x => x + (L / 2 - 1) - (x - 1) / 2) (fun x => x ≤ L / 2 - 1 ∧ L / 4 > 0)
        (fun x => x / 2) (L / 4 > 0) (List.range' 1 ((L / 2 - 1 + 1) / 2) 2) fuel st = some out ∧
      ∀ a, (∀ x, 1 ≤ x → x ≤ L - 2 → a ≠ addr x) → out.1 a = st.1 a := by
  obtain ⟨out, h1, h2⟩ := gRearrange_total addr (fun x => x % 2 = 0) (fun x => x / 2)
    (fun x => x + (L / 2 - 1) - (x - 1) / 2) (fun x => x ≤ L / 2 - 1 ∧ L / 4 > 0)
    (fun x => x / 2) (L / 4 > 0) fuel (fun x => 1 ≤ x ∧ x ≤ L - 2)
    (by
      intro x hx
      simp only [gNext]
      split_ifs with h <;> omega)
    (List.range' 1 ((L / 2 - 1 + 1) / 2) 2)
    (by
      intro j hj
      rw [List.mem_range'] at hj
      obtain ⟨t, ht, rfl⟩ := hj
      have h4 : 4 ≤ L := by omega
      obtain ⟨p, hp, hpL, hper⟩ := packIdx_returns L (1 + 2 * t) hL h4 (by omega)
      exact ⟨⟨by omega, by omega⟩, by omega, p, hp, by omega, hper⟩) st
  exact ⟨out, h1, fun a ha => h2 a (fun x hx => ha x hx.1 hx.2)⟩

/-- The unpacker seed loop on any even length: total with fuel `L - 2`, and it
writes only at addresses of offsets `1 .. L - 2`. -/
theorem gUnpack_total (addr : Nat → Nat) (L fuel : Nat) (hL : L % 2 = 0) (hfuel : L - 2 ≤ fuel)
    (st : Buf × (Nat → Nat)) :
    ∃ out, gRearrange addr (fun x => x < L / 2) (fun x => 2 * x)
        (fun x => 2 * x + 1 - L) (fun x => x % 2 = 0 ∧ L / 4 > 0)
        (fun x => (x - L / 2) / 2) (L / 4 > 0) (List.range' (L / 2) ((L - L / 2) / 2) 2) fuel
        st = some out ∧
      ∀ a, (∀ x, 1 ≤ x → x ≤ L - 2 → a ≠ addr x) → out.1 a = st.1 a := by
  obtain ⟨out, h1, h2⟩ := gRearrange_total addr (fun x => x < L / 2) (fun x => 2 * x)
    (fun x => 2 * x + 1 - L) (fun x => x % 2 = 0 ∧ L / 4 > 0)
    (fun x => (x - L / 2) / 2) (L / 4 > 0) fuel (fun x => 1 ≤ x ∧ x ≤ L - 2)
    (by
      intro x hx
      simp only [gNext]
      split_ifs with h <;> omega)
    (List.range' (L / 2) ((L - L / 2) / 2) 2)
    (by
      intro j hj
      rw [List.mem_range'] at hj
      obtain ⟨t, ht, rfl⟩ := hj
      have h4 : 4 ≤ L := by omega
      obtain ⟨p, hp, hpL, hper⟩ := unpackIdx_returns L (L / 2 + 2 * t) hL h4 (by omega)
      exact ⟨⟨by omega, by omega⟩, by omega, p, hp, by omega, hper⟩) st
  exact ⟨out, h1, fun a ha => h2 a (fun x hx => ha x hx.1 hx.2)⟩

/-- C19: for every even `L ≥ 2` and every buffer, `rearrange2DFromLR` and
`revertRearrange2DFromLR` on a segment of length `L` return a result when each
`do`-`while` is allowed `L - 2` iterations, and every seed offset of either
seed loop comes back to itself under the walked index map after at most
`L - 2` moves. -/
theorem rearrange_revert_terminate (L fuel : Nat) (hL : L % 2 = 0) (_h2 : 2 ≤ L)
    (hfuel : L - 2 ≤ fuel) (arr : Buf) (rowLen colLen i : Nat) :
    (∃ out, rearrange2DFromLR fuel arr rowLen colLen L i = some out) ∧
    (∃ out, revertRearrange2DFromLR fuel arr rowLen colLen L i = some out) ∧
    (∀ j, j ∈ List.range' 1 ((L / 2 - 1 + 1) / 2) 2 →
      ∃ p, 0 < p ∧ p ≤ L - 2 ∧
        (gNext (fun x => x % 2 = 0) (fun x => x / 2)
          (fun x => x + (L / 2 - 1) - (x - 1) / 2))^[p] j = j) ∧
    (∀ j, j ∈ List.range' (L / 2) ((L - L / 2) / 2) 2 →
      ∃ p, 0 < p ∧ p ≤ L - 2 ∧
        (gNext (fun x => x < L / 2) (fun x => 2 * x) (fun x => 2 * x + 1 - L))^[p] j = j) := by
  refine ⟨?_, ?_, ?_, ?_⟩
  · obtain ⟨out, h, -⟩ := gPack_total (fun k => i * colLen + k) L fuel hL hfuel (arr, fun _ => 0)
    exact ⟨out.1, by rw [rearrange2DFromLR_eq, h]; rfl⟩
  · obtain ⟨out, h, -⟩ := gUnpack_total (fun k => i * colLen + k) L fuel hL hfuel (arr, fun _ => 0)
    exact ⟨out.1, by rw [revertRearrange2DFromLR_eq, h]; rfl⟩
  · intro j hj
    rw [List.mem_range'] at hj
    obtain ⟨t, ht, rfl⟩ := hj
    exact packIdx_returns L (1 + 2 * t) hL (by omega) (by omega)
  · intro j hj
    rw [List.mem_range'] at hj
    obtain ⟨t, ht, rfl⟩ := hj
    exact unpackIdx_returns L (L / 2 + 2 * t) hL (by omega) (by omega)

/-- C19, witness: a segment of length 4 with fuel 2. -/
theorem rearrange_revert_terminate_witness :
    (4 % 2 = 0 ∧ 2 ≤ 4 ∧ 4 - 2 ≤ 2) ∧
    (∃ out, rearrange2DFromLR 2 (fun k => k) 4 4 4 0 = some out) ∧
    (∃ out, revertRearrange2DFromLR 2 (fun k => k) 4 4 4 0 = some out) ∧
    (∀ j, j ∈ List.range' 1 ((4 / 2 - 1 + 1) / 2) 2 →
      ∃ p, 0 < p ∧ p ≤ 4 - 2 ∧
        (gNext (fun x => x % 2 = 0) (fun x => x / 2)
          (fun x => x + (4 / 2 - 1) - (x - 1) / 2))^[p] j = j) ∧
    (∀ j, j ∈ List.range' (4 / 2) ((4 - 4 / 2) / 2) 2 →
      ∃ p, 0 < p ∧ p ≤ 4 - 2 ∧
        (gNext (fun x => x < 4 / 2) (fun x => 2 * x) (fun x => 2 * x + 1 - 4))^[p] j = j) :=
  ⟨⟨by decide, by decide, by decide⟩,
    rearrange_revert_terminate 4 2 (by decide) (by decide) (by decide) (fun k => k) 4 4 0⟩

/-- C20: for every even `L ≥ 2`, `rearrange2DFromLR` and
`revertRearrange2DFromLR` on row `i` return a buffer that agrees with the
input at every index other than offsets `1 .. L - 2` of row `i`, and
`rearrange2DFromTC` and `revertRearrange2DFromTC` on column `j` return a
buffer that agrees with the input at every index other than rows
`1 .. L - 2` of column `j`. -/
theorem rearrange_line_local (L fuel : Nat) (hL : L % 2 = 0) (_h2 : 2 ≤ L)
    (hfuel : L - 2 ≤ fuel) (arr : Buf) (rowLen colLen i j : Nat) :
    (∃ out, rearrange2DFromLR fuel arr rowLen colLen L i = some out ∧
      ∀ a, (∀ x, 1 ≤ x → x ≤ L - 2 → a ≠ i * colLen + x) → out a = arr a) ∧
    (∃ out, revertRearrange2DFromLR fuel arr rowLen colLen L i = some out ∧
      ∀ a, (∀ x, 1 ≤ x → x ≤ L - 2 → a ≠ i * colLen + x) → out a = arr a) ∧
    (∃ out, rearrange2DFromTC fuel arr rowLen colLen L j = some out ∧
      ∀ a, (∀ x, 1 ≤ x → x ≤ L - 2 → a ≠ j + x * colLen) → out a = arr a) ∧
    (∃ out, revertRearrange2DFromTC fuel arr rowLen colLen L j = some out ∧
      ∀ a, (∀ x, 1 ≤ x → x ≤ L - 2 → a ≠ j + x * colLen) → out a = arr a) := by
  refine ⟨?_, ?_, ?_, ?_⟩
  · obtain ⟨out, h, hf⟩ := gPack_total (fun k => i * colLen + k) L fuel hL hfuel (arr, fun _ => 0)
    exact ⟨out.1, by rw [rearrange2DFromLR_eq, h]; rfl, hf⟩
  · obtain ⟨out, h, hf⟩ := gUnpack_total (fun k => i * colLen + k) L fuel hL hfuel
      (arr, fun _ => 0)
    exact ⟨out.1, by rw [revertRearrange2DFromLR_eq, h]; rfl, hf⟩
  · obtain ⟨out, h, hf⟩ := gPack_total (fun k => j + k * colLen) L fuel hL hfuel (arr, fun _ => 0)
    exact ⟨out.1, by rw [rearrange2DFromTC_eq, h]; rfl, hf⟩
  · obtain ⟨out, h, hf⟩ := gUnpack_total (fun k => j + k * colLen) L fuel hL hfuel
      (arr, fun _ => 0)
    exact ⟨out.1, by rw [revertRearrange2DFromTC_eq, h]; rfl, hf⟩

/-- C20, witness: row 1 and column 2 of a 6 x 6 buffer, segment length 6. -/
theorem rearrange_line_local_witness :
    (6 % 2 = 0 ∧ 2 ≤ 6 ∧ 6 - 2 ≤ 4) ∧
    (∃ out, rearrange2DFromLR 4 (fun k => k) 6 6 6 1 = some out ∧
      ∀ a, (∀ x, 1 ≤ x → x ≤ 6 - 2 → a ≠ 1 * 6 + x) → out a = (fun k => k : Buf) a) ∧
    (∃ out, revertRearrange2DFromLR 4 (fun k => k) 6 6 6 1 = some out ∧
      ∀ a, (∀ x, 1 ≤ x → x ≤ 6 - 2 → a ≠ 1 * 6 + x) → out a = (fun k => k : Buf) a) ∧
    (∃ out, rearrange2DFromTC 4 (fun k => k) 6 6 6 2 = some out ∧
      ∀ a, (∀ x, 1 ≤ x → x ≤ 6 - 2 → a ≠ 2 + x * 6) → out a = (fun k => k : Buf) a) ∧
    (∃ out, revertRearrange2DFromTC 4 (fun k => k) 6 6 6 2 = some out ∧
      ∀ a, (∀ x, 1 ≤ x → x ≤ 6 - 2 → a ≠ 2 + x * 6) → out a = (fun k => k : Buf) a) :=
  ⟨⟨by decide, by decide, by decide⟩,
    rearrange_line_local 6 4 (by decide) (by decide) (by decide) (fun k => k) 6 6 1 2⟩

/-! ## Traces: erasure and invariants of the loop combinators -/

theorem doWhile_traced {σ : Type} (body : σ → σ × Bool) (ev : σ → List Event)
    (cond : σ → Bool) : ∀ (fuel : Nat) (s : σ) (l : List Event),
    (doWhile (fun t : σ × List Event => (((body t.1).1, t.2 ++ ev t.1), (body t.1).2))
      (fun t => cond t.1) fuel (s, l)).map Prod.fst = doWhile body cond fuel s := by
  intro fuel
  induction fuel with
  | zero => intro s l; rfl
  | succ fuel ih =>
    intro s l
    rw [doWhile_succ, doWhile_succ]
    by_cases hb : (body s).2 = true
    · simp [hb]
    · by_cases hc : cond (body s).1 = true
      · simp only [hb, hc]
        exact ih (body s).1 (l ++ ev s)
      · simp [hb, hc]

theorem doWhile_inv {σ : Type} (body : σ → σ × Bool) (cond : σ → Bool) (Inv : σ → Prop)
    (h : ∀ s, Inv s → Inv (body s).1) :
    ∀ (fuel : Nat) (s s' : σ), Inv s → doWhile body cond fuel s = some s' → Inv s' := by
  intro fuel
  induction fuel with
  | zero => intro s s' _ hrun; exact absurd hrun (by simp [doWhile])
  | succ fuel ih =>
    intro s s' hs hrun
    rw [doWhile_succ] at hrun
    by_cases hb : (body s).2 = true
    · rw [if_pos hb] at hrun
      cases hrun
      exact h s hs
    · rw [if_neg hb] at hrun
      by_cases hc : cond (body s).1 = true
      · rw [if_pos hc] at hrun
        exact ih _ _ (h s hs) hrun
      · rw [if_neg hc] at hrun
        cases hrun
        exact h s hs

theorem foldlM_inv {σ α : Type} (f : σ → α → Option σ) (Inv : σ → Prop) :
    ∀ (xs : List α) (s s' : σ),
      (∀ x, x ∈ xs → ∀ s s', Inv s → f s x = some s' → Inv s') →
      Inv s → xs.foldlM f s = some s' → Inv s' := by
  intro xs
  induction xs with
  | nil =>
    intro s s' _ hs hrun
    cases hrun
    exact hs
  | cons x xs ih =>
    intro s s' hstep hs hrun
    rw [List.foldlM_cons] at hrun
    cases hfx : f s x with
    | none => rw [hfx] at hrun; cases hrun
    | some s1 =>
      rw [hfx] at hrun
      exact ih s1 s' (fun y hy => hstep y (List.mem_cons_of_mem _ hy))
        (hstep x (List.mem_cons_self _ _) s s1 hs hfx) hrun

theorem foldlM_range_inv {σ : Type} (f : σ → Nat → Option σ) (Inv : Nat → σ → Prop) :
    ∀ (n : Nat) (s s' : σ),
      (∀ k s s', k < n → Inv k s → f s k = some s' → Inv (k + 1) s') →
      Inv 0 s → (List.range n).foldlM f s = some s' → Inv n s' := by
  intro n
  induction n with
  | zero =>
    intro s s' _ hs hrun
    cases hrun
    exact hs
  | succ n ih =>
    intro s s' hstep hs hrun
    rw [List.range_succ, List.foldlM_append] at hrun
    cases hfx : (List.range n).foldlM f s with
    | none => rw [hfx] at hrun; cases hrun
    | some s1 =>
      rw [hfx] at hrun
      have h1 : Inv n s1 := ih s s1 (fun k a b hk => hstep k a b (by omega)) hs hfx
      have h2 : f s1 n = some s' := by
        cases hf : f s1 n with
        | none => simp [List.foldlM, hf] at hrun
        | some s2 => simp [List.foldlM, hf] at hrun; rw [hrun]
      exact hstep n s1 s' (by omega) h1 h2

theorem foldlM_erase {σ τ α : Type} (pr : τ → σ) (f : σ → α → Option σ)
    (g : τ → α → Option τ) (h : ∀ t x, (g t x).map pr = f (pr t) x) :
    ∀ (xs : List α) (t : τ), (xs.foldlM g t).map pr = xs.foldlM f (pr t) := by
  intro xs
  induction xs with
  | nil => intro t; rfl
  | cons x xs ih =>
    intro t
    rw [List.foldlM_cons, List.foldlM_cons]
    have hx := h t x
    cases hg : g t x with
    | none =>
      rw [hg] at hx
      rw [← hx]
      rfl
    | some t1 =>
      rw [hg] at hx
      rw [← hx]
      exact ih t1

theorem foldl_inv {σ α : Type} (f : σ → α → σ) (Inv : σ → Prop) :
    ∀ (xs : List α) (s : σ), (∀ x, x ∈ xs → ∀ s, Inv s → Inv (f s x)) → Inv s →
      Inv (xs.foldl f s) := by
  intro xs
  induction xs with
  | nil => intro s _ hs; exact hs
  | cons x xs ih =>
    intro s hstep hs
    rw [List.foldl_cons]
    exact ih _ (fun y hy => hstep y (List.mem_cons_of_mem _ hy))
      (hstep x (List.mem_cons_self _ _) s hs)

theorem foldl_erase {σ τ α : Type} (pr : τ → σ) (f : σ → α → σ) (g : τ → α → τ)
    (h : ∀ t x, pr (g t x) = f (pr t) x) :
    ∀ (xs : List α) (t : τ), pr (xs.foldl g t) = xs.foldl f (pr t) := by
  intro xs
  induction xs with
  | nil => intro t; rfl
  | cons x xs ih =>
    intro t
    rw [List.foldl_cons, List.foldl_cons, ih, h]

theorem traceOk_append (Q : Event → Prop) (g : Event → Option Nat) (c : List Nat)
    (l evs : List Event) (h : TraceOk Q g c l)
    (hev : ∀ e, e ∈ evs → Q e ∧ g e = none) :
    TraceOk Q g c (l ++ evs) := by
  refine ⟨?_, ?_⟩
  · intro e he
    rcases List.mem_append.mp he with h1 | h1
    · exact h.1 e h1
    · exact (hev e h1).1
  · rw [List.filterMap_append, h.2]
    have : evs.filterMap g = [] := List.filterMap_eq_nil_iff.mpr (fun e he => (hev e he).2)
    rw [this, List.append_nil]

theorem traceOk_call (Q : Event → Prop) (g : Event → Option Nat) (c : List Nat)
    (l : List Event) (e : Event) (len : Nat) (h : TraceOk Q g c l)
    (he : Q e) (hg : g e = some len) :
    TraceOk Q g (c ++ [len]) (l ++ [e]) := by
  refine ⟨?_, ?_⟩
  · intro e1 he1
    rcases List.mem_append.mp he1 with h1 | h1
    · exact h.1 e1 h1
    · rw [List.mem_singleton] at h1
      rw [h1]
      exact he
  · rw [List.filterMap_append, h.2]
    simp [List.filterMap_cons, hg]

/-! ## Traces of the cycle walks -/

/-- One traced iteration keeps the walk inside `P` and the trace in bounds. -/
theorem gBodyTraced_inv (addr : Nat → Nat) (inA : Nat → Prop) [DecidablePred inA]
    (nextA nextB : Nat → Nat) (mark : Nat → Prop) [DecidablePred mark] (idx : Nat → Nat)
    (quartLen j : Nat) (Q : Event → Prop) (g : Event → Option Nat) (c : List Nat)
    (hg1 : ∀ n, g (Event.arr n) = none) (hg2 : ∀ q k, g (Event.indexMask q k) = none)
    (P : Nat → Prop) (hP : ∀ x, P x → P (gNext inA nextA nextB x)) (hj : P j)
    (haddr : ∀ x, P x → Q (Event.arr (addr x)))
    (hmask : ∀ x, P x → ¬ inA x → mark x → Q (Event.indexMask quartLen (idx x))) (t : Walk × List Event)
    (ht : P t.1.indexTemp02 ∧ TraceOk Q g c t.2) :
    P (gBodyTraced addr inA nextA nextB mark idx quartLen j t).1.1.indexTemp02 ∧
      TraceOk Q g c (gBodyTraced addr inA nextA nextB mark idx quartLen j t).1.2 := by
  obtain ⟨hx, hlog⟩ := ht
  have okj : Q (Event.arr (addr j)) ∧ g (Event.arr (addr j)) = none :=
    ⟨haddr j hj, hg1 _⟩
  have okx : Q (Event.arr (addr t.1.indexTemp02)) ∧
      g (Event.arr (addr t.1.indexTemp02)) = none := ⟨haddr _ hx, hg1 _⟩
  by_cases hA : inA t.1.indexTemp02
  · have hPn : P (nextA t.1.indexTemp02) := by
      have := hP _ hx
      simpa [gNext, hA] using this
    have okn : Q (Event.arr (addr (nextA t.1.indexTemp02))) ∧
        g (Event.arr (addr (nextA t.1.indexTemp02))) = none := ⟨haddr _ hPn, hg1 _⟩
    by_cases hbr : nextA t.1.indexTemp02 = j
    · refine ⟨?_, ?_⟩
      · simp only [gBodyTraced, gBody, if_pos hA, if_pos hbr]
        exact hx
      · simp only [gBodyTraced, gBodyEvents, if_pos hA, if_pos hbr]
        apply traceOk_append Q g c _ _ hlog
        intro e he
        simp only [List.mem_singleton] at he
        subst he
        exact okj
    · refine ⟨?_, ?_⟩
      · simp only [gBodyTraced, gBody, if_pos hA, if_neg hbr]
        exact hPn
      · simp only [gBodyTraced, gBodyEvents, if_pos hA, if_neg hbr]
        apply traceOk_append Q g c _ _ hlog
        intro e he
        simp only [List.mem_cons, List.mem_singleton, List.not_mem_nil, or_false] at he
        rcases he with rfl | rfl | rfl | rfl
        · exact okn
        · exact okj
        · exact okn
        · exact okj
  · have hPn : P (nextB t.1.indexTemp02) := by
      have := hP _ hx
      simpa [gNext, hA] using this
    have okn : Q (Event.arr (addr (nextB t.1.indexTemp02))) ∧
        g (Event.arr (addr (nextB t.1.indexTemp02))) = none := ⟨haddr _ hPn, hg1 _⟩
    by_cases hfirst : t.1.indexTemp02 = j
    · refine ⟨?_, ?_⟩
      · simp only [gBodyTraced, gBody, if_neg hA, if_pos hfirst]
        exact hPn
      · simp only [gBodyTraced, gBodyEvents, if_neg hA, if_pos hfirst]
        apply traceOk_append Q g c _ _ hlog
        intro e he
        simp only [List.mem_cons, List.mem_singleton, List.not_mem_nil, or_false] at he
        rcases he with rfl | rfl | rfl
        · exact okn
        · exact okx
        · exact okn
    · refine ⟨?_, ?_⟩
      · simp only [gBodyTraced, gBody, if_neg hA, if_neg hfirst]
        exact hPn
      · simp only [gBodyTraced, gBodyEvents, if_neg hA, if_neg hfirst]
        apply traceOk_append Q g c _ _ hlog
        intro e he
        rcases List.mem_append.mp he with he | he
        · simp only [List.mem_cons, List.mem_singleton, List.not_mem_nil, or_false] at he
          rcases he with rfl | rfl | rfl | rfl
          · exact okn
          · exact okj
          · exact okn
          · exact okj
        · by_cases hm : mark t.1.indexTemp02
          · rw [if_pos hm, List.mem_singleton] at he
            subst he
            exact ⟨hmask _ hx hA hm, hg2 _ _⟩
          · rw [if_neg hm] at he
            exact absurd he (List.not_mem_nil _)

/-- Forgetting the trace of the seed loop gives the seed loop. -/
theorem gRearrangeTraced_erase (addr : Nat → Nat) (inA : Nat → Prop) [DecidablePred inA]
    (nextA nextB : Nat → Nat) (mark : Nat → Prop) [DecidablePred mark] (idx : Nat → Nat)
    (guard : Prop) [Decidable guard] (quartLen : Nat) (seeds : List Nat) (fuel : Nat)
    (st : Buf × (Nat → Nat)) (log : List Event) :
    (gRearrangeTraced addr inA nextA nextB mark idx guard quartLen seeds fuel st log).map
      Prod.fst = gRearrange addr inA nextA nextB mark idx guard seeds fuel st := by
  unfold gRearrangeTraced gRearrange
  apply foldlM_erase Prod.fst
  intro t j
  by_cases hskip : guard ∧ t.1.2 (idx j) ≠ 0
  · simp only [if_pos hskip]
    rfl
  · simp only [if_neg hskip]
    rw [Option.map_map]
    have h := doWhile_traced (gBody addr inA nextA nextB mark idx j)
      (gBodyEvents addr inA nextA nextB mark idx quartLen j)
      (fun s => decide (s.indexTemp02 ≠ j)) fuel
      { arr := t.1.1, indexMask := t.1.2, valueTemp := 0, indexTemp02 := j }
      (t.2 ++ (if guard then [Event.indexMask quartLen (idx j)] else []))
    rw [← h, Option.map_map]
    rfl

/-- The trace of the seed loop stays in bounds and gains no call. -/
theorem gRearrangeTraced_ok (addr : Nat → Nat) (inA : Nat → Prop) [DecidablePred inA]
    (nextA nextB : Nat → Nat) (mark : Nat → Prop) [DecidablePred mark] (idx : Nat → Nat)
    (guard : Prop) [Decidable guard] (quartLen : Nat) (Q : Event → Prop)
    (g : Event → Option Nat)
    (c : List Nat) (hg1 : ∀ n, g (Event.arr n) = none)
    (hg2 : ∀ q k, g (Event.indexMask q k) = none)
    (P : Nat → Prop) (hP : ∀ x, P x → P (gNext inA nextA nextB x))
    (haddr : ∀ x, P x → Q (Event.arr (addr x)))
    (hmask : ∀ x, P x → ¬ inA x → mark x → Q (Event.indexMask quartLen (idx x)))
    (seeds : List Nat)
    (hseeds : ∀ j, j ∈ seeds → P j ∧ (guard → Q (Event.indexMask quartLen (idx j))))
    (hinit : ∀ k, k < quartLen → Q (Event.indexMask quartLen k))
    (fuel : Nat) (st : Buf × (Nat → Nat)) (log : List Event) (hlog : TraceOk Q g c log)
    (out : (Buf × (Nat → Nat)) × List Event)
    (hrun : gRearrangeTraced addr inA nextA nextB mark idx guard quartLen seeds fuel st log =
      some out) : TraceOk Q g c out.2 := by
  unfold gRearrangeTraced at hrun
  refine foldlM_inv _ (fun t => TraceOk Q g c t.2) seeds _ out ?_ ?_ hrun
  · intro j hj t t' ht hstep
    obtain ⟨hPj, hidx⟩ := hseeds j hj
    have hlog1 : TraceOk Q g c
        (t.2 ++ (if guard then [Event.indexMask quartLen (idx j)] else [])) := by
      apply traceOk_append Q g c _ _ ht
      intro e he
      by_cases hgd : guard
      · rw [if_pos hgd, List.mem_singleton] at he
        subst he
        exact ⟨hidx hgd, hg2 _ _⟩
      · rw [if_neg hgd] at he
        exact absurd he (List.not_mem_nil _)
    by_cases hskip : guard ∧ t.1.2 (idx j) ≠ 0
    · simp only [if_pos hskip] at hstep
      cases hstep
      exact hlog1
    · simp only [if_neg hskip] at hstep
      cases hd : doWhile (gBodyTraced addr inA nextA nextB mark idx quartLen j)
          (fun u => decide (u.1.indexTemp02 ≠ j)) fuel
          ({ arr := t.1.1, indexMask := t.1.2, valueTemp := 0, indexTemp02 := j },
            t.2 ++ (if guard then [Event.indexMask quartLen (idx j)] else [])) with
      | none => rw [hd] at hstep; cases hstep
      | some u =>
        rw [hd] at hstep
        cases hstep
        exact (doWhile_inv _ _ (fun u => P u.1.indexTemp02 ∧ TraceOk Q g c u.2)
          (fun s hs => gBodyTraced_inv addr inA nextA nextB mark idx quartLen j Q g c hg1 hg2
            P hP hPj haddr hmask s hs) fuel _ u ⟨hPj, hlog1⟩ hd).2
  · show TraceOk Q g c (log ++ (List.range quartLen).map (Event.indexMask quartLen))
    apply traceOk_append Q g c _ _ hlog
    intro e he
    rw [List.mem_map] at he
    obtain ⟨k, hk, rfl⟩ := he
    exact ⟨hinit k (List.mem_range.mp hk), hg2 _ _⟩

/-! ## Traces of the four rearrange functions and of the lifting loops -/

theorem rearrange2DFromLR_traced_erase (fuel : Nat) (t : Buf × List Event)
    (rowLen colLen L i : Nat) :
    (rearrange2DFromLR_traced fuel t rowLen colLen L i).map Prod.fst =
      rearrange2DFromLR fuel t.1 rowLen colLen L i := by
  rw [rearrange2DFromLR_eq, ← gRearrangeTraced_erase _ _ _ _ _ _ _ (L / 4) _ _ _
    (t.2 ++ [Event.pack L])]
  unfold rearrange2DFromLR_traced
  simp only [Option.map_map]
  rfl

theorem rearrange2DFromTC_traced_erase (fuel : Nat) (t : Buf × List Event)
    (rowLen colLen L j : Nat) :
    (rearrange2DFromTC_traced fuel t rowLen colLen L j).map Prod.fst =
      rearrange2DFromTC fuel t.1 rowLen colLen L j := by
  rw [rearrange2DFromTC_eq, ← gRearrangeTraced_erase _ _ _ _ _ _ _ (L / 4) _ _ _
    (t.2 ++ [Event.pack L])]
  unfold rearrange2DFromTC_traced
  simp only [Option.map_map]
  rfl

theorem revertRearrange2DFromLR_traced_erase (fuel : Nat) (t : Buf × List Event)
    (rowLen colLen L i : Nat) :
    (revertRearrange2DFromLR_traced fuel t rowLen colLen L i).map Prod.fst =
      revertRearrange2DFromLR fuel t.1 rowLen colLen L i := by
  rw [revertRearrange2DFromLR_eq, ← gRearrangeTraced_erase _ _ _ _ _ _ _ (L / 4) _ _ _
    (t.2 ++ [Event.unpack L])]
  unfold revertRearrange2DFromLR_traced
  simp only [Option.map_map]
  rfl

theorem revertRearrange2DFromTC_traced_erase (fuel : Nat) (t : Buf × List Event)
    (rowLen colLen L j : Nat) :
    (revertRearrange2DFromTC_traced fuel t rowLen colLen L j).map Prod.fst =
      revertRearrange2DFromTC fuel t.1 rowLen colLen L j := by
  rw [revertRearrange2DFromTC_eq, ← gRearrangeTraced_erase _ _ _ _ _ _ _ (L / 4) _ _ _
    (t.2 ++ [Event.unpack L])]
  unfold revertRearrange2DFromTC_traced
  simp only [Option.map_map]
  rfl

/-- The traced packer loop on an even length: all accesses of the walk are at
offsets below `L` and at mask entries below `L / 4`. -/
theorem gPackTraced_ok (addr : Nat → Nat) (L fuel : Nat) (Q : Event → Prop) (hL : L % 2 = 0)
    (haddr : ∀ x, x < L → Q (Event.arr (addr x)))
    (hQmask : ∀ k, k < L / 4 → Q (Event.indexMask (L / 4) k))
    (g : Event → Option Nat) (c : List Nat)
    (hg1 : ∀ n, g (Event.arr n) = none) (hg2 : ∀ q k, g (Event.indexMask q k) = none)
    (st : Buf × (Nat → Nat)) (log : List Event) (hlog : TraceOk Q g c log)
    (out : (Buf × (Nat → Nat)) × List Event)
    (hrun : gRearrangeTraced addr (fun x => x % 2 = 0) (fun x => x / 2)
      (fun x => x + (L / 2 - 1) - (x - 1) / 2) (fun x => x ≤ L / 2 - 1 ∧ L / 4 > 0)
      (fun x => x / 2) (L / 4 > 0) (L / 4) (List.range' 1 ((L / 2 - 1 + 1) / 2) 2) fuel st log =
      some out) : TraceOk Q g c out.2 := by
  refine gRearrangeTraced_ok addr _ _ _ _ _ _ (L / 4) Q g c hg1 hg2 (fun x => x < L) ?_ haddr
    ?_ _ ?_ hQmask fuel st log hlog out hrun
  · intro x hx
    exact packIdx_lt L x hL hx
  · intro x hx hodd hm
    have h1 : ¬ x % 2 = 0 := hodd
    have h2 : x ≤ L / 2 - 1 ∧ L / 4 > 0 := hm
    exact hQmask (x / 2) (by omega)
  · intro j hj
    rw [List.mem_range'] at hj
    obtain ⟨k, hk, rfl⟩ := hj
    refine ⟨?_, fun _ => ?_⟩
    · show 1 + 2 * k < L
      omega
    · exact hQmask ((1 + 2 * k) / 2) (by omega)

/-- The traced unpacker loop on an even length: all accesses of the walk are
at offsets below `L` and at mask entries below `L / 4`. -/
theorem gUnpackTraced_ok (addr : Nat → Nat) (L fuel : Nat) (Q : Event → Prop) (hL : L % 2 = 0)
    (haddr : ∀ x, x < L → Q (Event.arr (addr x)))
    (hQmask : ∀ k, k < L / 4 → Q (Event.indexMask (L / 4) k))
    (g : Event → Option Nat) (c : List Nat)
    (hg1 : ∀ n, g (Event.arr n) = none) (hg2 : ∀ q k, g (Event.indexMask q k) = none)
    (st : Buf × (Nat → Nat)) (log : List Event) (hlog : TraceOk Q g c log)
    (out : (Buf × (Nat → Nat)) × List Event)
    (hrun : gRearrangeTraced addr (fun x => x < L / 2) (fun x => 2 * x)
      (fun x => 2 * x + 1 - L) (fun x => x % 2 = 0 ∧ L / 4 > 0)
      (fun x => (x - L / 2) / 2) (L / 4 > 0) (L / 4) (List.range' (L / 2) ((L - L / 2) / 2) 2)
      fuel st log = some out) : TraceOk Q g c out.2 := by
  refine gRearrangeTraced_ok addr _ _ _ _ _ _ (L / 4) Q g c hg1 hg2 (fun x => x < L) ?_ haddr
    ?_ _ ?_ hQmask fuel st log hlog out hrun
  · intro x hx
    exact unpackIdx_lt L x hL hx
  · intro x hx hhigh hm
    have h0 : x < L := hx
    have h1 : ¬ x < L / 2 := hhigh
    have h2 : x % 2 = 0 ∧ L / 4 > 0 := hm
    exact hQmask ((x - L / 2) / 2) (by omega)
  · intro j hj
    rw [List.mem_range'] at hj
    obtain ⟨k, hk, rfl⟩ := hj
    refine ⟨?_, fun _ => ?_⟩
    · show L / 2 + 2 * k < L
      omega
    · exact hQmask ((L / 2 + 2 * k - L / 2) / 2) (by omega)

theorem rearrange2DFromLR_traced_ok (Q : Event → Prop) (fuel : Nat) (t t' : Buf × List Event)
    (rowLen colLen L i : Nat) (c : List Nat) (hL : L % 2 = 0)
    (haddr : ∀ x, x < L → Q (Event.arr (i * colLen + x)))
    (hQmask : ∀ q k, k < q → Q (Event.indexMask q k)) (hQcall : Q (Event.pack L))
    (ht : TraceOk Q Event.packLen c t.2)
    (hrun : rearrange2DFromLR_traced fuel t rowLen colLen L i = some t') :
    TraceOk Q Event.packLen (c ++ [L]) t'.2 := by
  unfold rearrange2DFromLR_traced at hrun
  simp only [Option.map_eq_some'] at hrun
  obtain ⟨u, hu, rfl⟩ := hrun
  exact gPackTraced_ok (fun k => i * colLen + k) L fuel Q hL haddr (hQmask _) Event.packLen _
    (fun _ => rfl) (fun _ _ => rfl) _ _
    (traceOk_call Q Event.packLen c t.2 (Event.pack L) L ht hQcall rfl) u hu

theorem rearrange2DFromTC_traced_ok (Q : Event → Prop) (fuel : Nat) (t t' : Buf × List Event)
    (rowLen colLen L j : Nat) (c : List Nat) (hL : L % 2 = 0)
    (haddr : ∀ x, x < L → Q (Event.arr (j + x * colLen)))
    (hQmask : ∀ q k, k < q → Q (Event.indexMask q k)) (hQcall : Q (Event.pack L))
    (ht : TraceOk Q Event.packLen c t.2)
    (hrun : rearrange2DFromTC_traced fuel t rowLen colLen L j = some t') :
    TraceOk Q Event.packLen (c ++ [L]) t'.2 := by
  unfold rearrange2DFromTC_traced at hrun
  simp only [Option.map_eq_some'] at hrun
  obtain ⟨u, hu, rfl⟩ := hrun
  exact gPackTraced_ok (fun k => j + k * colLen) L fuel Q hL haddr (hQmask _) Event.packLen _
    (fun _ => rfl) (fun _ _ => rfl) _ _
    (traceOk_call Q Event.packLen c t.2 (Event.pack L) L ht hQcall rfl) u hu

theorem revertRearrange2DFromLR_traced_ok (Q : Event → Prop) (fuel : Nat)
    (t t' : Buf × List Event)
    (rowLen colLen L i : Nat) (c : List Nat) (hL : L % 2 = 0)
    (haddr : ∀ x, x < L → Q (Event.arr (i * colLen + x)))
    (hQmask : ∀ q k, k < q → Q (Event.indexMask q k)) (hQcall : Q (Event.unpack L))
    (ht : TraceOk Q Event.unpackLen c t.2)
    (hrun : revertRearrange2DFromLR_traced fuel t rowLen colLen L i = some t') :
    TraceOk Q Event.unpackLen (c ++ [L]) t'.2 := by
  unfold revertRearrange2DFromLR_traced at hrun
  simp only [Option.map_eq_some'] at hrun
  obtain ⟨u, hu, rfl⟩ := hrun
  exact gUnpackTraced_ok (fun k => i * colLen + k) L fuel Q hL haddr (hQmask _) Event.unpackLen _
    (fun _ => rfl) (fun _ _ => rfl) _ _
    (traceOk_call Q Event.unpackLen c t.2 (Event.unpack L) L ht hQcall rfl) u hu

theorem revertRearrange2DFromTC_traced_ok (Q : Event → Prop) (fuel : Nat)
    (t t' : Buf × List Event)
    (rowLen colLen L j : Nat) (c : List Nat) (hL : L % 2 = 0)
    (haddr : ∀ x, x < L → Q (Event.arr (j + x * colLen)))
    (hQmask : ∀ q k, k < q → Q (Event.indexMask q k)) (hQcall : Q (Event.unpack L))
    (ht : TraceOk Q Event.unpackLen c t.2)
    (hrun : revertRearrange2DFromTC_traced fuel t rowLen colLen L j = some t') :
    TraceOk Q Event.unpackLen (c ++ [L]) t'.2 := by
  unfold revertRearrange2DFromTC_traced at hrun
  simp only [Option.map_eq_some'] at hrun
  obtain ⟨u, hu, rfl⟩ := hrun
  exact gUnpackTraced_ok (fun k => j + k * colLen) L fuel Q hL haddr (hQmask _) Event.unpackLen _
    (fun _ => rfl) (fun _ _ => rfl) _ _
    (traceOk_call Q Event.unpackLen c t.2 (Event.unpack L) L ht hQcall rfl) u hu

theorem liftStepTraced_ok (Q : Event → Prop) (g : Event → Option Nat) (c : List Nat)
    (hg3 : ∀ z, g (Event.arrAt z) = none) (t : Buf × List Event) (n v : Nat)
    (hn : Q (Event.arrAt (toInt32 n))) (hv : Q (Event.arrAt (toInt32 n + toInt32 v)))
    (ht : TraceOk Q g c t.2) :
    TraceOk Q g c (liftStepTraced t n v).2 := by
  show TraceOk Q g c
    (t.2 ++ [Event.arrAt (toInt32 n), Event.arrAt (toInt32 n + toInt32 v),
      Event.arrAt (toInt32 n), Event.arrAt (toInt32 n + toInt32 v)])
  apply traceOk_append Q g c _ _ ht
  intro e he
  simp only [List.mem_cons, List.mem_singleton, List.not_mem_nil, or_false] at he
  rcases he with rfl | rfl | rfl | rfl
  · exact ⟨hn, hg3 _⟩
  · exact ⟨hv, hg3 _⟩
  · exact ⟨hn, hg3 _⟩
  · exact ⟨hv, hg3 _⟩

theorem rowLiftTraced_fst (t : Buf × List Event) (colLen L i : Nat) :
    (rowLiftTraced t colLen L i).1 = rowLift t.1 colLen L i :=
  foldl_erase Prod.fst (fun a j => liftStep a (i * colLen + j) 1)
    (fun a j => liftStepTraced a (i * colLen + j) 1) (fun _ _ => rfl) _ t

theorem colLiftTraced_fst (t : Buf × List Event) (colLen L j : Nat) :
    (colLiftTraced t colLen L j).1 = colLift t.1 colLen L j :=
  foldl_erase Prod.fst (fun a i => liftStep a (j + i * colLen) colLen)
    (fun a i => liftStepTraced a (j + i * colLen) colLen) (fun _ _ => rfl) _ t

theorem rowLiftTraced_ok (Q : Event → Prop) (g : Event → Option Nat) (c : List Nat)
    (hg3 : ∀ z, g (Event.arrAt z) = none) (t : Buf × List Event) (colLen L i : Nat)
    (hL : L % 2 = 0)
    (hlift : ∀ x, x + 1 < L → Q (Event.arrAt (toInt32 (i * colLen + x))) ∧
      Q (Event.arrAt (toInt32 (i * colLen + x) + toInt32 1)))
    (ht : TraceOk Q g c t.2) :
    TraceOk Q g c (rowLiftTraced t colLen L i).2 := by
  unfold rowLiftTraced
  refine foldl_inv _ (fun a => TraceOk Q g c a.2) _ t ?_ ht
  intro j hj a ha
  rw [List.mem_range'] at hj
  obtain ⟨k, hk, rfl⟩ := hj
  have h := hlift (0 + 2 * k) (by omega)
  exact liftStepTraced_ok Q g c hg3 a _ 1 h.1 h.2 ha

theorem colLiftTraced_ok (Q : Event → Prop) (g : Event → Option Nat) (c : List Nat)
    (hg3 : ∀ z, g (Event.arrAt z) = none) (t : Buf × List Event) (colLen L j : Nat)
    (hL : L % 2 = 0)
    (hlift : ∀ x, x + 1 < L → Q (Event.arrAt (toInt32 (j + x * colLen))) ∧
      Q (Event.arrAt (toInt32 (j + x * colLen) + toInt32 colLen)))
    (ht : TraceOk Q g c t.2) :
    TraceOk Q g c (colLiftTraced t colLen L j).2 := by
  unfold colLiftTraced
  refine foldl_inv _ (fun a => TraceOk Q g c a.2) _ t ?_ ht
  intro i hi a ha
  rw [List.mem_range'] at hi
  obtain ⟨k, hk, rfl⟩ := hi
  have h := hlift (0 + 2 * k) (by omega)
  exact liftStepTraced_ok Q g c hg3 a _ colLen h.1 h.2 ha

theorem addr_row_lt (N i x : Nat) (hi : i < N) (hx : x < N) : i * N + x < N * N := by
  have h : (i + 1) * N ≤ N * N := Nat.mul_le_mul_right N (by omega)
  rw [Nat.add_mul, Nat.one_mul] at h
  omega

theorem addr_col_lt (N j x : Nat) (hj : j < N) (hx : x < N) : j + x * N < N * N := by
  have h : (x + 1) * N ≤ N * N := Nat.mul_le_mul_right N (by omega)
  rw [Nat.add_mul, Nat.one_mul] at h
  omega

/-! ## Traces of the two transforms -/

theorem levelCalls_succ_left (ex : Nat → Nat) (level : Nat) :
    levelCalls ex (level + 1) =
      List.replicate (2 * 2 ^ ex 0) (2 ^ ex 0) ++ levelCalls (fun s => ex (s + 1)) level := by
  unfold levelCalls
  rw [List.range_succ_eq_map, List.flatMap_cons, List.flatMap_map]

theorem levelCalls_succ_right (ex : Nat → Nat) (level : Nat) :
    levelCalls ex (level + 1) =
      levelCalls ex level ++ List.replicate (2 * 2 ^ ex level) (2 ^ ex level) := by
  unfold levelCalls
  rw [List.range_succ, List.flatMap_append, List.flatMap_singleton]

theorem levelCalls_congr (ex ex2 : Nat → Nat) (level : Nat)
    (h : ∀ s, s < level → ex s = ex2 s) : levelCalls ex level = levelCalls ex2 level := by
  induction level with
  | zero => rfl
  | succ level ih =>
    rw [levelCalls_succ_right, levelCalls_succ_right, ih (fun s hs => h s (by omega)),
      h level (by omega)]

theorem levelCalls_reverse (a : Nat) : ∀ (level : Nat), level ≤ a + 1 →
    (levelCalls (fun s => a - s) level).reverse =
      levelCalls (fun s => a + 1 - level + s) level := by
  intro level
  induction level with
  | zero => intro _; rfl
  | succ level ih =>
    intro hle
    rw [levelCalls_succ_right, List.reverse_append, List.reverse_replicate, ih (by omega),
      levelCalls_succ_left]
    have e0 : a + 1 - (level + 1) + 0 = a - level := by omega
    rw [e0]
    congr 1
    apply levelCalls_congr
    intro s _
    omega

theorem mem_levelCalls (ex : Nat → Nat) (level len : Nat) (h : len ∈ levelCalls ex level) :
    ∃ s, s < level ∧ len = 2 ^ ex s := by
  unfold levelCalls at h
  rw [List.mem_flatMap] at h
  obtain ⟨s, hs, hmem⟩ := h
  exact ⟨s, List.mem_range.mp hs, List.eq_of_mem_replicate hmem⟩

theorem levelCalls_head (ex : Nat → Nat) (level : Nat) (h1 : 1 ≤ level) :
    (levelCalls ex level).head? = some (2 ^ ex 0) := by
  obtain ⟨l, rfl⟩ : ∃ l, level = l + 1 := ⟨level - 1, by omega⟩
  rw [levelCalls_succ_left]
  obtain ⟨n, hn⟩ : ∃ n, 2 * 2 ^ ex 0 = n + 1 :=
    ⟨2 * 2 ^ ex 0 - 1, by have := Nat.pos_pow_of_pos (ex 0) (show 0 < 2 by omega); omega⟩
  rw [hn, List.replicate_succ]
  rfl

theorem waveletTransform2D_loopTraced_erase (fuel rowLen colLen : Nat) :
    ∀ (level : Nat) (t : Buf × List Event) (dR dC : Nat),
      (waveletTransform2D_loopTraced fuel rowLen colLen level t dR dC).map Prod.fst =
        waveletTransform2D_loop fuel rowLen colLen level t.1 dR dC := by
  intro level
  induction level with
  | zero => intro t dR dC; rfl
  | succ level ih =>
    intro t dR dC
    simp only [waveletTransform2D_loopTraced, waveletTransform2D_loop, Option.bind_eq_bind]
    have h1 := foldlM_erase Prod.fst
      (fun a i => rearrange2DFromLR fuel (rowLift a colLen dC i) rowLen colLen dC i)
      (fun a i => rearrange2DFromLR_traced fuel (rowLiftTraced a colLen dC i) rowLen colLen dC i)
      (fun a i => by
        show (rearrange2DFromLR_traced fuel (rowLiftTraced a colLen dC i) rowLen colLen dC
          i).map Prod.fst = rearrange2DFromLR fuel (rowLift a.1 colLen dC i) rowLen colLen dC i
        rw [rearrange2DFromLR_traced_erase, rowLiftTraced_fst])
      (List.range dR) t
    rw [← h1]
    cases hA : (List.range dR).foldlM
      (fun a i => rearrange2DFromLR_traced fuel (rowLiftTraced a colLen dC i) rowLen colLen dC i)
      t with
    | none => rfl
    | some t1 =>
      simp only [Option.map_some', Option.some_bind]
      have h2 := foldlM_erase Prod.fst
        (fun a j => rearrange2DFromTC fuel (colLift a colLen dR j) rowLen colLen dR j)
        (fun a j => rearrange2DFromTC_traced fuel (colLiftTraced a colLen dR j) rowLen colLen
          dR j)
        (fun a j => by
          show (rearrange2DFromTC_traced fuel (colLiftTraced a colLen dR j) rowLen colLen dR
            j).map Prod.fst = rearrange2DFromTC fuel (colLift a.1 colLen dR j) rowLen colLen dR j
          rw [rearrange2DFromTC_traced_erase, colLiftTraced_fst])
        (List.range dC) t1
      rw [← h2]
      cases hB : (List.range dC).foldlM
        (fun a j => rearrange2DFromTC_traced fuel (colLiftTraced a colLen dR j) rowLen colLen
          dR j) t1 with
      | none => rfl
      | some t2 =>
        simp only [Option.map_some', Option.some_bind]
        exact ih t2 (dR / 2) (dC / 2)

theorem invWaveletTransform2D_loopTraced_erase (fuel rowLen colLen : Nat) :
    ∀ (level : Nat) (t : Buf × List Event) (rR rC : Nat),
      (invWaveletTransform2D_loopTraced fuel rowLen colLen level t rR rC).map Prod.fst =
        invWaveletTransform2D_loop fuel rowLen colLen level t.1 rR rC := by
  intro level
  induction level with
  | zero => intro t rR rC; rfl
  | succ level ih =>
    intro t rR rC
    simp only [invWaveletTransform2D_loopTraced, invWaveletTransform2D_loop,
      Option.bind_eq_bind]
    have h1 := foldlM_erase Prod.fst
      (fun a j => (revertRearrange2DFromTC fuel a rowLen colLen rR j).map
        (fun a1 => colLift a1 colLen rR j))
      (fun a j => (revertRearrange2DFromTC_traced fuel a rowLen colLen rR j).map
        (fun a1 => colLiftTraced a1 colLen rR j))
      (fun a j => by
        show ((revertRearrange2DFromTC_traced fuel a rowLen colLen rR j).map
          (fun a1 => colLiftTraced a1 colLen rR j)).map Prod.fst =
          (revertRearrange2DFromTC fuel a.1 rowLen colLen rR j).map
            (fun a1 => colLift a1 colLen rR j)
        rw [← revertRearrange2DFromTC_traced_erase, Option.map_map, Option.map_map]
        congr 1
        funext a1
        exact colLiftTraced_fst a1 colLen rR j)
      (List.range rC) t
    rw [← h1]
    cases hA : (List.range rC).foldlM
      (fun a j => (revertRearrange2DFromTC_traced fuel a rowLen colLen rR j).map
        (fun a1 => colLiftTraced a1 colLen rR j)) t with
    | none => rfl
    | some t1 =>
      simp only [Option.map_some', Option.some_bind]
      have h2 := foldlM_erase Prod.fst
        (fun a i => (revertRearrange2DFromLR fuel a rowLen colLen rC i).map
          (fun a1 => rowLift a1 colLen rC i))
        (fun a i => (revertRearrange2DFromLR_traced fuel a rowLen colLen rC i).map
          (fun a1 => rowLiftTraced a1 colLen rC i))
        (fun a i => by
          show ((revertRearrange2DFromLR_traced fuel a rowLen colLen rC i).map
            (fun a1 => rowLiftTraced a1 colLen rC i)).map Prod.fst =
            (revertRearrange2DFromLR fuel a.1 rowLen colLen rC i).map
              (fun a1 => rowLift a1 colLen rC i)
          rw [← revertRearrange2DFromLR_traced_erase, Option.map_map, Option.map_map]
          congr 1
          funext a1
          exact rowLiftTraced_fst a1 colLen rC i)
        (List.range rR) t1
      rw [← h2]
      cases hB : (List.range rR).foldlM
        (fun a i => (revertRearrange2DFromLR_traced fuel a rowLen colLen rC i).map
          (fun a1 => rowLiftTraced a1 colLen rC i)) t1 with
      | none => rfl
      | some t2 =>
        simp only [Option.map_some', Option.some_bind]
        exact ih t2 (rR * 2) (rC * 2)

theorem toInt32_of_lt (u : Nat) (h : u < 2 ^ 31) : toInt32 u = (u : Int) := by
  have h31 : (2 : Nat) ^ 31 = 2147483648 := by norm_num
  have h32 : (2 : Nat) ^ 32 = 4294967296 := by norm_num
  rw [h31] at h
  unfold toInt32
  rw [h31, h32, Nat.mod_eq_of_lt (by omega), if_pos h]

theorem eventsIn_true (N : Nat) : EventsIn N (fun _ => True) :=
  ⟨fun _ _ => trivial, fun _ _ _ => trivial, fun _ _ _ => ⟨trivial, trivial⟩,
    fun _ => trivial, fun _ => trivial⟩

/-- While the buffer has at most `2^31` cells, every event that stays inside
it is in bounds: the `int` offsets of the lifting loops hold the exact
index. -/
theorem eventsIn_inBounds (N : Nat) (hN : N * N ≤ 2 ^ 31) :
    EventsIn N (Event.InBounds (N * N)) := by
  refine ⟨fun n hn => hn, fun q k hk => hk, ?_, fun _ => trivial, fun _ => trivial⟩
  intro n v hnv
  have h1 : toInt32 n = (n : Int) := toInt32_of_lt n (by omega)
  have h2 : toInt32 v = (v : Int) := toInt32_of_lt v (by omega)
  rw [h1, h2]
  refine ⟨⟨by omega, by omega⟩, ⟨by omega, ?_⟩⟩
  have : ((n + v : Nat) : Int) < ((N * N : Nat) : Int) := by exact_mod_cast hnv
  push_cast at this
  push_cast
  exact this

/-- One forward pass over `L` lines keeps `Q` on the trace and adds `L`
packer calls of length `L`. -/
theorem fwdRowsTraced_ok (Q : Event → Prop) (fuel rowLen N L : Nat) (hQ : EventsIn N Q)
    (hLN : L ≤ N) (hL : L % 2 = 0)
    (c : List Nat) (t t' : Buf × List Event) (ht : TraceOk Q Event.packLen c t.2)
    (hrun : (List.range L).foldlM
      (fun a i => rearrange2DFromLR_traced fuel (rowLiftTraced a N L i) rowLen N L i) t =
      some t') :
    TraceOk Q Event.packLen (c ++ List.replicate L L) t'.2 := by
  obtain ⟨hQarr, hQmask, hQlift, hQpack, -⟩ := hQ
  refine foldlM_range_inv _
    (fun i a => TraceOk Q Event.packLen (c ++ List.replicate i L) a.2) L t t' ?_
    (by simpa using ht) hrun
  intro i a a' hi ha hstep
  have haddr : ∀ x, x < L → Q (Event.arr (i * N + x)) :=
    fun x hx => hQarr _ (addr_row_lt N i x (by omega) (by omega))
  have hlift : ∀ x, x + 1 < L → Q (Event.arrAt (toInt32 (i * N + x))) ∧
      Q (Event.arrAt (toInt32 (i * N + x) + toInt32 1)) := by
    intro x hx
    have := addr_row_lt N i (x + 1) (by omega) (by omega)
    exact hQlift (i * N + x) 1 (by omega)
  have h1 := rowLiftTraced_ok Q Event.packLen _ (fun _ => rfl) a N L i hL hlift ha
  have h2 := rearrange2DFromLR_traced_ok Q fuel _ a' rowLen N L i _ hL haddr hQmask (hQpack L)
    h1 hstep
  rw [List.replicate_succ', ← List.append_assoc]
  exact h2

theorem fwdColsTraced_ok (Q : Event → Prop) (fuel rowLen N L : Nat) (hQ : EventsIn N Q)
    (hLN : L ≤ N) (hL : L % 2 = 0)
    (c : List Nat) (t t' : Buf × List Event) (ht : TraceOk Q Event.packLen c t.2)
    (hrun : (List.range L).foldlM
      (fun a j => rearrange2DFromTC_traced fuel (colLiftTraced a N L j) rowLen N L j) t =
      some t') :
    TraceOk Q Event.packLen (c ++ List.replicate L L) t'.2 := by
  obtain ⟨hQarr, hQmask, hQlift, hQpack, -⟩ := hQ
  refine foldlM_range_inv _
    (fun i a => TraceOk Q Event.packLen (c ++ List.replicate i L) a.2) L t t' ?_
    (by simpa using ht) hrun
  intro j a a' hj ha hstep
  have haddr : ∀ x, x < L → Q (Event.arr (j + x * N)) :=
    fun x hx => hQarr _ (addr_col_lt N j x (by omega) (by omega))
  have hlift : ∀ x, x + 1 < L → Q (Event.arrAt (toInt32 (j + x * N))) ∧
      Q (Event.arrAt (toInt32 (j + x * N) + toInt32 N)) := by
    intro x hx
    have := addr_col_lt N j (x + 1) (by omega) (by omega)
    rw [Nat.add_mul, Nat.one_mul] at this
    exact hQlift (j + x * N) N (by omega)
  have h1 := colLiftTraced_ok Q Event.packLen _ (fun _ => rfl) a N L j hL hlift ha
  have h2 := rearrange2DFromTC_traced_ok Q fuel _ a' rowLen N L j _ hL haddr hQmask (hQpack L)
    h1 hstep
  rw [List.replicate_succ', ← List.append_assoc]
  exact h2

theorem invColsTraced_ok (Q : Event → Prop) (fuel rowLen N L : Nat) (hQ : EventsIn N Q)
    (hLN : L ≤ N) (hL : L % 2 = 0)
    (c : List Nat) (t t' : Buf × List Event) (ht : TraceOk Q Event.unpackLen c t.2)
    (hrun : (List.range L).foldlM
      (fun a j => (revertRearrange2DFromTC_traced fuel a rowLen N L j).map
        (fun a1 => colLiftTraced a1 N L j)) t = some t') :
    TraceOk Q Event.unpackLen (c ++ List.replicate L L) t'.2 := by
  obtain ⟨hQarr, hQmask, hQlift, -, hQunpack⟩ := hQ
  refine foldlM_range_inv _
    (fun i a => TraceOk Q Event.unpackLen (c ++ List.replicate i L) a.2) L t t' ?_
    (by simpa using ht) hrun
  intro j a a' hj ha hstep
  have haddr : ∀ x, x < L → Q (Event.arr (j + x * N)) :=
    fun x hx => hQarr _ (addr_col_lt N j x (by omega) (by omega))
  have hlift : ∀ x, x + 1 < L → Q (Event.arrAt (toInt32 (j + x * N))) ∧
      Q (Event.arrAt (toInt32 (j + x * N) + toInt32 N)) := by
    intro x hx
    have := addr_col_lt N j (x + 1) (by omega) (by omega)
    rw [Nat.add_mul, Nat.one_mul] at this
    exact hQlift (j + x * N) N (by omega)
  simp only [Option.map_eq_some'] at hstep
  obtain ⟨a1, h1, rfl⟩ := hstep
  have h2 := revertRearrange2DFromTC_traced_ok Q fuel a a1 rowLen N L j _ hL haddr hQmask
    (hQunpack L) ha h1
  rw [List.replicate_succ', ← List.append_assoc]
  exact colLiftTraced_ok Q Event.unpackLen _ (fun _ => rfl) a1 N L j hL hlift h2

theorem invRowsTraced_ok (Q : Event → Prop) (fuel rowLen N L : Nat) (hQ : EventsIn N Q)
    (hLN : L ≤ N) (hL : L % 2 = 0)
    (c : List Nat) (t t' : Buf × List Event) (ht : TraceOk Q Event.unpackLen c t.2)
    (hrun : (List.range L).foldlM
      (fun a i => (revertRearrange2DFromLR_traced fuel a rowLen N L i).map
        (fun a1 => rowLiftTraced a1 N L i)) t = some t') :
    TraceOk Q Event.unpackLen (c ++ List.replicate L L) t'.2 := by
  obtain ⟨hQarr, hQmask, hQlift, -, hQunpack⟩ := hQ
  refine foldlM_range_inv _
    (fun i a => TraceOk Q Event.unpackLen (c ++ List.replicate i L) a.2) L t t' ?_
    (by simpa using ht) hrun
  intro i a a' hi ha hstep
  have haddr : ∀ x, x < L → Q (Event.arr (i * N + x)) :=
    fun x hx => hQarr _ (addr_row_lt N i x (by omega) (by omega))
  have hlift : ∀ x, x + 1 < L → Q (Event.arrAt (toInt32 (i * N + x))) ∧
      Q (Event.arrAt (toInt32 (i * N + x) + toInt32 1)) := by
    intro x hx
    have := addr_row_lt N i (x + 1) (by omega) (by omega)
    exact hQlift (i * N + x) 1 (by omega)
  simp only [Option.map_eq_some'] at hstep
  obtain ⟨a1, h1, rfl⟩ := hstep
  have h2 := revertRearrange2DFromLR_traced_ok Q fuel a a1 rowLen N L i _ hL haddr hQmask
    (hQunpack L) ha h1
  rw [List.replicate_succ', ← List.append_assoc]
  exact rowLiftTraced_ok Q Event.unpackLen _ (fun _ => rfl) a1 N L i hL hlift h2

theorem replicate_two_mul (L : Nat) (c : List Nat) :
    c ++ List.replicate L L ++ List.replicate L L = c ++ List.replicate (2 * L) L := by
  rw [List.append_assoc, List.append_replicate_replicate, two_mul]

/-- The trace of the forward loop from an active region of side `2 ^ k`. -/
theorem waveletTransform2D_loopTraced_ok (Q : Event → Prop) (fuel rowLen N : Nat)
    (hQ : EventsIn N Q) :
    ∀ (level k : Nat) (c : List Nat) (t t' : Buf × List Event), level ≤ k → 2 ^ k ≤ N →
      TraceOk Q Event.packLen c t.2 →
      waveletTransform2D_loopTraced fuel rowLen N level t (2 ^ k) (2 ^ k) = some t' →
      TraceOk Q Event.packLen (c ++ levelCalls (fun s => k - s) level) t'.2 := by
  intro level
  induction level with
  | zero =>
    intro k c t t' _ _ ht hrun
    simp only [waveletTransform2D_loopTraced] at hrun
    cases hrun
    simpa [levelCalls] using ht
  | succ level ih =>
    intro k c t t' hlev hk ht hrun
    obtain ⟨q, rfl⟩ : ∃ q, k = q + 1 := ⟨k - 1, by omega⟩
    simp only [waveletTransform2D_loopTraced, Option.bind_eq_bind, Option.bind_eq_some] at hrun
    obtain ⟨t1, h1, t2, h2, h3⟩ := hrun
    have hev := two_pow_even (q + 1) (by omega)
    have ok1 := fwdRowsTraced_ok Q fuel rowLen N (2 ^ (q + 1)) hQ hk hev c t t1 ht h1
    have ok2 := fwdColsTraced_ok Q fuel rowLen N (2 ^ (q + 1)) hQ hk hev _ t1 t2 ok1 h2
    rw [two_pow_half] at h3
    have hq : 2 ^ q ≤ N := le_trans (Nat.pow_le_pow_right (by omega) (by omega)) hk
    have ok3 := ih q _ t2 t' (by omega) hq ok2 h3
    rw [replicate_two_mul, List.append_assoc] at ok3
    rw [levelCalls_succ_left]
    have e : (fun s => q + 1 - (s + 1)) = (fun s => q - s) := by
      funext s
      omega
    rw [e]
    exact ok3

/-- The trace of the inverse loop from an active region of side `2 ^ k`. -/
theorem invWaveletTransform2D_loopTraced_ok (Q : Event → Prop) (fuel rowLen N : Nat)
    (hQ : EventsIn N Q) :
    ∀ (level k : Nat) (c : List Nat) (t t' : Buf × List Event), 1 ≤ k →
      2 ^ (k + level) ≤ 2 * N →
      TraceOk Q Event.unpackLen c t.2 →
      invWaveletTransform2D_loopTraced fuel rowLen N level t (2 ^ k) (2 ^ k) = some t' →
      TraceOk Q Event.unpackLen (c ++ levelCalls (fun s => k + s) level) t'.2 := by
  intro level
  induction level with
  | zero =>
    intro k c t t' _ _ ht hrun
    simp only [invWaveletTransform2D_loopTraced] at hrun
    cases hrun
    simpa [levelCalls] using ht
  | succ level ih =>
    intro k c t t' hk1 hk ht hrun
    simp only [invWaveletTransform2D_loopTraced, Option.bind_eq_bind, Option.bind_eq_some]
      at hrun
    obtain ⟨t1, h1, t2, h2, h3⟩ := hrun
    have hev := two_pow_even k hk1
    have hkN : 2 ^ k ≤ N := by
      have h4 : 2 ^ (k + 1) ≤ 2 ^ (k + (level + 1)) := Nat.pow_le_pow_right (by omega) (by omega)
      rw [pow_succ] at h4
      omega
    have ok1 := invColsTraced_ok Q fuel rowLen N (2 ^ k) hQ hkN hev c t t1 ht h1
    have ok2 := invRowsTraced_ok Q fuel rowLen N (2 ^ k) hQ hkN hev _ t1 t2 ok1 h2
    rw [← pow_succ] at h3
    have ok3 := ih (k + 1) _ t2 t' (by omega)
      (by rw [show k + 1 + level = k + (level + 1) by omega]; exact hk) ok2 h3
    rw [replicate_two_mul, List.append_assoc] at ok3
    rw [levelCalls_succ_left]
    have e : (fun s => k + 1 + s) = (fun s => k + (s + 1)) := by
      funext s
      omega
    rw [e] at ok3
    exact ok3

/-- The forward transform on a `2 ^ m` square buffer: it returns, the traced
run returns the same buffer, all its events satisfy `Q` and its packer
calls are those of `levelCalls`. -/
theorem waveletTransform2D_traced_ok (Q : Event → Prop) (fuel m level : Nat)
    (hQ : EventsIn (2 ^ m) Q) (hlev : level ≤ m)
    (hfuel : 2 ^ m - 2 ≤ fuel) (arr : Buf) :
    ∃ out log, waveletTransform2D_traced fuel arr (2 ^ m) (2 ^ m) level = some (out, log) ∧
      waveletTransform2D fuel arr (2 ^ m) (2 ^ m) level = some out ∧
      TraceOk Q Event.packLen (levelCalls (fun s => m - s) level) log := by
  have herase := waveletTransform2D_loopTraced_erase fuel (2 ^ m) (2 ^ m) level (arr, [])
    (2 ^ m) (2 ^ m)
  have hval := waveletTransform2D_eq fuel m level hlev hfuel arr
  unfold waveletTransform2D at hval
  unfold waveletTransform2D_traced waveletTransform2D
  rw [hval] at herase
  cases hrun : waveletTransform2D_loopTraced fuel (2 ^ m) (2 ^ m) level (arr, [])
      (2 ^ m) (2 ^ m) with
  | none => rw [hrun] at herase; cases herase
  | some t' =>
    rw [hrun] at herase
    have hfst : t'.1 = fwdSpec (2 ^ m) level (2 ^ m) arr := by
      simpa using herase
    have ok := waveletTransform2D_loopTraced_ok Q fuel (2 ^ m) (2 ^ m) hQ level m [] (arr, []) t'
      hlev (le_refl _) ⟨fun e he => absurd he (List.not_mem_nil e), rfl⟩ hrun
    refine ⟨t'.1, t'.2, rfl, ?_, ?_⟩
    · rw [hval, hfst]
    · simpa using ok

/-- The inverse transform on a `2 ^ m` square buffer: it returns, the traced
run returns the same buffer, all its events satisfy `Q` and its unpacker
calls are those of `levelCalls`. -/
theorem invWaveletTransform2D_traced_ok (Q : Event → Prop) (fuel m level : Nat)
    (hQ : EventsIn (2 ^ m) Q) (hlev : level ≤ m)
    (hfuel : 2 ^ m - 2 ≤ fuel) (arr : Buf) :
    ∃ out log, invWaveletTransform2D_traced fuel arr (2 ^ m) (2 ^ m) level = some (out, log) ∧
      invWaveletTransform2D fuel arr (2 ^ m) (2 ^ m) level = some out ∧
      TraceOk Q Event.unpackLen
        (levelCalls (fun s => m + 1 - level + s) level) log := by
  have herase := invWaveletTransform2D_loopTraced_erase fuel (2 ^ m) (2 ^ m) level (arr, [])
    (2 * 2 ^ m / 2 ^ level) (2 * 2 ^ m / 2 ^ level)
  have hval := invWaveletTransform2D_eq fuel m level hlev hfuel arr
  unfold invWaveletTransform2D at hval
  unfold invWaveletTransform2D_traced invWaveletTransform2D
  rw [hval] at herase
  cases hrun : invWaveletTransform2D_loopTraced fuel (2 ^ m) (2 ^ m) level (arr, [])
      (2 * 2 ^ m / 2 ^ level) (2 * 2 ^ m / 2 ^ level) with
  | none => rw [hrun] at herase; cases herase
  | some t' =>
    rw [hrun] at herase
    have hfst : t'.1 = invSpec (2 ^ m) level (2 ^ (m + 1 - level)) arr := by
      simpa using herase
    have hrun2 := hrun
    rw [two_mul_div_pow m level hlev] at hrun2
    have ok := invWaveletTransform2D_loopTraced_ok Q fuel (2 ^ m) (2 ^ m) hQ level (m + 1 - level) []
      (arr, []) t' (by omega)
      (by rw [show m + 1 - level + level = m + 1 by omega, pow_succ]; omega)
      ⟨fun e he => absurd he (List.not_mem_nil e), rfl⟩ hrun2
    refine ⟨t'.1, t'.2, rfl, ?_, ?_⟩
    · rw [hval, hfst]
    · simpa using ok

theorem levelCalls_eq_flatMap (ex F : Nat → Nat) (level : Nat)
    (h : ∀ s, s < level → F s = 2 ^ ex s) :
    levelCalls ex level =
      (List.range level).flatMap (fun k => List.replicate (2 * F k) (F k)) := by
  induction level with
  | zero => rfl
  | succ level ih =>
    rw [levelCalls_succ_right, ih (fun s hs => h s (by omega)), List.range_succ,
      List.flatMap_append, List.flatMap_singleton, h level (by omega)]

/-! ## Events stay in the trace -/

theorem gRearrangeTraced_mem (addr : Nat → Nat) (inA : Nat → Prop) [DecidablePred inA]
    (nextA nextB : Nat → Nat) (mark : Nat → Prop) [DecidablePred mark] (idx : Nat → Nat)
    (guard : Prop) [Decidable guard] (quartLen : Nat) (seeds : List Nat) (fuel : Nat)
    (st : Buf × (Nat → Nat)) (log : List Event) (out : (Buf × (Nat → Nat)) × List Event)
    (e : Event) (he : e ∈ log)
    (hrun : gRearrangeTraced addr inA nextA nextB mark idx guard quartLen seeds fuel st log =
      some out) : e ∈ out.2 := by
  unfold gRearrangeTraced at hrun
  refine foldlM_inv _ (fun t => e ∈ t.2) seeds _ out ?_ ?_ hrun
  · intro j _ t t' ht hstep
    by_cases hskip : guard ∧ t.1.2 (idx j) ≠ 0
    · simp only [if_pos hskip] at hstep
      cases hstep
      exact List.mem_append_left _ ht
    · simp only [if_neg hskip] at hstep
      cases hd : doWhile (gBodyTraced addr inA nextA nextB mark idx quartLen j)
          (fun u => decide (u.1.indexTemp02 ≠ j)) fuel
          ({ arr := t.1.1, indexMask := t.1.2, valueTemp := 0, indexTemp02 := j },
            t.2 ++ (if guard then [Event.indexMask quartLen (idx j)] else [])) with
      | none => rw [hd] at hstep; cases hstep
      | some u =>
        rw [hd] at hstep
        cases hstep
        exact doWhile_inv _ _ (fun u => e ∈ u.2)
          (fun s hs => List.mem_append_left _ hs) fuel _ u (List.mem_append_left _ ht) hd
  · exact List.mem_append_left _ he

theorem rearrange2DFromLR_traced_mem (fuel : Nat) (t t' : Buf × List Event)
    (rowLen colLen L i : Nat) (e : Event) (he : e ∈ t.2)
    (hrun : rearrange2DFromLR_traced fuel t rowLen colLen L i = some t') : e ∈ t'.2 := by
  unfold rearrange2DFromLR_traced at hrun
  simp only [Option.map_eq_some'] at hrun
  obtain ⟨u, hu, rfl⟩ := hrun
  exact gRearrangeTraced_mem _ _ _ _ _ _ _ _ _ _ _ _ u e (List.mem_append_left _ he) hu

theorem rearrange2DFromTC_traced_mem (fuel : Nat) (t t' : Buf × List Event)
    (rowLen colLen L j : Nat) (e : Event) (he : e ∈ t.2)
    (hrun : rearrange2DFromTC_traced fuel t rowLen colLen L j = some t') : e ∈ t'.2 := by
  unfold rearrange2DFromTC_traced at hrun
  simp only [Option.map_eq_some'] at hrun
  obtain ⟨u, hu, rfl⟩ := hrun
  exact gRearrangeTraced_mem _ _ _ _ _ _ _ _ _ _ _ _ u e (List.mem_append_left _ he) hu

theorem rowLiftTraced_mem (t : Buf × List Event) (colLen L i : Nat) (e : Event)
    (he : e ∈ t.2) : e ∈ (rowLiftTraced t colLen L i).2 := by
  unfold rowLiftTraced
  exact foldl_inv (fun a j => liftStepTraced a (i * colLen + j) 1)
    (fun a : Buf × List Event => e ∈ a.2) _ t
    (fun _ _ a ha => List.mem_append_left _ ha) he

theorem colLiftTraced_mem (t : Buf × List Event) (colLen L j : Nat) (e : Event)
    (he : e ∈ t.2) : e ∈ (colLiftTraced t colLen L j).2 := by
  unfold colLiftTraced
  exact foldl_inv (fun a i => liftStepTraced a (j + i * colLen) colLen)
    (fun a : Buf × List Event => e ∈ a.2) _ t
    (fun _ _ a ha => List.mem_append_left _ ha) he

/-- The lifting loop of row `i` reads `*(arr + n)` with `int n = i*colLen + 0`
in its first iteration. -/
theorem rowLiftTraced_first (t : Buf × List Event) (colLen L i : Nat) (h2 : 2 ≤ L) :
    Event.arrAt (toInt32 (i * colLen + 0)) ∈ (rowLiftTraced t colLen L i).2 := by
  unfold rowLiftTraced
  obtain ⟨k, hk⟩ : ∃ k, (L + 1) / 2 = k + 1 := ⟨(L + 1) / 2 - 1, by omega⟩
  rw [hk, List.range'_succ, List.foldl_cons]
  refine foldl_inv (fun a j => liftStepTraced a (i * colLen + j) 1)
    (fun a : Buf × List Event => Event.arrAt (toInt32 (i * colLen + 0)) ∈ a.2) _ _
    (fun _ _ a ha => List.mem_append_left _ ha) ?_
  exact List.mem_append_right _ (List.mem_cons_self _ _)

/-- The row pass of one level reaches the lifting loop of every row below
`decimatingRowLen`. -/
theorem fwdRowsTraced_mem (fuel rowLen colLen dR dC i0 : Nat) (hi0 : i0 < dR) (h2 : 2 ≤ dC)
    (t t' : Buf × List Event)
    (hrun : (List.range dR).foldlM
      (fun a i => rearrange2DFromLR_traced fuel (rowLiftTraced a colLen dC i) rowLen colLen dC i)
      t = some t') :
    Event.arrAt (toInt32 (i0 * colLen + 0)) ∈ t'.2 := by
  refine foldlM_range_inv _
    (fun k a => i0 < k → Event.arrAt (toInt32 (i0 * colLen + 0)) ∈ a.2) dR t t' ?_
    (fun h => absurd h (Nat.not_lt_zero i0)) hrun hi0
  intro k a a' _ ha hstep hk
  rcases Nat.lt_or_ge i0 k with h | h
  · exact rearrange2DFromLR_traced_mem fuel _ a' rowLen colLen dC k _
      (rowLiftTraced_mem a colLen dC k _ (ha h)) hstep
  · have e : i0 = k := by omega
    subst e
    exact rearrange2DFromLR_traced_mem fuel _ a' rowLen colLen dC i0 _
      (rowLiftTraced_first a colLen dC i0 h2) hstep

theorem waveletTransform2D_loopTraced_mem (fuel rowLen colLen : Nat) (e : Event) :
    ∀ (level : Nat) (t t' : Buf × List Event) (dR dC : Nat), e ∈ t.2 →
      waveletTransform2D_loopTraced fuel rowLen colLen level t dR dC = some t' → e ∈ t'.2 := by
  intro level
  induction level with
  | zero =>
    intro t t' dR dC he hrun
    simp only [waveletTransform2D_loopTraced] at hrun
    cases hrun
    exact he
  | succ level ih =>
    intro t t' dR dC he hrun
    simp only [waveletTransform2D_loopTraced, Option.bind_eq_bind, Option.bind_eq_some] at hrun
    obtain ⟨t1, h1, t2, h2, h3⟩ := hrun
    have m1 : e ∈ t1.2 := foldlM_inv _ (fun a => e ∈ a.2) _ t t1
      (fun i _ a a' ha hstep => rearrange2DFromLR_traced_mem fuel _ a' rowLen colLen dC i e
        (rowLiftTraced_mem a colLen dC i e ha) hstep) he h1
    have m2 : e ∈ t2.2 := foldlM_inv _ (fun a => e ∈ a.2) _ t1 t2
      (fun j _ a a' ha hstep => rearrange2DFromTC_traced_mem fuel _ a' rowLen colLen dR j e
        (colLiftTraced_mem a colLen dR j e ha) hstep) m1 h2
    exact ih t2 t' _ _ m2 h3

/-- With at least one level, the trace of the forward transform holds the
first lifting access of every row. -/
theorem waveletTransform2D_traced_row_event (fuel : Nat) (arr : Buf)
    (rowLen colLen level i0 : Nat) (hi0 : i0 < rowLen) (h2 : 2 ≤ colLen) (out : Buf)
    (log : List Event)
    (hrun : waveletTransform2D_traced fuel arr rowLen colLen (level + 1) = some (out, log)) :
    Event.arrAt (toInt32 (i0 * colLen + 0)) ∈ log := by
  unfold waveletTransform2D_traced at hrun
  simp only [waveletTransform2D_loopTraced, Option.bind_eq_bind, Option.bind_eq_some] at hrun
  obtain ⟨t1, h1, t2, h3, h4⟩ := hrun
  have m1 := fwdRowsTraced_mem fuel rowLen colLen rowLen colLen i0 hi0 h2 (arr, []) t1 h1
  have m2 : Event.arrAt (toInt32 (i0 * colLen + 0)) ∈ t2.2 :=
    foldlM_inv _ (fun a => Event.arrAt (toInt32 (i0 * colLen + 0)) ∈ a.2) _ t1 t2
      (fun j _ a a' ha hstep => rearrange2DFromTC_traced_mem fuel _ a' rowLen colLen rowLen j _
        (colLiftTraced_mem a colLen rowLen j _ ha) hstep) m1 h3
  exact waveletTransform2D_loopTraced_mem fuel rowLen colLen _ level t2 (out, log) _ _ m2 h4

/-- C17, counterexample: for `N = 2 ^ 16 = 65536` and level 1 the forward
transform reaches the lifting loop of row `2 ^ 15 = 32768`, whose first access
is `*(arr + n)` with `int n = i*colLen + j`; that `int` is `-2147483648`, which
is not an index of the buffer. -/
theorem transforms_index_unsafe_large :
    ∃ out log,
      waveletTransform2D_traced (2 ^ 16 - 2) (fun _ => 0) (2 ^ 16) (2 ^ 16) 1 = some (out, log) ∧
      Event.arrAt (toInt32 (2 ^ 15 * 2 ^ 16 + 0)) ∈ log ∧
      toInt32 (2 ^ 15 * 2 ^ 16 + 0) = -2147483648 ∧
      ¬ Event.InBounds (2 ^ 16 * 2 ^ 16) (Event.arrAt (toInt32 (2 ^ 15 * 2 ^ 16 + 0))) := by
  obtain ⟨out, log, h, -, -⟩ := waveletTransform2D_traced_ok (fun _ => True) (2 ^ 16 - 2) 16 1
    (eventsIn_true _) (by norm_num) (le_refl _) (fun _ => 0)
  have hz : toInt32 (2 ^ 15 * 2 ^ 16 + 0) = -2147483648 := by
    unfold toInt32
    norm_num
  refine ⟨out, log, h, ?_, hz, ?_⟩
  · exact waveletTransform2D_traced_row_event (2 ^ 16 - 2) (fun _ => 0) (2 ^ 16) (2 ^ 16) 0
      (2 ^ 15) (by norm_num) (by norm_num) out log h
  · intro hb
    have h0 : (0 : Int) ≤ toInt32 (2 ^ 15 * 2 ^ 16 + 0) := hb.1
    rw [hz] at h0
    omega

/-- C17 (amended): for `N = 2 ^ m` with `N * N ≤ 2 ^ 31` and `1 ≤ level ≤ m`,
both transforms return, and in the trace of all their accesses (the rearrange
functions included) every `arr` subscript is below `N * N`, every `int` offset
of a lifting access lies in `[0, N * N)` and every `indexMask` index is below
the length of its table; no access to a table of length 0 occurs. -/
theorem transforms_index_safe (N m level fuel : Nat) (hN : N = 2 ^ m)
    (hsize : N * N ≤ 2 ^ 31) (_h1 : 1 ≤ level)
    (hlev : level ≤ m) (hfuel : N - 2 ≤ fuel) (arr : Buf) :
    (∃ out log, waveletTransform2D_traced fuel arr N N level = some (out, log) ∧
      waveletTransform2D fuel arr N N level = some out ∧
      (∀ n, Event.arr n ∈ log → n < N * N) ∧
      (∀ z, Event.arrAt z ∈ log → 0 ≤ z ∧ z < ((N * N : Nat) : Int)) ∧
      (∀ q k, Event.indexMask q k ∈ log → k < q) ∧
      (∀ k, Event.indexMask 0 k ∉ log)) ∧
    (∃ out log, invWaveletTransform2D_traced fuel arr N N level = some (out, log) ∧
      invWaveletTransform2D fuel arr N N level = some out ∧
      (∀ n, Event.arr n ∈ log → n < N * N) ∧
      (∀ z, Event.arrAt z ∈ log → 0 ≤ z ∧ z < ((N * N : Nat) : Int)) ∧
      (∀ q k, Event.indexMask q k ∈ log → k < q) ∧
      (∀ k, Event.indexMask 0 k ∉ log)) := by
  subst hN
  have hQ := eventsIn_inBounds (2 ^ m) hsize
  constructor
  · obtain ⟨out, log, h1, h2, ok⟩ := waveletTransform2D_traced_ok
      (Event.InBounds (2 ^ m * 2 ^ m)) fuel m level hQ hlev hfuel arr
    exact ⟨out, log, h1, h2, fun n hn => ok.1 _ hn, fun z hz => ok.1 _ hz,
      fun q k hk => ok.1 _ hk, fun k hk => absurd (ok.1 _ hk) (Nat.not_lt_zero k)⟩
  · obtain ⟨out, log, h1, h2, ok⟩ := invWaveletTransform2D_traced_ok
      (Event.InBounds (2 ^ m * 2 ^ m)) fuel m level hQ hlev hfuel arr
    exact ⟨out, log, h1, h2, fun n hn => ok.1 _ hn, fun z hz => ok.1 _ hz,
      fun q k hk => ok.1 _ hk, fun k hk => absurd (ok.1 _ hk) (Nat.not_lt_zero k)⟩

/-- C17 (amended), witness: a 4 x 4 buffer, two levels. -/
theorem transforms_index_safe_witness :
    (4 = 2 ^ 2 ∧ 4 * 4 ≤ 2 ^ 31 ∧ 1 ≤ 2 ∧ 2 ≤ 2 ∧ 4 - 2 ≤ 2) ∧
    (∃ out log, waveletTransform2D_traced 2 (fun k => k) 4 4 2 = some (out, log) ∧
      waveletTransform2D 2 (fun k => k) 4 4 2 = some out ∧
      (∀ n, Event.arr n ∈ log → n < 4 * 4) ∧
      (∀ z, Event.arrAt z ∈ log → 0 ≤ z ∧ z < ((4 * 4 : Nat) : Int)) ∧
      (∀ q k, Event.indexMask q k ∈ log → k < q) ∧
      (∀ k, Event.indexMask 0 k ∉ log)) ∧
    (∃ out log, invWaveletTransform2D_traced 2 (fun k => k) 4 4 2 = some (out, log) ∧
      invWaveletTransform2D 2 (fun k => k) 4 4 2 = some out ∧
      (∀ n, Event.arr n ∈ log → n < 4 * 4) ∧
      (∀ z, Event.arrAt z ∈ log → 0 ≤ z ∧ z < ((4 * 4 : Nat) : Int)) ∧
      (∀ q k, Event.indexMask q k ∈ log → k < q) ∧
      (∀ k, Event.indexMask 0 k ∉ log)) :=
  ⟨⟨by decide, by decide, by decide, by decide, by decide⟩,
    transforms_index_safe 4 2 2 2 (by decide) (by decide) (by decide) (by decide) (by decide)
      (fun k => k)⟩

/-- C18: for `N = 2 ^ m` and `1 ≤ level ≤ m`, the packer calls of
`waveletTransform2D` have, in order, the segment lengths `N / 2 ^ k` for
`k = 0, ..., level - 1` (`2 * (N / 2 ^ k)` calls at level `k`); the unpacker
calls of `invWaveletTransform2D` have the same lengths in reverse order,
starting at `2 * N / 2 ^ level`; every such length is `2 ^ e` with `1 ≤ e`, so
it is even. -/
theorem transforms_segment_lengths (N m level fuel : Nat) (hN : N = 2 ^ m) (h1 : 1 ≤ level)
    (hlev : level ≤ m) (hfuel : N - 2 ≤ fuel) (arr arr2 : Buf) :
    ∃ out log out2 log2,
      waveletTransform2D_traced fuel arr N N level = some (out, log) ∧
      invWaveletTransform2D_traced fuel arr2 N N level = some (out2, log2) ∧
      log.filterMap Event.packLen =
        (List.range level).flatMap (fun k => List.replicate (2 * (N / 2 ^ k)) (N / 2 ^ k)) ∧
      log2.filterMap Event.unpackLen = (log.filterMap Event.packLen).reverse ∧
      (log2.filterMap Event.unpackLen).head? = some (2 * N / 2 ^ level) ∧
      (∀ len, len ∈ log.filterMap Event.packLen ∨ len ∈ log2.filterMap Event.unpackLen →
        ∃ e, 1 ≤ e ∧ len = 2 ^ e ∧ len % 2 = 0) := by
  subst hN
  obtain ⟨out, log, hf, -, okf⟩ := waveletTransform2D_traced_ok (fun _ => True) fuel m level
    (eventsIn_true _) hlev hfuel arr
  obtain ⟨out2, log2, hi, -, oki⟩ := invWaveletTransform2D_traced_ok (fun _ => True) fuel m level
    (eventsIn_true _) hlev hfuel arr2
  refine ⟨out, log, out2, log2, hf, hi, ?_, ?_, ?_, ?_⟩
  · rw [okf.2]
    exact levelCalls_eq_flatMap _ (fun k => 2 ^ m / 2 ^ k) level
      (fun s hs => two_pow_div_pow m s (by omega))
  · rw [okf.2, oki.2, levelCalls_reverse m level (by omega)]
  · rw [oki.2, levelCalls_head _ level h1, two_mul_div_pow m level hlev]
    rfl
  · intro len hlen
    rcases hlen with h | h
    · rw [okf.2] at h
      obtain ⟨s, hs, rfl⟩ := mem_levelCalls _ level len h
      exact ⟨m - s, by omega, rfl, two_pow_even _ (by omega)⟩
    · rw [oki.2] at h
      obtain ⟨s, hs, rfl⟩ := mem_levelCalls _ level len h
      exact ⟨m + 1 - level + s, by omega, rfl, two_pow_even _ (by omega)⟩

/-- C18, witness: an 8 x 8 buffer, three levels. -/
theorem transforms_segment_lengths_witness :
    (8 = 2 ^ 3 ∧ 1 ≤ 3 ∧ 3 ≤ 3 ∧ 8 - 2 ≤ 6) ∧
    ∃ out log out2 log2,
      waveletTransform2D_traced 6 (fun k => k) 8 8 3 = some (out, log) ∧
      invWaveletTransform2D_traced 6 (fun _ => 0) 8 8 3 = some (out2, log2) ∧
      log.filterMap Event.packLen =
        (List.range 3).flatMap (fun k => List.replicate (2 * (8 / 2 ^ k)) (8 / 2 ^ k)) ∧
      log2.filterMap Event.unpackLen = (log.filterMap Event.packLen).reverse ∧
      (log2.filterMap Event.unpackLen).head? = some (2 * 8 / 2 ^ 3) ∧
      (∀ len, len ∈ log.filterMap Event.packLen ∨ len ∈ log2.filterMap Event.unpackLen →
        ∃ e, 1 ≤ e ∧ len = 2 ^ e ∧ len % 2 = 0) :=
  ⟨⟨by decide, by decide, by decide, by decide⟩,
    transforms_segment_lengths 8 3 3 6 (by decide) (by decide) (by decide) (by decide)
      (fun k => k) (fun _ => 0)⟩

/-! ## Level 0, the validator loop, negative fluctuations -/

/-- C25: with `level = 0` both transforms return the buffer they were given,
for every buffer, every `rowLen` and `colLen` (and every iteration budget),
so every cell is unchanged. -/
theorem level_zero_identity (fuel : Nat) (arr : Buf) (rowLen colLen : Nat) :
    waveletTransform2D fuel arr rowLen colLen 0 = some arr ∧
    invWaveletTransform2D fuel arr rowLen colLen 0 = some arr ∧
    waveletTransform2D_traced fuel arr rowLen colLen 0 = some (arr, []) ∧
    invWaveletTransform2D_traced fuel arr rowLen colLen 0 = some (arr, []) :=
  ⟨rfl, rfl, rfl, rfl⟩

theorem validateLength_loop_total_pow (fuel : Nat) : ∀ (pI length : Nat),
    1 ≤ length → length < 2 ^ fuel → ∃ r, validateLength_loop fuel pI length = some r := by
  induction fuel with
  | zero => intro pI length h1 h2; simp at h2; omega
  | succ n ih =>
    intro pI length h1 h3
    unfold validateLength_loop
    split_ifs with h4 h5
    · exact ⟨_, rfl⟩
    · rw [pow_succ] at h3
      exact ih (pI + 1) (length / 2) (by omega) (by omega)
    · exact ⟨_, rfl⟩

theorem validateLength_loop_halved_pos (fuel : Nat) : ∀ (length v : Nat), 1 ≤ length →
    v ∈ validateLength_loop_halved fuel length → 1 ≤ v := by
  induction fuel with
  | zero => intro length v _ hv; simp [validateLength_loop_halved] at hv
  | succ n ih =>
    intro length v h1 hv
    unfold validateLength_loop_halved at hv
    split_ifs at hv with h4 h5
    · simp at hv
    · rcases List.mem_cons.mp hv with rfl | hv
      · omega
      · exact ih (length / 2) v (by omega) hv
    · rcases List.mem_cons.mp hv with rfl | hv
      · omega
      · simp at hv

theorem validateLength_loop_zero (fuel : Nat) : ∀ (pI : Nat),
    validateLength_loop fuel pI 0 = none := by
  induction fuel with
  | zero => intro pI; rfl
  | succ n ih =>
    intro pI
    unfold validateLength_loop
    simp [ih]

/-- C26: for every `length` and every `*pI`, `validateLength` returns; a budget
of `k` iterations of its `do`-`while` is enough for every `length < 2 ^ (k + 1)`,
so 31 iterations are enough for every 32-bit `length`.  Every value that
`length` takes after a halving is at least 1, for every iteration budget, and
the loop entered with 0 would never return. -/
theorem validateLength_terminates (fuel pI length : Nat) (hfuel : length < 2 ^ (fuel + 1)) :
    (∃ r, validateLength fuel pI length = some r) ∧
    (∀ fuel2 v, v ∈ validateLength_halved fuel2 length → v ≠ 0) ∧
    (∀ fuel2 pI2, validateLength_loop fuel2 pI2 0 = none) := by
  refine ⟨?_, ?_, fun fuel2 pI2 => validateLength_loop_zero fuel2 pI2⟩
  · by_cases h1 : length = 0 ∨ length = 1
    · exact ⟨_, validateLength_short fuel pI length h1⟩
    · by_cases ho : length % 2 = 1
      · exact ⟨_, validateLength_odd fuel pI length (by omega) ho⟩
      · rw [validateLength_even fuel pI length (by omega) (by omega)]
        rw [pow_succ] at hfuel
        exact validateLength_loop_total_pow fuel 1 (length / 2) (by omega) (by omega)
  · intro fuel2 v hv
    by_cases h1 : length = 0 ∨ length = 1
    · simp [validateLength_halved, h1] at hv
    · by_cases ho : length % 2 = 1
      · simp [validateLength_halved, h1, ho] at hv
      · have hv2 : v ∈ length / 2 :: validateLength_loop_halved fuel2 (length / 2) := by
          simpa [validateLength_halved, h1, ho] using hv
        rcases List.mem_cons.mp hv2 with rfl | hv3
        · omega
        · have := validateLength_loop_halved_pos fuel2 (length / 2) v (by omega) hv3
          omega

/-- C26, witness: `length = 24` with a budget of 4 iterations. -/
theorem validateLength_terminates_witness :
    24 < 2 ^ (4 + 1) ∧
    ((∃ r, validateLength 4 0 24 = some r) ∧
    (∀ fuel2 v, v ∈ validateLength_halved fuel2 24 → v ≠ 0) ∧
    (∀ fuel2 pI2, validateLength_loop fuel2 pI2 0 = none)) :=
  ⟨by decide, validateLength_terminates 4 0 24 (by decide)⟩

theorem roundDiv_of_neg (x : Int) (hx : x < 0) :
    roundDiv x = ⌈(x : ℚ) / SQRT_2q + 1 / 2⌉ := by
  have e : (x : ℚ) / SQRT_2q + 1 / 2 =
      -(((-(2 * x * 8388608 + 11863287) : ℤ) : ℚ) / ((23726574 : ℕ) : ℚ)) := by
    unfold SQRT_2q
    push_cast
    field_simp
    ring
  rw [e, Int.ceil_neg, Rat.floor_intCast_div_natCast]
  unfold roundDiv SQRT_2_num SQRT_2_den
  have h : 2 * x * 8388608 + 11863287 = -(-(2 * x * 8388608 + 11863287)) := by ring
  rw [h, Int.neg_tdiv, Int.tdiv_eq_ediv (by omega) (by omega)]
  norm_num

theorem roundDiv_of_neg_floor (x : Int) (hx : x < 0) :
    roundDiv x = ⌊(x : ℚ) / SQRT_2q + 1 / 2⌋ + 1 := by
  have e : (x : ℚ) / SQRT_2q + 1 / 2 =
      ((2 * x * 8388608 + 11863287 : ℤ) : ℚ) / ((23726574 : ℕ) : ℚ) := by
    unfold SQRT_2q
    push_cast
    field_simp
    ring
  rw [e, Rat.floor_intCast_div_natCast]
  unfold roundDiv SQRT_2_num SQRT_2_den
  have h : 2 * x * 8388608 + 11863287 = -(-(2 * x * 8388608 + 11863287)) := by ring
  rw [h, Int.neg_tdiv, Int.tdiv_eq_ediv (by omega) (by omega)]
  push_cast
  omega

/-- C22, failing input: for `(a, b) = (0, 2)` the quotient `-2 / SQRT_2` is
about `-1.41`.  Its nearest integer is `-1` (the quotient lies within `1/2` of
`-1`); this is also the quotient rounded toward positive infinity, and it is
255 as a byte.  The lifting step stores 0 in the second cell. -/
theorem fluct_not_ceil :
    fluct 0 2 = 0 ∧
    liftStep (fun k => if k = 0 then 0 else 2) 0 1 (0 + 1) = 0 ∧
    |((-1 : ℤ) : ℚ) - ((0 : ℚ) - (2 : ℚ)) / SQRT_2q| < 1 / 2 ∧
    ⌈((0 : ℚ) - (2 : ℚ)) / SQRT_2q⌉ = -1 ∧ toUChar (-1) = 255 ∧
    ⌈((0 : ℚ) - (2 : ℚ)) / SQRT_2q⌉ % 256 = 255 ∧
    (fluct 0 2 : ℤ) ≠ ⌈((0 : ℚ) - (2 : ℚ)) / SQRT_2q⌉ % 256 := by
  have h : ⌈((0 : ℚ) - (2 : ℚ)) / SQRT_2q⌉ = -1 := by
    rw [Int.ceil_eq_iff]
    unfold SQRT_2q
    constructor <;> norm_num
  have f : fluct 0 2 = 0 := by decide
  have hl : liftStep (fun k => if k = 0 then 0 else 2) 0 1 (0 + 1) = 0 := by
    rw [liftStep_apply_snd]
    exact f
  have ha : |((-1 : ℤ) : ℚ) - ((0 : ℚ) - (2 : ℚ)) / SQRT_2q| < 1 / 2 := by
    rw [abs_lt]
    unfold SQRT_2q
    constructor <;> norm_num
  rw [h, f]
  exact ⟨rfl, hl, ha, rfl, by decide, by decide, by decide⟩

/-- For all `a < b` the fluctuation stored by the lifting step is
`⌈(a - b) / SQRT_2 + 1/2⌉` reduced modulo 256 (the truncation of `x + 0.5`
toward zero for a negative `x`), and the lifting step stores it in the second
cell of the pair. -/
theorem fluct_negative (a b : Nat) (hab : a < b) :
    ((fluct a b : ℤ) = ⌈((a : ℚ) - (b : ℚ)) / SQRT_2q + 1 / 2⌉ % 256) ∧
    (∀ (arr : Buf) (n v : Nat), arr n = a → arr (n + v) = b →
      liftStep arr n v (n + v) = fluct a b) := by
  constructor
  · have h := roundDiv_of_neg ((a : ℤ) - (b : ℤ)) (by omega)
    push_cast at h
    rw [← h]
    unfold fluct toUChar
    rw [Int.toNat_of_nonneg (Int.emod_nonneg _ (by omega))]
  · intro arr n v ha hb
    rw [liftStep_apply_snd, ha, hb]

/-- The pair `(0, 2)` as an instance of `fluct_negative`. -/
theorem fluct_negative_witness :
    0 < 2 ∧
    ((fluct 0 2 : ℤ) = ⌈(((0 : ℕ) : ℚ) - ((2 : ℕ) : ℚ)) / SQRT_2q + 1 / 2⌉ % 256) ∧
    (∀ (arr : Buf) (n v : Nat), arr n = 0 → arr (n + v) = 2 →
      liftStep arr n v (n + v) = fluct 0 2) :=
  ⟨by decide, fluct_negative 0 2 (by decide)⟩

/-- For all `a < b` the stored fluctuation is one more than the nearest
integer `⌊(a - b) / SQRT_2 + 1/2⌋` of the quotient, reduced modulo 256. -/
theorem fluct_negative_above_nearest (a b : Nat) (hab : a < b) :
    (fluct a b : ℤ) = (⌊((a : ℚ) - (b : ℚ)) / SQRT_2q + 1 / 2⌋ + 1) % 256 := by
  have h := roundDiv_of_neg_floor ((a : ℤ) - (b : ℤ)) (by omega)
  push_cast at h
  rw [← h]
  unfold fluct toUChar
  rw [Int.toNat_of_nonneg (Int.emod_nonneg _ (by omega))]

/-! ## Column functions as row functions on the transpose -/

theorem transposeIdx_lt (N n : Nat) (hn : n < N * N) : transposeIdx N n < N * N := by
  unfold transposeIdx
  rw [if_pos hn]
  have hN : 0 < N := by
    rcases Nat.eq_zero_or_pos N with rfl | h
    · simp at hn
    · exact h
  exact addr_row_lt N (n % N) (n / N) (Nat.mod_lt _ hN) (Nat.div_lt_of_lt_mul hn)

theorem transposeIdx_involutive (N n : Nat) : transposeIdx N (transposeIdx N n) = n := by
  by_cases hn : n < N * N
  · have hlt := transposeIdx_lt N n hn
    have hN : 0 < N := by
      rcases Nat.eq_zero_or_pos N with rfl | h
      · simp at hn
      · exact h
    have hq : n / N < N := Nat.div_lt_of_lt_mul hn
    have e : transposeIdx N n = n % N * N + n / N := by
      unfold transposeIdx
      rw [if_pos hn]
    unfold transposeIdx at hlt ⊢
    rw [if_pos hn] at hlt ⊢
    rw [if_pos hlt, row_mod N _ _ hq, row_div N _ _ hq]
    exact Nat.div_add_mod' n N
  · unfold transposeIdx
    rw [if_neg hn, if_neg hn]

theorem transposeIdx_row (N j x : Nat) (hj : j < N) (hx : x < N) :
    transposeIdx N (j * N + x) = j + x * N := by
  unfold transposeIdx
  rw [if_pos (addr_row_lt N j x hj hx), row_mod N j x hx, row_div N j x hx]
  omega

theorem transpose_transpose (N : Nat) (A : Buf) : transpose N (transpose N A) = A := by
  funext n
  unfold transpose
  rw [transposeIdx_involutive]

theorem doWhile_map {σ τ : Type} (body : σ → σ × Bool) (body2 : τ → τ × Bool)
    (cond : σ → Bool) (cond2 : τ → Bool) (φ : σ → τ) (Inv : σ → Prop)
    (hInv : ∀ s, Inv s → Inv (body s).1)
    (hb : ∀ s, Inv s → body2 (φ s) = (φ (body s).1, (body s).2))
    (hc : ∀ s, cond2 (φ s) = cond s) :
    ∀ (fuel : Nat) (s : σ), Inv s →
      doWhile body2 cond2 fuel (φ s) = (doWhile body cond fuel s).map φ := by
  intro fuel
  induction fuel with
  | zero => intro s _; rfl
  | succ fuel ih =>
    intro s hs
    rw [doWhile_succ, doWhile_succ, hb s hs]
    by_cases h1 : (body s).2 = true
    · simp [h1]
    · by_cases h2 : cond (body s).1 = true
      · simp only [h1, hc, h2]
        exact ih _ (hInv s hs)
      · simp [h1, hc, h2]

theorem foldlM_map_mem {σ τ α : Type} (pr : τ → σ) (f : σ → α → Option σ)
    (g : τ → α → Option τ) :
    ∀ (xs : List α), (∀ t x, x ∈ xs → (g t x).map pr = f (pr t) x) →
      ∀ (t : τ), (xs.foldlM g t).map pr = xs.foldlM f (pr t) := by
  intro xs
  induction xs with
  | nil => intro _ t; rfl
  | cons x xs ih =>
    intro h t
    rw [List.foldlM_cons, List.foldlM_cons]
    have hx := h t x (List.mem_cons_self _ _)
    cases hg : g t x with
    | none =>
      rw [hg] at hx
      rw [← hx]
      rfl
    | some t1 =>
      rw [hg] at hx
      rw [← hx]
      exact ih (fun t y hy => h t y (List.mem_cons_of_mem _ hy)) t1

/-- One iteration of a walk keeps its offset in a set that is closed under
the index map and contains the seed. -/
theorem gBody_index_closed (addr : Nat → Nat) (inA : Nat → Prop) [DecidablePred inA]
    (nextA nextB : Nat → Nat) (mark : Nat → Prop) [DecidablePred mark] (idx : Nat → Nat)
    (P : Nat → Prop) (hP : ∀ x, P x → P (gNext inA nextA nextB x)) (j : Nat) (s : Walk)
    (hs : P s.indexTemp02) : P (gBody addr inA nextA nextB mark idx j s).1.indexTemp02 := by
  have hn := hP _ hs
  unfold gNext at hn
  unfold gBody
  by_cases hA : inA s.indexTemp02
  · rw [if_pos hA] at hn
    by_cases hbr : nextA s.indexTemp02 = j
    · simp only [if_pos hA, if_pos hbr]
      exact hs
    · simp only [if_pos hA, if_neg hbr]
      exact hn
  · rw [if_neg hA] at hn
    by_cases hfirst : s.indexTemp02 = j
    · simp only [if_neg hA, if_pos hfirst]
      exact hn
    · simp only [if_neg hA, if_neg hfirst]
      exact hn

theorem update_reindex (σ : Nat → Nat) (hσ : ∀ n, σ (σ n) = n) (a : Buf) (p q v : Nat)
    (hpq : p = σ q) :
    Function.update (fun n => a (σ n)) q v = fun n => Function.update a p v (σ n) := by
  funext n
  simp only [Function.update_apply]
  by_cases h : n = q
  · rw [if_pos h, if_pos (by rw [h, hpq])]
  · rw [if_neg h, if_neg]
    intro e
    apply h
    rw [hpq] at e
    have := congrArg σ e
    rw [hσ, hσ] at this
    exact this

/-- One iteration of a walk on the renamed buffer is the renamed iteration. -/
theorem gBody_reindex (σ : Nat → Nat) (hσ : ∀ n, σ (σ n) = n) (addr addr2 : Nat → Nat)
    (inA : Nat → Prop) [DecidablePred inA]
    (nextA nextB : Nat → Nat) (mark : Nat → Prop) [DecidablePred mark] (idx : Nat → Nat)
    (L j : Nat) (haddr : ∀ x, x < L → addr x = σ (addr2 x))
    (hmap : ∀ x, x < L → gNext inA nextA nextB x < L) (hj : j < L) (s : Walk)
    (hs : s.indexTemp02 < L) :
    gBody addr2 inA nextA nextB mark idx j (Walk.reindex σ s) =
      (Walk.reindex σ (gBody addr inA nextA nextB mark idx j s).1,
        (gBody addr inA nextA nextB mark idx j s).2) := by
  have hn := hmap _ hs
  unfold gNext at hn
  have rj : σ (addr2 j) = addr j := (haddr j hj).symm
  have rx : σ (addr2 s.indexTemp02) = addr s.indexTemp02 := (haddr _ hs).symm
  unfold gBody Walk.reindex
  by_cases hA : inA s.indexTemp02
  · rw [if_pos hA] at hn
    have rn : σ (addr2 (nextA s.indexTemp02)) = addr (nextA s.indexTemp02) :=
      (haddr _ hn).symm
    by_cases hbr : nextA s.indexTemp02 = j
    · simp only [if_pos hA, if_pos hbr]
      rw [update_reindex σ hσ s.arr (addr j) (addr2 j) _ rj.symm]
    · simp only [if_pos hA, if_neg hbr, rn]
      rw [update_reindex σ hσ s.arr (addr j) (addr2 j) _ rj.symm,
        update_reindex σ hσ _ (addr (nextA s.indexTemp02)) (addr2 (nextA s.indexTemp02)) _
          rn.symm]
      beta_reduce
      rw [rj]
  · rw [if_neg hA] at hn
    have rn : σ (addr2 (nextB s.indexTemp02)) = addr (nextB s.indexTemp02) :=
      (haddr _ hn).symm
    by_cases hfirst : s.indexTemp02 = j
    · simp only [if_neg hA, if_pos hfirst, rn, rx]
      rw [update_reindex σ hσ s.arr (addr (nextB s.indexTemp02))
        (addr2 (nextB s.indexTemp02)) _ rn.symm]
    · simp only [if_neg hA, if_neg hfirst, rn]
      rw [update_reindex σ hσ s.arr (addr j) (addr2 j) _ rj.symm,
        update_reindex σ hσ _ (addr (nextB s.indexTemp02)) (addr2 (nextB s.indexTemp02)) _
          rn.symm]
      beta_reduce
      rw [rj]

/-- The seed loop on the renamed buffer is the renamed seed loop. -/
theorem gRearrange_reindex (σ : Nat → Nat) (hσ : ∀ n, σ (σ n) = n) (addr addr2 : Nat → Nat)
    (inA : Nat → Prop) [DecidablePred inA]
    (nextA nextB : Nat → Nat) (mark : Nat → Prop) [DecidablePred mark] (idx : Nat → Nat)
    (guard : Prop) [Decidable guard] (L : Nat) (haddr : ∀ x, x < L → addr x = σ (addr2 x))
    (hmap : ∀ x, x < L → gNext inA nextA nextB x < L) (seeds : List Nat)
    (hseeds : ∀ j, j ∈ seeds → j < L) (fuel : Nat) (st : Buf × (Nat → Nat)) :
    gRearrange addr2 inA nextA nextB mark idx guard seeds fuel (fun n => st.1 (σ n), st.2) =
      (gRearrange addr inA nextA nextB mark idx guard seeds fuel st).map
        (fun p => (fun n => p.1 (σ n), p.2)) := by
  unfold gRearrange
  refine (foldlM_map_mem (fun p : Buf × (Nat → Nat) => ((fun n => p.1 (σ n), p.2) :
    Buf × (Nat → Nat))) _ _ seeds ?_ st).symm
  intro t j hj
  have hjL := hseeds j hj
  by_cases hskip : guard ∧ t.2 (idx j) ≠ 0
  · simp only [if_pos hskip]
    rfl
  · simp only [if_neg hskip]
    rw [Option.map_map]
    have h := doWhile_map (gBody addr inA nextA nextB mark idx j)
      (gBody addr2 inA nextA nextB mark idx j) (fun s => decide (s.indexTemp02 ≠ j))
      (fun s => decide (s.indexTemp02 ≠ j)) (Walk.reindex σ) (fun s => s.indexTemp02 < L)
      (fun s hs => gBody_index_closed addr inA nextA nextB mark idx (fun x => x < L) hmap j s hs)
      (fun s hs => gBody_reindex σ hσ addr addr2 inA nextA nextB mark idx L j haddr hmap hjL s hs)
      (fun _ => rfl) fuel
      { arr := t.1, indexMask := t.2, valueTemp := 0, indexTemp02 := j } hjL
    have e : Walk.reindex σ { arr := t.1, indexMask := t.2, valueTemp := 0, indexTemp02 := j } =
        { arr := fun n => t.1 (σ n), indexMask := t.2, valueTemp := 0, indexTemp02 := j } := rfl
    rw [e] at h
    rw [h, Option.map_map]
    rfl

/-- C23: for every `N`, every even `L` with `2 ≤ L ≤ N`, every column `j < N`
and every buffer `A`, the row packer on row `j` of the transpose of `A` returns
a buffer `out`, and the column packer on column `j` of `A` returns the
transpose of `out`. -/
theorem rearrange2DFromTC_transpose (N L fuel j : Nat) (hL : L % 2 = 0) (_h2 : 2 ≤ L)
    (hLN : L ≤ N) (hj : j < N) (hfuel : L - 2 ≤ fuel) (A : Buf) :
    ∃ out, rearrange2DFromLR fuel (transpose N A) N N L j = some out ∧
      rearrange2DFromTC fuel A N N L j = some (transpose N out) := by
  obtain ⟨r, hr, -⟩ := gPack_total (fun k => j + k * N) L fuel hL hfuel (A, fun _ => 0)
  have h := gRearrange_reindex (transposeIdx N) (transposeIdx_involutive N)
    (fun k => j + k * N) (fun k => j * N + k) (fun x => x % 2 = 0) (fun x => x / 2)
    (fun x => x + (L / 2 - 1) - (x - 1) / 2) (fun x => x ≤ L / 2 - 1 ∧ L / 4 > 0)
    (fun x => x / 2) (L / 4 > 0) L
    (fun x hx => (transposeIdx_row N j x hj (by omega)).symm)
    (fun x hx => packIdx_lt L x hL hx) (List.range' 1 ((L / 2 - 1 + 1) / 2) 2)
    (by
      intro s hs
      rw [List.mem_range'] at hs
      obtain ⟨t, ht, rfl⟩ := hs
      omega) fuel (A, fun _ => 0)
  rw [hr] at h
  refine ⟨transpose N r.1, ?_, ?_⟩
  · rw [rearrange2DFromLR_eq]
    show Option.map Prod.fst (gRearrange (fun k => j * N + k) (fun x => x % 2 = 0)
      (fun x => x / 2) (fun x => x + (L / 2 - 1) - (x - 1) / 2)
      (fun x => x ≤ L / 2 - 1 ∧ L / 4 > 0) (fun x => x / 2) (L / 4 > 0)
      (List.range' 1 ((L / 2 - 1 + 1) / 2) 2) fuel
      (fun n => A (transposeIdx N n), fun _ => 0)) = some (transpose N r.1)
    rw [h]
    rfl
  · rw [rearrange2DFromTC_eq, hr, transpose_transpose]
    rfl

/-- C23, witness: column 1 of a 4 x 4 buffer, segment length 4. -/
theorem rearrange2DFromTC_transpose_witness :
    (4 % 2 = 0 ∧ 2 ≤ 4 ∧ 4 ≤ 4 ∧ 1 < 4 ∧ 4 - 2 ≤ 2) ∧
    ∃ out, rearrange2DFromLR 2 (transpose 4 (fun k => k)) 4 4 4 1 = some out ∧
      rearrange2DFromTC 2 (fun k => k) 4 4 4 1 = some (transpose 4 out) :=
  ⟨⟨by decide, by decide, by decide, by decide, by decide⟩,
    rearrange2DFromTC_transpose 4 4 2 1 (by decide) (by decide) (by decide) (by decide)
      (by decide) (fun k => k)⟩

/-- C24: for every `N`, every even `L` with `2 ≤ L ≤ N`, every column `j < N`
and every buffer `A`, the row unpacker on row `j` of the transpose of `A`
returns a buffer `out`, and the column unpacker on column `j` of `A` returns
the transpose of `out`. -/
theorem revertRearrange2DFromTC_transpose (N L fuel j : Nat) (hL : L % 2 = 0) (_h2 : 2 ≤ L)
    (hLN : L ≤ N) (hj : j < N) (hfuel : L - 2 ≤ fuel) (A : Buf) :
    ∃ out, revertRearrange2DFromLR fuel (transpose N A) N N L j = some out ∧
      revertRearrange2DFromTC fuel A N N L j = some (transpose N out) := by
  obtain ⟨r, hr, -⟩ := gUnpack_total (fun k => j + k * N) L fuel hL hfuel (A, fun _ => 0)
  have h := gRearrange_reindex (transposeIdx N) (transposeIdx_involutive N)
    (fun k => j + k * N) (fun k => j * N + k) (fun x => x < L / 2) (fun x => 2 * x)
    (fun x => 2 * x + 1 - L) (fun x => x % 2 = 0 ∧ L / 4 > 0)
    (fun x => (x - L / 2) / 2) (L / 4 > 0) L
    (fun x hx => (transposeIdx_row N j x hj (by omega)).symm)
    (fun x hx => unpackIdx_lt L x hL hx) (List.range' (L / 2) ((L - L / 2) / 2) 2)
    (by
      intro s hs
      rw [List.mem_range'] at hs
      obtain ⟨t, ht, rfl⟩ := hs
      omega) fuel (A, fun _ => 0)
  rw [hr] at h
  refine ⟨transpose N r.1, ?_, ?_⟩
  · rw [revertRearrange2DFromLR_eq]
    show Option.map Prod.fst (gRearrange (fun k => j * N + k) (fun x => x < L / 2)
      (fun x => 2 * x) (fun x => 2 * x + 1 - L) (fun x => x % 2 = 0 ∧ L / 4 > 0)
      (fun x => (x - L / 2) / 2) (L / 4 > 0) (List.range' (L / 2) ((L - L / 2) / 2) 2) fuel
      (fun n => A (transposeIdx N n), fun _ => 0)) = some (transpose N r.1)
    rw [h]
    rfl
  · rw [revertRearrange2DFromTC_eq, hr, transpose_transpose]
    rfl

/-- C24, witness: column 2 of a 6 x 6 buffer, segment length 6. -/
theorem revertRearrange2DFromTC_transpose_witness :
    (6 % 2 = 0 ∧ 2 ≤ 6 ∧ 6 ≤ 6 ∧ 2 < 6 ∧ 6 - 2 ≤ 4) ∧
    ∃ out, revertRearrange2DFromLR 4 (transpose 6 (fun k => k)) 6 6 6 2 = some out ∧
      revertRearrange2DFromTC 4 (fun k => k) 6 6 6 2 = some (transpose 6 out) :=
  ⟨⟨by decide, by decide, by decide, by decide, by decide⟩,
    revertRearrange2DFromTC_transpose 6 6 4 2 (by decide) (by decide) (by decide) (by decide)
      (by decide) (fun k => k)⟩

/-! ## Which seeds the packer walks -/

theorem iterate_mod_of_return (f : Nat → Nat) (x p : Nat) (h : f^[p] x = x) (k : Nat) :
    f^[k] x = f^[k % p] x := by
  conv_lhs => rw [← Nat.mod_add_div k p]
  rw [Function.iterate_add_apply, Nat.mul_comm, iterate_mul_of_return f x p h]

/-- On a point that returns to itself, lying on the same cycle is symmetric. -/
theorem orbit_symm (f : Nat → Nat) (x y : Nat) (hret : ∃ p, 0 < p ∧ f^[p] x = x)
    (h : ∃ k, f^[k] x = y) : ∃ k, f^[k] y = x := by
  obtain ⟨p, hp0, hp⟩ := hret
  obtain ⟨k, rfl⟩ := h
  refine ⟨k * (p - 1), ?_⟩
  rw [← Function.iterate_add_apply]
  have e : k * (p - 1) + k = k * p := by
    obtain ⟨q, rfl⟩ : ∃ q, p = q + 1 := ⟨p - 1, by omega⟩
    simp [Nat.mul_succ]
  rw [e, iterate_mul_of_return f x p hp k]

theorem orbit_trans (f : Nat → Nat) (x y z : Nat) (h1 : ∃ k, f^[k] x = y)
    (h2 : ∃ k, f^[k] y = z) : ∃ k, f^[k] x = z := by
  obtain ⟨k1, rfl⟩ := h1
  obtain ⟨k2, rfl⟩ := h2
  exact ⟨k2 + k1, Function.iterate_add_apply f k2 k1 x⟩

theorem gRearrangeWalked_cons (addr : Nat → Nat) (inA : Nat → Prop) [DecidablePred inA]
    (nextA nextB : Nat → Nat) (mark : Nat → Prop) [DecidablePred mark] (idx : Nat → Nat)
    (guard : Prop) [Decidable guard] (fuel : Nat) (t : (Buf × (Nat → Nat)) × List Nat)
    (j : Nat) (rest : List Nat) :
    gRearrangeWalked addr inA nextA nextB mark idx guard (j :: rest) fuel t =
      (if guard ∧ t.1.2 (idx j) ≠ 0 then some t
        else
          (doWhile (gBody addr inA nextA nextB mark idx j)
            (fun s => decide (s.indexTemp02 ≠ j)) fuel
            { arr := t.1.1, indexMask := t.1.2, valueTemp := 0, indexTemp02 := j }).map
            (fun s => ((s.arr, s.indexMask), t.2 ++ [j]))).bind
        (fun t2 => gRearrangeWalked addr inA nextA nextB mark idx guard rest fuel t2) := by
  simp only [gRearrangeWalked, List.foldlM_cons]
  rfl

/-- Forgetting the list of walked seeds gives the seed loop. -/
theorem gRearrangeWalked_erase (addr : Nat → Nat) (inA : Nat → Prop) [DecidablePred inA]
    (nextA nextB : Nat → Nat) (mark : Nat → Prop) [DecidablePred mark] (idx : Nat → Nat)
    (guard : Prop) [Decidable guard] (seeds : List Nat) (fuel : Nat)
    (t : (Buf × (Nat → Nat)) × List Nat) :
    (gRearrangeWalked addr inA nextA nextB mark idx guard seeds fuel t).map Prod.fst =
      gRearrange addr inA nextA nextB mark idx guard seeds fuel t.1 := by
  unfold gRearrangeWalked gRearrange
  apply foldlM_erase Prod.fst
  intro u j
  by_cases hskip : guard ∧ u.1.2 (idx j) ≠ 0
  · simp only [if_pos hskip]
    rfl
  · simp only [if_neg hskip]
    rw [Option.map_map]
    rfl

/-- The seed loop over increasing seeds walks exactly the seeds that are not
in the set `D` of offsets on cycles walked before and that no smaller seed
reaches; every seed ends on a walked cycle. -/
theorem gRearrangeWalked_inv (addr : Nat → Nat) (haddr : Function.Injective addr)
    (inA : Nat → Prop) [DecidablePred inA]
    (nextA nextB : Nat → Nat) (mark : Nat → Prop) [DecidablePred mark] (idx : Nat → Nat)
    (f : Nat → Nat)
    (hf : gNext inA nextA nextB = f) (guard : Prop) [Decidable guard] (hguard : guard)
    (L fuel : Nat) (hmap : ∀ x, x < L → f x < L)
    (hret : ∀ x, x < L → ∃ p, 0 < p ∧ p ≤ fuel ∧ f^[p] x = x)
    (S : Nat → Prop)
    (hS1 : ∀ s, S s → s < L ∧ ¬ inA s ∧ mark s ∧ f s ≠ s)
    (hS2 : ∀ y, y < L → ¬ inA y → mark y → S y)
    (hS3 : ∀ s s2, S s → S s2 → idx s = idx s2 → s = s2) :
    ∀ (seeds : List Nat), seeds.Pairwise (fun a b => a < b) → (∀ s, s ∈ seeds → S s) →
    ∀ (D : Nat → Prop) (arr : Buf) (mask : Nat → Nat) (ws : List Nat),
      (∀ x, D x → D (f x)) →
      (∀ s, s ∈ seeds → (mask (idx s) ≠ 0 ↔ D s)) →
      ∃ (arr2 : Buf) (mask2 : Nat → Nat) (ws2 : List Nat),
        gRearrangeWalked addr inA nextA nextB mark idx guard seeds fuel ((arr, mask), ws) =
          some ((arr2, mask2), ws ++ ws2) ∧
        (∀ w, w ∈ ws2 ↔ w ∈ seeds ∧ ¬ D w ∧
          ∀ s, s ∈ seeds → s < w → ¬ ∃ k, f^[k] s = w) ∧
        (∀ s, s ∈ seeds → D s ∨ ∃ w, w ∈ ws2 ∧ ∃ k, f^[k] w = s) ∧
        ws2.Pairwise (fun a b => a < b) := by
  intro seeds
  induction seeds with
  | nil =>
    intro _ _ D arr mask ws _ _
    refine ⟨arr, mask, [], by rw [List.append_nil]; rfl, ?_, ?_, List.Pairwise.nil⟩
    · intro w
      simp
    · intro s hs
      exact absurd hs (List.not_mem_nil s)
  | cons j rest ih =>
    intro hsorted hS D arr mask ws h2 h6
    have hjlt : ∀ s, s ∈ rest → j < s := (List.pairwise_cons.mp hsorted).1
    have hsorted2 : rest.Pairwise (fun a b => a < b) := (List.pairwise_cons.mp hsorted).2
    have hS2r : ∀ s, s ∈ rest → S s := fun s hs => hS s (List.mem_cons_of_mem _ hs)
    have hSj : S j := hS j (List.mem_cons_self _ _)
    obtain ⟨hjL, hjA, hjm, hjf⟩ := hS1 j hSj
    by_cases hm : mask (idx j) ≠ 0
    · -- the seed was met by an earlier walk
      have hDj : D j := (h6 j (List.mem_cons_self _ _)).mp hm
      obtain ⟨arr2, mask2, ws2, hrun, g1, g2, g3⟩ :=
        ih hsorted2 hS2r D arr mask ws h2 (fun s hs => h6 s (List.mem_cons_of_mem _ hs))
      refine ⟨arr2, mask2, ws2, ?_, ?_, ?_, g3⟩
      · rw [gRearrangeWalked_cons, if_pos ⟨hguard, hm⟩]
        exact hrun
      · intro w
        rw [g1 w]
        constructor
        · rintro ⟨hw, hDw, hmin⟩
          refine ⟨List.mem_cons_of_mem _ hw, hDw, ?_⟩
          intro s hs hlt
          rcases List.mem_cons.mp hs with rfl | hs
          · rintro ⟨k, rfl⟩
            exact hDw (iterate_closed f D h2 _ hDj k)
          · exact hmin s hs hlt
        · rintro ⟨hw, hDw, hmin⟩
          rcases List.mem_cons.mp hw with rfl | hw
          · exact absurd hDj hDw
          · exact ⟨hw, hDw, fun s hs => hmin s (List.mem_cons_of_mem _ hs)⟩
      · intro s hs
        rcases List.mem_cons.mp hs with rfl | hs
        · exact Or.inl hDj
        · exact g2 s hs
    · -- a fresh cycle
      have hDj : ¬ D j := fun h => hm ((h6 j (List.mem_cons_self _ _)).mpr h)
      obtain ⟨p, hp0, hpf, hper, hmin⟩ := exists_first_return f j fuel (hret j hjL)
      have hp2 : 2 ≤ p := by
        rcases Nat.lt_or_ge p 2 with h | h
        · have : p = 1 := by omega
          subst this
          exact absurd hper hjf
        · exact h
      obtain ⟨s2, hwalk, -, -, w3⟩ := doWhile_gBody_walk addr inA nextA nextB mark idx haddr f hf
        j p hjA hp2 hper hmin fuel hpf arr mask 0
      have horbL : ∀ m, f^[m] j < L := iterate_lt_of_maps f L hmap j hjL
      obtain ⟨arr2, mask2, ws2, hrun, g1, g2, g3⟩ :=
        ih hsorted2 hS2r (fun x => D x ∨ ∃ k, f^[k] j = x) s2.arr s2.indexMask (ws ++ [j])
          (by
            rintro x (hx | ⟨k, rfl⟩)
            · exact Or.inl (h2 x hx)
            · exact Or.inr ⟨k + 1, Function.iterate_succ_apply' f k j⟩)
          (by
            intro s hs
            have hSs := hS2r s hs
            rw [w3, h6 s (List.mem_cons_of_mem _ hs)]
            constructor
            · rintro (h | ⟨m, _, _, hm3, hm4, hm5⟩)
              · exact Or.inl h
              · right
                exact ⟨m, hS3 _ _ (hS2 _ (horbL m) hm3 hm4) hSs hm5⟩
            · rintro (h | ⟨k, hk⟩)
              · exact Or.inl h
              · right
                obtain ⟨_, hsA, hsm, _⟩ := hS1 _ hSs
                have hk2 : f^[k % p] j = s := by
                  rw [← iterate_mod_of_return f j p hper k]
                  exact hk
                have hlt : k % p < p := Nat.mod_lt _ (by omega)
                have h1 : 1 ≤ k % p := by
                  rcases Nat.eq_zero_or_pos (k % p) with h0 | h0
                  · rw [h0] at hk2
                    have : j = s := hk2
                    have := hjlt s hs
                    omega
                  · exact h0
                refine ⟨k % p, h1, hlt, ?_, ?_, ?_⟩
                · rw [hk2]; exact hsA
                · rw [hk2]; exact hsm
                · rw [hk2])
      refine ⟨arr2, mask2, j :: ws2, ?_, ?_, ?_, ?_⟩
      · rw [gRearrangeWalked_cons, if_neg (fun h => hm h.2), hwalk]
        have e : ws ++ j :: ws2 = ws ++ [j] ++ ws2 := by simp
        rw [e]
        exact hrun
      · intro w
        rw [List.mem_cons, g1 w]
        constructor
        · rintro (rfl | ⟨hw, hDw, hmin2⟩)
          · refine ⟨List.mem_cons_self _ _, hDj, ?_⟩
            intro s hs hlt
            rcases List.mem_cons.mp hs with rfl | hs
            · omega
            · have := hjlt s hs
              omega
          · refine ⟨List.mem_cons_of_mem _ hw, fun h => hDw (Or.inl h), ?_⟩
            intro s hs hlt
            rcases List.mem_cons.mp hs with rfl | hs
            · exact fun h => hDw (Or.inr h)
            · exact hmin2 s hs hlt
        · rintro ⟨hw, hDw, hmin2⟩
          rcases List.mem_cons.mp hw with rfl | hw
          · exact Or.inl rfl
          · right
            refine ⟨hw, ?_, fun s hs => hmin2 s (List.mem_cons_of_mem _ hs)⟩
            rintro (h | h)
            · exact hDw h
            · exact hmin2 j (List.mem_cons_self _ _) (hjlt w hw) h
      · intro s hs
        rcases List.mem_cons.mp hs with rfl | hs
        · exact Or.inr ⟨s, List.mem_cons_self _ _, 0, rfl⟩
        · rcases g2 s hs with (h | h) | ⟨w, hw, hk⟩
          · exact Or.inl h
          · exact Or.inr ⟨j, List.mem_cons_self _ _, h⟩
          · exact Or.inr ⟨w, List.mem_cons_of_mem _ hw, hk⟩
      · refine List.pairwise_cons.mpr ⟨?_, g3⟩
        intro w hw
        exact hjlt w ((g1 w).mp hw).1

/-- C21: for every even `L ≥ 2`, `rearrange2DFromLR` returns, and an odd seed
offset `j ≤ L / 2 - 1` is walked by the outer loop if and only if it is the
smallest odd offset `≤ L / 2 - 1` on its cycle of the packer's index map; the
walked seeds are distinct and pairwise on different cycles, and every offset
that the index map moves lies on the cycle of exactly one walked seed. -/
theorem rearrange2DFromLR_walks_smallest_seeds (L fuel : Nat) (hL : L % 2 = 0) (_h2 : 2 ≤ L)
    (hfuel : L - 2 ≤ fuel) (arr : Buf) (rowLen colLen i : Nat) :
    ∃ out ws, rearrange2DFromLR_walked fuel arr rowLen colLen L i = some (out, ws) ∧
      rearrange2DFromLR fuel arr rowLen colLen L i = some out ∧
      (∀ j, j % 2 = 1 → j ≤ L / 2 - 1 →
        (j ∈ ws ↔ ∀ s, s % 2 = 1 → s ≤ L / 2 - 1 → (∃ k, (packIdx L)^[k] j = s) → j ≤ s)) ∧
      (∀ j, j ∈ ws → j % 2 = 1 ∧ j ≤ L / 2 - 1) ∧
      ws.Nodup ∧
      (∀ j j2, j ∈ ws → j2 ∈ ws → (∃ k, (packIdx L)^[k] j = j2) → j = j2) ∧
      (∀ x, x < L → packIdx L x ≠ x →
        ∃ j, j ∈ ws ∧ (∃ k, (packIdx L)^[k] j = x) ∧
          ∀ j2, j2 ∈ ws → (∃ k, (packIdx L)^[k] j2 = x) → j2 = j) := by
  rcases Nat.lt_or_ge L 4 with hsmall | h4
  · have hseeds : List.range' 1 ((L / 2 - 1 + 1) / 2) 2 = [] := by
      have : (L / 2 - 1 + 1) / 2 = 0 := by omega
      rw [this]; rfl
    refine ⟨arr, [], ?_, ?_, ?_, ?_, List.nodup_nil, ?_, ?_⟩
    · unfold rearrange2DFromLR_walked
      simp only [hseeds]
      rfl
    · rw [rearrange2DFromLR_eq, hseeds]
      rfl
    · intro j h1 h2
      omega
    · intro j hj
      exact absurd hj (List.not_mem_nil j)
    · intro j j2 hj
      exact absurd hj (List.not_mem_nil j)
    · intro x hx hne
      exfalso
      apply hne
      rcases Nat.mod_two_eq_zero_or_one x with h | h
      · rw [packIdx_even L x h]; omega
      · rw [packIdx_odd L x hL h hx]; omega
  · have hseedmem : ∀ s, s ∈ List.range' 1 ((L / 2 - 1 + 1) / 2) 2 ↔
        s % 2 = 1 ∧ s ≤ L / 2 - 1 := by
      intro s
      rw [List.mem_range']
      constructor
      · rintro ⟨t, ht, rfl⟩
        omega
      · rintro ⟨h1, h2⟩
        exact ⟨(s - 1) / 2, by omega, by omega⟩
    have hretp : ∀ x, x < L → ∃ p, 0 < p ∧ (packIdx L)^[p] x = x := by
      intro x hx
      obtain ⟨p, hp0, -, hp2⟩ := packIdx_returns L x hL h4 hx
      exact ⟨p, hp0, hp2⟩
    obtain ⟨arr2, mask2, ws2, hrun, g1, g2, g3⟩ := gRearrangeWalked_inv
      (fun k => i * colLen + k) (fun a b h => by simpa using h)
      (fun x => x % 2 = 0) (fun x => x / 2)
      (fun x => x + (L / 2 - 1) - (x - 1) / 2) (fun x => x ≤ L / 2 - 1 ∧ L / 4 > 0)
      (fun x => x / 2) (packIdx L) rfl (L / 4 > 0) (by omega) L fuel
      (fun x hx => packIdx_lt L x hL hx)
      (fun x hx => by
        obtain ⟨p, hp0, hp1, hp2⟩ := packIdx_returns L x hL h4 hx
        exact ⟨p, hp0, by omega, hp2⟩)
      (fun s => s ∈ List.range' 1 ((L / 2 - 1 + 1) / 2) 2)
      (by
        intro s hs
        obtain ⟨h1, h2⟩ := (hseedmem s).mp hs
        refine ⟨by omega, by omega, ⟨by omega, by omega⟩, ?_⟩
        rw [packIdx_odd L _ hL (by omega) (by omega)]
        omega)
      (by
        intro y hy hyA hym
        have hyA2 : ¬ y % 2 = 0 := hyA
        have hym2 : y ≤ L / 2 - 1 := hym.1
        exact (hseedmem y).mpr ⟨by omega, hym2⟩)
      (by
        intro s s2 hs hs2 e
        obtain ⟨h1, -⟩ := (hseedmem s).mp hs
        obtain ⟨h2, -⟩ := (hseedmem s2).mp hs2
        have e2 : s / 2 = s2 / 2 := e
        omega)
      (List.range' 1 ((L / 2 - 1 + 1) / 2) 2) (List.pairwise_lt_range' 1 _ 2 (by omega))
      (fun s hs => hs) (fun _ => False) arr (fun _ => 0) [] (fun x hx => hx.elim)
      (fun s _ => by simp)
    rw [List.nil_append] at hrun
    have hsL : ∀ s, s ∈ List.range' 1 ((L / 2 - 1 + 1) / 2) 2 → s < L := by
      intro s hs
      obtain ⟨h1, h2⟩ := (hseedmem s).mp hs
      omega
    have hdistinct : ∀ j j2, j ∈ ws2 → j2 ∈ ws2 → (∃ k, (packIdx L)^[k] j = j2) → j = j2 := by
      intro j j2 hj hj2 horb
      obtain ⟨hjs, -, hjmin⟩ := (g1 j).mp hj
      obtain ⟨hj2s, -, hj2min⟩ := (g1 j2).mp hj2
      rcases Nat.lt_trichotomy j j2 with h | h | h
      · exact absurd horb (hj2min j hjs h)
      · exact h
      · exact absurd (orbit_symm (packIdx L) j j2 (hretp j (hsL j hjs)) horb) (hjmin j2 hj2s h)
    refine ⟨arr2, ws2, ?_, ?_, ?_, ?_, g3.imp (fun h => Nat.ne_of_lt h), hdistinct, ?_⟩
    · unfold rearrange2DFromLR_walked
      simp only []
      rw [hrun]
      rfl
    · have he := gRearrangeWalked_erase (fun k => i * colLen + k) (fun x => x % 2 = 0)
        (fun x => x / 2) (fun x => x + (L / 2 - 1) - (x - 1) / 2)
        (fun x => x ≤ L / 2 - 1 ∧ L / 4 > 0) (fun x => x / 2) (L / 4 > 0)
        (List.range' 1 ((L / 2 - 1 + 1) / 2) 2) fuel ((arr, fun _ => 0), [])
      rw [hrun] at he
      rw [rearrange2DFromLR_eq, ← he]
      rfl
    · intro j hj1 hj2
      have hjs := (hseedmem j).mpr ⟨hj1, hj2⟩
      rw [g1 j]
      constructor
      · rintro ⟨-, -, hmin⟩ s hs1 hs2 horb
        have hss := (hseedmem s).mpr ⟨hs1, hs2⟩
        rcases Nat.lt_or_ge s j with h | h
        · exact absurd (orbit_symm (packIdx L) j s (hretp j (hsL j hjs)) horb) (hmin s hss h)
        · exact h
      · intro hmin
        refine ⟨hjs, fun h => h, ?_⟩
        intro s hss hlt horb
        obtain ⟨hs1, hs2⟩ := (hseedmem s).mp hss
        have := hmin s hs1 hs2 (orbit_symm (packIdx L) s j (hretp s (hsL s hss)) horb)
        omega
    · intro j hj
      exact (hseedmem j).mp ((g1 j).mp hj).1
    · intro x hx hne
      obtain ⟨k, hk⟩ := packIdx_cover L x hL hx hne
      rcases g2 _ hk with h | ⟨w, hw, horb⟩
      · exact h.elim
      · have hws := ((g1 w).mp hw).1
        have hxw : ∃ k, (packIdx L)^[k] x = w :=
          orbit_trans (packIdx L) x _ w ⟨k, rfl⟩
            (orbit_symm (packIdx L) w _ (hretp w (hsL w hws)) horb)
        have hwx : ∃ k, (packIdx L)^[k] w = x :=
          orbit_symm (packIdx L) x w (hretp x hx) hxw
        refine ⟨w, hw, hwx, ?_⟩
        intro j2 hj2 hj2x
        exact hdistinct j2 w hj2 hw (orbit_trans (packIdx L) j2 x w hj2x hxw)

/-- C21, witness: a row of length 8 with 6 iterations per walk. -/
theorem rearrange2DFromLR_walks_smallest_seeds_witness :
    (8 % 2 = 0 ∧ 2 ≤ 8 ∧ 8 - 2 ≤ 6) ∧
    ∃ out ws, rearrange2DFromLR_walked 6 (fun k => k) 8 8 8 0 = some (out, ws) ∧
      rearrange2DFromLR 6 (fun k => k) 8 8 8 0 = some out ∧
      (∀ j, j % 2 = 1 → j ≤ 8 / 2 - 1 →
        (j ∈ ws ↔ ∀ s, s % 2 = 1 → s ≤ 8 / 2 - 1 → (∃ k, (packIdx 8)^[k] j = s) → j ≤ s)) ∧
      (∀ j, j ∈ ws → j % 2 = 1 ∧ j ≤ 8 / 2 - 1) ∧
      ws.Nodup ∧
      (∀ j j2, j ∈ ws → j2 ∈ ws → (∃ k, (packIdx 8)^[k] j = j2) → j = j2) ∧
      (∀ x, x < 8 → packIdx 8 x ≠ x →
        ∃ j, j ∈ ws ∧ (∃ k, (packIdx 8)^[k] j = x) ∧
          ∀ j2, j2 ∈ ws → (∃ k, (packIdx 8)^[k] j2 = x) → j2 = j) :=
  ⟨⟨by decide, by decide, by decide⟩,
    rearrange2DFromLR_walks_smallest_seeds 8 6 (by decide) (by decide) (by decide)
      (fun k => k) 8 8 0⟩


end Wavelet2D
